import Mathlib

/-!
# Sparse matrix (`sparseMatrix.js`): embedding and verified properties

The class `SparseMatrix` of `sparse_matrix/code/src/sparseMatrix.js` keeps two
numbers `rows`, `cols` and a `Map` from the string key `${row},${col}` to a
value.  The embedding follows the JavaScript text:

* strings are lists of characters;
* the `Map` is its list of `[key, value]` pairs in insertion order, with `has`, `get`,
  `set` and `delete` acting on that list as a `Map` does;
* `rows` and `cols` are `parseInt` results, hence an integer or `NaN`;
* stored values and coordinates are integers, held in `Int`.  The numbers of
  JavaScript are doubles, which compute and print integers exactly inside the safe
  range (up to `2^53` in absolute value) and round beyond it.  The methods are given
  twice: in `SparseMatrix`, with the arithmetic, `Number`, `parseInt` and the template
  text computed on the integers, which is what the code does inside the safe range; and
  in `Dbl`, with every arithmetic result and every number read rounded to the nearest
  double (`toDouble`) and every number printed as JavaScript prints it (`numberText`,
  exponent form from `1e21` on).  The control flow of the two is the same;
* a method that mutates `this` returns the new state; a method that throws returns
  `Except.error`.

A `Map` filled through `setElement` on integer coordinates holds one entry per key and
every key is the text of two integers; `SparseMatrix.WF` states it, and the theorems
about arbitrary matrices assume it.

The properties whose truth depends on the size of the numbers (the values of a sum, a
difference or a product, the round trip through the text, the numbers read from a text)
are stated on `Dbl`, with the bound `Safe` (absolute value at most `2^53`) under which
they hold, and with the inputs beyond the bound at which they fail.  The properties that
do not depend on it (dimensions, errors, absence of stored zeros, frame of `setElement`,
shape of the written text) are stated on `SparseMatrix`.  A run of more than 308 digits
is read by JavaScript as `Infinity`, which is not an integer: every statement that gives
the number read from a text bounds it by `Safe`.
-/

namespace SparseMatrixJS

/-! ## Strings -/

/-- A JavaScript string, as the list of its characters. -/
abbrev Str := List Char

/-- White space and line terminators: what `String.prototype.trim` strips and what
`\s` matches in a regular expression. -/
def isSpace (ch : Char) : Bool :=
  let n := ch.toNat
  n = 9 || n = 10 || n = 11 || n = 12 || n = 13 || n = 32 || n = 160 || n = 5760 ||
  (8192 ≤ n && n ≤ 8202) || n = 8232 || n = 8233 || n = 8239 || n = 8287 ||
  n = 12288 || n = 65279

/-- The class `\d` of a regular expression: the ten ASCII digits. -/
def isDigit (ch : Char) : Bool :=
  48 ≤ ch.toNat && ch.toNat ≤ 57

/-- The method `s.trim()`. -/
def trim (s : Str) : Str :=
  ((s.dropWhile isSpace).reverse.dropWhile isSpace).reverse

/-- The method `s.split(sep)` for a one-character separator; the result is never empty. -/
def splitOn (sep : Char) : Str → List Str
  | [] => [[]]
  | ch :: rest =>
    if ch = sep then [] :: splitOn sep rest
    else
      match splitOn sep rest with
      | [] => [[ch]]
      | p :: ps => (ch :: p) :: ps

/-- The method `lines.join(sep)` for a one-character separator. -/
def joinWith (sep : Char) : List Str → Str
  | [] => []
  | [l] => l
  | l :: l' :: ls => l ++ sep :: joinWith sep (l' :: ls)

/-! ## Numbers and their decimal text -/

/-- The character of a decimal digit `d < 10`. -/
def digitChar (d : Nat) : Char := Char.ofNat (48 + d)

/-- Decimal digits of `n`, most significant first; `fuel` bounds the number of digits. -/
def natToDecAux : Nat → Nat → Str
  | 0, _ => []
  | fuel + 1, n =>
    if n < 10 then [digitChar n]
    else natToDecAux fuel (n / 10) ++ [digitChar (n % 10)]

/-- Decimal text of a natural number. -/
def natToDec (n : Nat) : Str := natToDecAux (n + 1) n

/-- The text `${i}` of an integer `i`: its decimal digits, after a `-` when negative. -/
def intToDec (i : Int) : Str :=
  if i < 0 then '-' :: natToDec i.natAbs else natToDec i.toNat

/-- Value of a string of decimal digits. -/
def parseDec (s : Str) : Nat :=
  s.foldl (fun acc ch => acc * 10 + (ch.toNat - 48)) 0

/-- The conversion `Number(s)` on the strings of shape `-?\d+`, the only shape the
program passes to it (parts of a key built from integers, groups captured by the
line pattern).  On any other string the answer is `none`: JavaScript answers `NaN`
for most of them and a number for a few literal forms that this model leaves out. -/
def jsNumber (s : Str) : Option Int :=
  match s with
  | '-' :: ds =>
    if ds ≠ [] ∧ ds.all isDigit = true then some (-(parseDec ds : Int)) else none
  | ds =>
    if ds ≠ [] ∧ ds.all isDigit = true then some (parseDec ds : Int) else none

/-- A number field of the matrix: the result of `parseInt`, an integer or `NaN`. -/
inductive JSNum where
  | nan : JSNum
  | int (n : Int) : JSNum
  deriving DecidableEq, Repr

namespace JSNum

/-- The function `Math.max(a, b)`: `NaN` as soon as one argument is `NaN`. -/
def max : JSNum → JSNum → JSNum
  | int a, int b => int (Max.max a b)
  | _, _ => nan

/-- The comparison `a !== b`: `NaN` differs from everything, itself included. -/
def strictNe : JSNum → JSNum → Bool
  | int a, int b => a ≠ b
  | _, _ => true

/-- The text `${a}`. -/
def toText : JSNum → Str
  | nan => ['N', 'a', 'N']
  | int n => intToDec n

/-- Number of rounds of `for (let j = 0; j < a; j++)`: the test `j < NaN` is false. -/
def loopBound : JSNum → Nat
  | nan => 0
  | int n => n.toNat

end JSNum

/-- Value of a hexadecimal digit, if the character is one. -/
def hexDigit? (ch : Char) : Option Nat :=
  let n := ch.toNat
  if 48 ≤ n ∧ n ≤ 57 then some (n - 48)
  else if 97 ≤ n ∧ n ≤ 102 then some (n - 87)
  else if 65 ≤ n ∧ n ≤ 70 then some (n - 55)
  else none

/-- Value of the longest prefix of `s` made of digits of the radix (`hex` for 16,
else 10), with the number of characters read. -/
def readDigits (hex : Bool) : Str → Nat → Nat → Nat × Nat
  | [], acc, cnt => (acc, cnt)
  | ch :: rest, acc, cnt =>
    if hex then
      match hexDigit? ch with
      | some d => readDigits hex rest (acc * 16 + d) (cnt + 1)
      | none => (acc, cnt)
    else if isDigit ch then readDigits hex rest (acc * 10 + (ch.toNat - 48)) (cnt + 1)
    else (acc, cnt)

/-- Digits part of `parseInt`: a `0x` or `0X` prefix selects radix 16; no digit gives `NaN`. -/
def parseIntDigits (neg : Bool) (s : Str) : JSNum :=
  let (hex, body) :=
    match s with
    | '0' :: 'x' :: t => (true, t)
    | '0' :: 'X' :: t => (true, t)
    | t => (false, t)
  let (v, cnt) := readDigits hex body 0 0
  if cnt = 0 then JSNum.nan
  else JSNum.int (if neg then -(v : Int) else (v : Int))

/-- The function `parseInt(x)` without radix, on a string or on `undefined` (`none`):
leading white space is skipped, a sign is read, then the digits. -/
def parseInt : Option Str → JSNum
  | none => JSNum.nan
  | some s =>
    match s.dropWhile isSpace with
    | '-' :: t => parseIntDigits true t
    | '+' :: t => parseIntDigits false t
    | t => parseIntDigits false t

/-! ## The `Map` of entries -/

/-- Key of the entry map: the string `${row},${col}`. -/
abbrev Key := Str

/-- A `Map` from keys to values, as the list of its entries in insertion order. -/
abbrev JSMap := List (Key × Int)

namespace JSMap

/-- The method `m.has(k)`. -/
def has : JSMap → Key → Bool
  | [], _ => false
  | (k', _) :: rest, k => if k' = k then true else has rest k

/-- The method `m.get(k)`; `none` is `undefined`. -/
def get : JSMap → Key → Option Int
  | [], _ => none
  | (k', v') :: rest, k => if k' = k then some v' else get rest k

/-- The method `m.set(k, v)`: overwrites in place, or appends a new entry. -/
def set : JSMap → Key → Int → JSMap
  | [], k, v => [(k, v)]
  | (k', v') :: rest, k, v =>
    if k' = k then (k, v) :: rest else (k', v') :: set rest k v

/-- The method `m.delete(k)`. -/
def delete : JSMap → Key → JSMap
  | [], _ => []
  | (k', v') :: rest, k =>
    if k' = k then delete rest k else (k', v') :: delete rest k

end JSMap

/-- The template string `${row},${col}`. -/
def keyOf (row col : Int) : Key :=
  intToDec row ++ ',' :: intToDec col

/-- The expression `key.split(',').map(Number)` destructured as `[row, col]`: the
first two parts, as numbers.  `none` when there are fewer than two parts or a part
is not of shape `-?\d+`, which no key built by `keyOf` is. -/
def splitKey (k : Key) : Option (Int × Int) :=
  match splitOn ',' k with
  | a :: b :: _ =>
    match jsNumber a, jsNumber b with
    | some r, some c => some (r, c)
    | _, _ => none
  | _ => none

/-! ## The class `SparseMatrix` -/

/-- State of a `SparseMatrix` object. -/
structure SparseMatrix where
  rows : JSNum
  cols : JSNum
  data : JSMap
  deriving DecidableEq, Repr

namespace SparseMatrix

/-- The object built by `new SparseMatrix()`. -/
def empty : SparseMatrix := ⟨JSNum.int 0, JSNum.int 0, []⟩

/-- The method `getElement(row, col)`. -/
def getElement (M : SparseMatrix) (row col : Int) : Int :=
  if M.data.has (keyOf row col) then (M.data.get (keyOf row col)).getD 0 else 0

/-- The method `setElement(row, col, value)`. -/
def setElement (M : SparseMatrix) (row col value : Int) : SparseMatrix :=
  if value = 0 then { M with data := M.data.delete (keyOf row col) }
  else { M with data := M.data.set (keyOf row col) value }

/-- One round of the first loop of `add`, over the entry `e` of the left operand.
An entry whose key does not split into two integers (there is none under `WF`) is
passed over here and in the other loops: JavaScript would write it at a key made of
`NaN`, which has no integer coordinates. -/
def addLeftStep (other : SparseMatrix) (result : SparseMatrix) (e : Key × Int) : SparseMatrix :=
  match splitKey e.1 with
  | some (row, col) => result.setElement row col (e.2 + other.getElement row col)
  | none => result

/-- One round of the second loop of `add`, over the entry `e` of the right operand. -/
def addRightStep (this : SparseMatrix) (result : SparseMatrix) (e : Key × Int) :
    SparseMatrix :=
  match splitKey e.1 with
  | some (row, col) =>
    if !this.data.has e.1 then result.setElement row col e.2 else result
  | none => result

/-- The method `this.add(matrix)`. -/
def add (this matrix : SparseMatrix) : SparseMatrix :=
  let result : SparseMatrix :=
    { empty with rows := JSNum.max this.rows matrix.rows, cols := JSNum.max this.cols matrix.cols }
  let result := this.data.foldl (addLeftStep matrix) result
  matrix.data.foldl (addRightStep this) result

/-- One round of the first loop of `subtract`. -/
def subLeftStep (other : SparseMatrix) (result : SparseMatrix) (e : Key × Int) : SparseMatrix :=
  match splitKey e.1 with
  | some (row, col) => result.setElement row col (e.2 - other.getElement row col)
  | none => result

/-- One round of the second loop of `subtract`, over the entry `e` of the right operand. -/
def subRightStep (this : SparseMatrix) (result : SparseMatrix) (e : Key × Int) :
    SparseMatrix :=
  match splitKey e.1 with
  | some (row, col) =>
    if !this.data.has e.1 then result.setElement row col (-e.2) else result
  | none => result

/-- The method `this.subtract(matrix)`. -/
def subtract (this matrix : SparseMatrix) : SparseMatrix :=
  let result : SparseMatrix :=
    { empty with rows := JSNum.max this.rows matrix.rows, cols := JSNum.max this.cols matrix.cols }
  let result := this.data.foldl (subLeftStep matrix) result
  matrix.data.foldl (subRightStep this) result

/-- Errors thrown by the class. -/
inductive Err where
  /-- The error `Input file has wrong format`. -/
  | format : Err
  /-- The error `Matrix multiplication not possible: columns of A must match rows of B`. -/
  | dimension : Err
  deriving DecidableEq, Repr

deriving instance DecidableEq for Except

/-- Body of the inner loop of `multiply`, for the column `colB`. -/
def mulInner (matrix : SparseMatrix) (rowA colA valueA : Int) (result : SparseMatrix)
    (colB : Nat) : SparseMatrix :=
  let valueB := matrix.getElement colA colB
  if valueB ≠ 0 then
    result.setElement rowA colB (result.getElement rowA colB + valueA * valueB)
  else result

/-- One round of the outer loop of `multiply`, over the entry `e` of the left operand. -/
def mulStep (matrix : SparseMatrix) (result : SparseMatrix) (e : Key × Int) : SparseMatrix :=
  match splitKey e.1 with
  | some (rowA, colA) =>
    (List.range matrix.cols.loopBound).foldl (mulInner matrix rowA colA e.2) result
  | none => result

/-- The method `this.multiply(matrix)`. -/
def multiply (this matrix : SparseMatrix) : Except Err SparseMatrix :=
  if JSNum.strictNe this.cols matrix.rows then Except.error Err.dimension
  else
    let result : SparseMatrix := { empty with rows := this.rows, cols := matrix.cols }
    Except.ok (this.data.foldl (mulStep matrix) result)

/-! ### Text format -/

/-- Reads one given character. -/
def expect (ch : Char) : Str → Option Str
  | [] => none
  | c :: t => if c = ch then some t else none

/-- The group `(\d+)`: a non-empty run of digits, and the rest. -/
def readGroup (s : Str) : Option (Str × Str) :=
  if s.takeWhile isDigit = [] then none
  else some (s.takeWhile isDigit, s.dropWhile isDigit)

/-- The part `-?` of the pattern: the sign read, and the rest. -/
def readSign : Str → Str × Str
  | '-' :: t => (['-'], t)
  | t => ([], t)

/-- The match of `/^\((\d+),\s*(\d+),\s*(-?\d+)\)$/` on a line: the three groups.
Every quantifier of the pattern is followed by a character outside its class, so the
greedy reading is the only possible match. -/
def matchTriple (line : Str) : Option (Str × Str × Str) := do
  let s ← expect '(' line
  let (g1, s) ← readGroup s
  let s ← expect ',' s
  let (g2, s) ← readGroup (s.dropWhile isSpace)
  let s ← expect ',' s
  let (sign, s) := readSign (s.dropWhile isSpace)
  let (g3, s) ← readGroup s
  let s ← expect ')' s
  if s = [] then some (g1, g2, sign ++ g3) else none

/-- The match followed by `match.map(Number)`: the triple `row, col, value`.  The
groups of a match have the shape `-?\d+`, on which `jsNumber` answers. -/
def parseTriple (line : Str) : Option (Int × Int × Int) := do
  let (g1, g2, g3) ← matchTriple line
  let row ← jsNumber g1
  let col ← jsNumber g2
  let value ← jsNumber g3
  some (row, col, value)

/-- The callback of `lines.forEach((line, index) => ...)` in `loadFromFile`. -/
def loadLine (M : SparseMatrix) (index : Nat) (line : Str) : Except Err SparseMatrix :=
  if trim line = [] then Except.ok M
  else
    let line := trim line
    if index = 0 then Except.ok { M with rows := parseInt ((splitOn '=' line).get? 1) }
    else if index = 1 then Except.ok { M with cols := parseInt ((splitOn '=' line).get? 1) }
    else
      match parseTriple line with
      | none => Except.error Err.format
      | some (row, col, value) => Except.ok (M.setElement row col value)

/-- The loop `lines.forEach` from the index `index` on; an error ends it. -/
def loadLines : SparseMatrix → Nat → List Str → Except Err SparseMatrix
  | M, _, [] => Except.ok M
  | M, index, line :: rest =>
    match loadLine M index line with
    | Except.error e => Except.error e
    | Except.ok M' => loadLines M' (index + 1) rest

/-- The method `loadFromFile`, on the content of the file. -/
def loadFromFile (M : SparseMatrix) (fileContent : Str) : Except Err SparseMatrix :=
  loadLines M 0 (splitOn '\n' (trim fileContent))

/-- The constructor `new SparseMatrix(filePath)`, on the content of the file. -/
def fromText (fileContent : Str) : Except Err SparseMatrix :=
  loadFromFile empty fileContent

/-- The template string of a data line: `(row, col, value)` with one space after each comma. -/
def entryLine (row col value : Int) : Str :=
  '(' :: intToDec row ++ ',' :: ' ' :: intToDec col ++ ',' :: ' ' :: intToDec value ++ [')']

/-- The data lines pushed by the loop of `saveToFile`, one per entry whose key splits
into two integers (every entry under `WF`). -/
def dataLines (M : SparseMatrix) : List Str :=
  M.data.filterMap (fun e => (splitKey e.1).map (fun p => entryLine p.1 p.2 e.2))

/-- The array `lines` of `saveToFile`. -/
def saveLines (M : SparseMatrix) : List Str :=
  ("rows=".toList ++ M.rows.toText) :: ("cols=".toList ++ M.cols.toText) :: dataLines M

/-- The text written by `saveToFile`. -/
def saveToFile (M : SparseMatrix) : Str :=
  joinWith '\n' (saveLines M)

/-- What the entry `e` of the left operand adds to the cell `(r, c)` of the product
with `matrix`, for a column `c` the inner loop visits. -/
def contrib (matrix : SparseMatrix) (r c : Int) (e : Key × Int) : Int :=
  match splitKey e.1 with
  | some (rowA, colA) => if rowA = r then e.2 * matrix.getElement colA c else 0
  | none => 0

/-! ### Well-formed states -/

/-- The key is the string `${row},${col}` of two integers: splitting it gives
coordinates whose key it is. -/
def canonicalKey (k : Key) : Bool :=
  match splitKey k with
  | some (row, col) => keyOf row col = k
  | none => false

/-- The states a `Map` filled through `setElement` on integer coordinates can be
in: the keys are pairwise distinct (a `Map` holds one entry per key) and each is the
string of two integers. -/
def WF (M : SparseMatrix) : Prop :=
  (M.data.map Prod.fst).Nodup ∧ ∀ e ∈ M.data, canonicalKey e.1 = true

instance (M : SparseMatrix) : Decidable (WF M) := by
  unfold WF
  exact inferInstance

/-- No stored entry has the value `0`. -/
def NoZero (M : SparseMatrix) : Prop :=
  ∀ e ∈ M.data, e.2 ≠ 0

instance (M : SparseMatrix) : Decidable (NoZero M) := by
  unfold NoZero
  exact inferInstance

/-- The matrices the program can build: the empty one, and what `setElement`, the
constructor from a file, `add`, `subtract` and `multiply` make of such matrices. -/
inductive Reachable : SparseMatrix → Prop where
  | empty : Reachable empty
  | setElement {M : SparseMatrix} (row col value : Int) :
      Reachable M → Reachable (M.setElement row col value)
  | fromText {M : SparseMatrix} (fileContent : Str) :
      fromText fileContent = Except.ok M → Reachable M
  | add {A B : SparseMatrix} : Reachable A → Reachable B → Reachable (A.add B)
  | subtract {A B : SparseMatrix} : Reachable A → Reachable B → Reachable (A.subtract B)
  | multiply {A B M : SparseMatrix} :
      Reachable A → Reachable B → A.multiply B = Except.ok M → Reachable M

/-- A property of matrices that `setElement` keeps. -/
def KeptBySet (P : SparseMatrix → Prop) : Prop :=
  ∀ (M : SparseMatrix) (r c v : Int), P M → P (M.setElement r c v)

/-! ### The scenarios of the specification -/

/-- Left operand of the addition scenario: `2x2` with `(0,0):1` and `(1,1):2`. -/
def scenarioA : SparseMatrix :=
  ⟨JSNum.int 2, JSNum.int 2, [(keyOf 0 0, 1), (keyOf 1 1, 2)]⟩

/-- Right operand of the addition scenario: `2x2` with `(0,0):3` and `(0,1):4`. -/
def scenarioB : SparseMatrix :=
  ⟨JSNum.int 2, JSNum.int 2, [(keyOf 0 0, 3), (keyOf 0 1, 4)]⟩

/-- Left operand of the product scenario: `2x2` with `(0,0):1` and `(0,1):2`. -/
def scenarioMulA : SparseMatrix :=
  ⟨JSNum.int 2, JSNum.int 2, [(keyOf 0 0, 1), (keyOf 0 1, 2)]⟩

/-- Right operand of the product scenario: `2x2` with `(0,0):3` and `(1,0):4`. -/
def scenarioMulB : SparseMatrix :=
  ⟨JSNum.int 2, JSNum.int 2, [(keyOf 0 0, 3), (keyOf 1 0, 4)]⟩

/-- A `1x3` row whose products with `cancelB` sum to `0` on the way: `1, 1, 5`. -/
def cancelA : SparseMatrix :=
  ⟨JSNum.int 1, JSNum.int 3, [(keyOf 0 0, 1), (keyOf 0 1, 1), (keyOf 0 2, 5)]⟩

/-- A `3x1` column: `1, -1, 7`. -/
def cancelB : SparseMatrix :=
  ⟨JSNum.int 3, JSNum.int 1, [(keyOf 0 0, 1), (keyOf 1 0, -1), (keyOf 2 0, 7)]⟩

/-! ### Reading of a well-formed text -/

/-- The value of the last triple `row, col, value` of `ts` whose coordinate is `(r, c)`,
and `0` when there is none. -/
def lastValue (ts : List (Int × Int × Int)) (r c : Int) : Int :=
  match ts.reverse.find? (fun t => t.1 = r ∧ t.2.1 = c) with
  | some t => t.2.2
  | none => 0

end SparseMatrix

/-- The string is not empty and neither starts nor ends with white space. -/
def Clean (s : Str) : Prop :=
  (∃ a t, s = a :: t ∧ isSpace a = false) ∧ (∃ i b, s = i ++ [b] ∧ isSpace b = false)

/-! ## The store keyed by coordinate pairs

The design note of the specification replaces the string key by the pair
`(row, col)`.  The definitions below follow the words of the specification on such a
store; they are compared with the string-keyed embedding of the code. -/

/-- A map keyed by the pair `(row, col)`, as the list of its entries in insertion order. -/
abbrev PairMap := List ((Int × Int) × Int)

namespace PairMap

/-- Whether the coordinate is present as a key. -/
def has : PairMap → Int × Int → Bool
  | [], _ => false
  | (k', _) :: rest, k => if k' = k then true else has rest k

/-- The value stored for the coordinate, if any. -/
def get : PairMap → Int × Int → Option Int
  | [], _ => none
  | (k', v') :: rest, k => if k' = k then some v' else get rest k

/-- Inserts the entry or overwrites it in place. -/
def set : PairMap → Int × Int → Int → PairMap
  | [], k, v => [(k, v)]
  | (k', v') :: rest, k, v =>
    if k' = k then (k, v) :: rest else (k', v') :: set rest k v

/-- Removes the entry of the coordinate. -/
def delete : PairMap → Int × Int → PairMap
  | [], _ => []
  | (k', v') :: rest, k =>
    if k' = k then delete rest k else (k', v') :: delete rest k

end PairMap

/-- The sparse matrix over a pair-keyed store: `rowCount`, `colCount` and `entries`. -/
structure PairMatrix where
  rows : JSNum
  cols : JSNum
  data : PairMap
  deriving DecidableEq, Repr

namespace PairMatrix

/-- The stored value for the coordinate, or `0` if absent. -/
def getElement (M : PairMatrix) (row col : Int) : Int :=
  (M.data.get (row, col)).getD 0

/-- If the value is `0`, removes any existing entry at the coordinate; otherwise
inserts or overwrites the entry. -/
def setElement (M : PairMatrix) (row col value : Int) : PairMatrix :=
  if value = 0 then { M with data := M.data.delete (row, col) }
  else { M with data := M.data.set (row, col) value }

/-- Addition: dimensions are the per-axis maximum; every entry `(r,c)→v` of the left
operand writes `v + right.getElement(r,c)`; then every entry of the right operand whose
coordinate is not a key of the left operand writes its value. -/
def add (this matrix : PairMatrix) : PairMatrix :=
  let result : PairMatrix :=
    ⟨JSNum.max this.rows matrix.rows, JSNum.max this.cols matrix.cols, []⟩
  let result := this.data.foldl
    (fun res e => res.setElement e.1.1 e.1.2 (e.2 + matrix.getElement e.1.1 e.1.2)) result
  matrix.data.foldl
    (fun res e => if !this.data.has e.1 then res.setElement e.1.1 e.1.2 e.2 else res) result

/-- Subtraction: as `add`, with `left - right.getElement(r,c)` and the negated value
for the coordinates of the right operand alone. -/
def subtract (this matrix : PairMatrix) : PairMatrix :=
  let result : PairMatrix :=
    ⟨JSNum.max this.rows matrix.rows, JSNum.max this.cols matrix.cols, []⟩
  let result := this.data.foldl
    (fun res e => res.setElement e.1.1 e.1.2 (e.2 - matrix.getElement e.1.1 e.1.2)) result
  matrix.data.foldl
    (fun res e => if !this.data.has e.1 then res.setElement e.1.1 e.1.2 (-e.2) else res) result

/-- Multiplication: fails unless the left column count is the right row count; for
every entry `(rowA, colA) → valueA` of the left operand and every column `colB` of the
right operand, a non-zero `valueB = right.getElement(colA, colB)` adds
`valueA * valueB` to the result at `(rowA, colB)`. -/
def multiply (this matrix : PairMatrix) : Except SparseMatrix.Err PairMatrix :=
  if JSNum.strictNe this.cols matrix.rows then Except.error SparseMatrix.Err.dimension
  else
    Except.ok (this.data.foldl
      (fun res e =>
        (List.range matrix.cols.loopBound).foldl
          (fun res (colB : Nat) =>
            if matrix.getElement e.1.2 colB ≠ 0 then
              res.setElement e.1.1 colB
                (res.getElement e.1.1 colB + e.2 * matrix.getElement e.1.2 colB)
            else res) res)
      ⟨this.rows, matrix.cols, []⟩)

/-- Serialization: a `rows=` line, a `cols=` line, then one line
`(<row>, <col>, <value>)` per stored entry in the iteration order of the store. -/
def saveToFile (M : PairMatrix) : Str :=
  joinWith '\n'
    (("rows=".toList ++ M.rows.toText) :: ("cols=".toList ++ M.cols.toText) ::
      M.data.map (fun e => SparseMatrix.entryLine e.1.1 e.1.2 e.2))

/-- The string-keyed state of the code that stands for a pair-keyed state: the entry of
the coordinate `(r, c)` is stored under the key `${r},${c}`. -/
def toStringKeyed (M : PairMatrix) : SparseMatrix :=
  ⟨M.rows, M.cols, M.data.map (fun e => (keyOf e.1.1 e.1.2, e.2))⟩

end PairMatrix

/-! ## Objects and references

The methods above are functions of the values of `this` and `matrix`.  To speak of
mutation and of aliasing, the same methods are written here over a heap of objects:
every statement that reads or writes a field or a `Map` does so through a reference.
The `Map` of an object is part of the object: the only `new Map()` of the code is in
the constructor and no statement assigns `data` afterwards.  A `for ... of` loop runs
over the entries the `Map` has when the loop starts. -/

/-- The objects allocated so far; an object is known by its index. -/
abbrev Heap := List SparseMatrix

/-- A reference to an object of the heap. -/
abbrev Ref := Nat

namespace Heap

/-- The state of the object `p`. -/
def read (h : Heap) (p : Ref) : SparseMatrix := h.getD p SparseMatrix.empty

/-- The heap after a write to the object `p`. -/
def write (h : Heap) (p : Ref) (M : SparseMatrix) : Heap := h.set p M

/-- The expression `new SparseMatrix()`: a new object, and its reference. -/
def alloc (h : Heap) : Heap × Ref := (h ++ [SparseMatrix.empty], h.length)

/-- The call `obj.getElement(row, col)`. -/
def getElement (h : Heap) (obj : Ref) (row col : Int) : Int :=
  (h.read obj).getElement row col

/-- The call `obj.setElement(row, col, value)`. -/
def setElement (h : Heap) (obj : Ref) (row col value : Int) : Heap :=
  h.write obj ((h.read obj).setElement row col value)

/-- The call `this.add(matrix)`: the heap after the call and the reference returned. -/
def add (h : Heap) (this matrix : Ref) : Heap × Ref :=
  let maxRows := JSNum.max (h.read this).rows (h.read matrix).rows
  let maxCols := JSNum.max (h.read this).cols (h.read matrix).cols
  let (h, result) := h.alloc
  let h := h.write result { h.read result with rows := maxRows }
  let h := h.write result { h.read result with cols := maxCols }
  let h := (h.read this).data.foldl
    (fun h e =>
      match splitKey e.1 with
      | some (row, col) => h.setElement result row col (e.2 + h.getElement matrix row col)
      | none => h) h
  let h := (h.read matrix).data.foldl
    (fun h e =>
      match splitKey e.1 with
      | some (row, col) =>
        if !(h.read this).data.has e.1 then h.setElement result row col e.2 else h
      | none => h) h
  (h, result)

/-- The call `this.subtract(matrix)`: the heap after the call and the reference returned. -/
def subtract (h : Heap) (this matrix : Ref) : Heap × Ref :=
  let maxRows := JSNum.max (h.read this).rows (h.read matrix).rows
  let maxCols := JSNum.max (h.read this).cols (h.read matrix).cols
  let (h, result) := h.alloc
  let h := h.write result { h.read result with rows := maxRows }
  let h := h.write result { h.read result with cols := maxCols }
  let h := (h.read this).data.foldl
    (fun h e =>
      match splitKey e.1 with
      | some (row, col) => h.setElement result row col (e.2 - h.getElement matrix row col)
      | none => h) h
  let h := (h.read matrix).data.foldl
    (fun h e =>
      match splitKey e.1 with
      | some (row, col) =>
        if !(h.read this).data.has e.1 then h.setElement result row col (-e.2) else h
      | none => h) h
  (h, result)

/-- The call `this.multiply(matrix)`: the heap after the call, and the reference
returned or the error thrown. -/
def multiply (h : Heap) (this matrix : Ref) : Heap × Except SparseMatrix.Err Ref :=
  if JSNum.strictNe (h.read this).cols (h.read matrix).rows then
    (h, Except.error SparseMatrix.Err.dimension)
  else
    let (h, result) := h.alloc
    let h := h.write result { h.read result with rows := (h.read this).rows }
    let h := h.write result { h.read result with cols := (h.read matrix).cols }
    let h := (h.read this).data.foldl
      (fun h e =>
        match splitKey e.1 with
        | some (rowA, colA) =>
          (List.range (h.read matrix).cols.loopBound).foldl
            (fun h (colB : Nat) =>
              let valueB := h.getElement matrix colA colB
              if valueB ≠ 0 then
                h.setElement result rowA colB (h.getElement result rowA colB + e.2 * valueB)
              else h) h
        | none => h) h
    (h, Except.ok result)

end Heap

/-! ## The numbers of JavaScript

A number of JavaScript is a double.  The definitions above compute on the integers;
those of this part follow the code on every integer that is a double: an arithmetic
result, `Number(s)` and `parseInt(s)` are rounded to the nearest double, and the text
`${x}` is the one JavaScript prints.  Both agree on the integers up to `2^53` in absolute
value.  An integer of absolute value `2^1024` or more has no double (JavaScript has
`Infinity` there); `toDouble` is meant below that bound. -/

/-- Number of binary digits of `n`; `fuel` bounds it. -/
def bitLengthAux : Nat → Nat → Nat
  | 0, _ => 0
  | fuel + 1, n => if n = 0 then 0 else bitLengthAux fuel (n / 2) + 1

/-- Number of binary digits of `n`. -/
def bitLength (n : Nat) : Nat := bitLengthAux n n

/-- The double nearest to the natural number `a`: the 53 leading binary digits are kept,
the rest is rounded to nearest, a tie going to the even significand. -/
def roundNat (a : Nat) : Nat :=
  if a < 9007199254740992 then a
  else
    let e := bitLength a - 53
    let q := a / 2 ^ e
    let r := a % 2 ^ e
    if 2 ^ e < 2 * r ∨ (2 * r = 2 ^ e ∧ q % 2 = 1) then (q + 1) * 2 ^ e else q * 2 ^ e

/-- The double nearest to the integer `x`. -/
def toDouble (x : Int) : Int :=
  if x < 0 then -(roundNat x.natAbs : Int) else (roundNat x.toNat : Int)

/-- The integer is at most `2^53` in absolute value: it is a double, and the sums,
differences and products that stay in this range are exact. -/
def Safe (x : Int) : Prop := x.natAbs ≤ 9007199254740992

instance (x : Int) : Decidable (Safe x) := by
  unfold Safe
  exact inferInstance

/-- The sum `a + b` of two doubles. -/
def jsAdd (a b : Int) : Int := toDouble (a + b)

/-- The difference `a - b` of two doubles. -/
def jsSub (a b : Int) : Int := toDouble (a - b)

/-- The product `a * b` of two doubles. -/
def jsMul (a b : Int) : Int := toDouble (a * b)

/-- Search of the shortest decimal digits that read back as the double `x` of `n0`
decimal digits, from `k` digits on: the result is the digits `s`, as a number, and the
number `n` of digits of the integer part of the decimal they stand for, `s` followed by
`n - k` zeros.  Of two candidates with `k` digits the nearer to `x` is taken, the even
one on a tie. -/
def shortestAux (x n0 : Nat) : Nat → Nat → Nat × Nat
  | 0, _ => (x, n0)
  | fuel + 1, k =>
    let p := 10 ^ (n0 - k)
    let q := x / p
    let upper : Nat × Nat := if q + 1 = 10 ^ k then (10 ^ (k - 1), n0 + 1) else (q + 1, n0)
    let lowOK : Bool := roundNat (q * p) = x
    let upOK : Bool := roundNat ((q + 1) * p) = x
    if lowOK && upOK then
      if 2 * (x - q * p) < p ∨ (2 * (x - q * p) = p ∧ q % 2 = 0) then (q, n0) else upper
    else if lowOK then (q, n0)
    else if upOK then upper
    else shortestAux x n0 fuel (k + 1)

/-- The text `${x}` of a double `x ≥ 0` with an integer value: all its digits up to
`2^53`; beyond, the shortest digits that read back as `x`, followed by zeros below
`10^21` and in exponent form from `10^21` on. -/
def natToText (x : Nat) : Str :=
  if x ≤ 9007199254740992 then natToDec x
  else
    let n0 := (natToDec x).length
    let (s, n) := shortestAux x n0 n0 1
    let ds := natToDec s
    if n ≤ 21 then ds ++ List.replicate (n - ds.length) '0'
    else
      match ds with
      | [] => []
      | [d] => d :: 'e' :: '+' :: natToDec (n - 1)
      | d :: rest => d :: '.' :: rest ++ 'e' :: '+' :: natToDec (n - 1)

/-- The text `${x}` of a double with an integer value. -/
def numberText (x : Int) : Str :=
  if x < 0 then '-' :: natToText x.natAbs else natToText x.toNat

/-! ## The methods with the numbers of JavaScript

The methods of the class, with the sums, differences and products of doubles, the
numbers read by `Number` and `parseInt` rounded to doubles, and the texts `${x}` that
JavaScript prints.  `getElement` and `setElement` do no arithmetic and are those above:
the text of a key is never observed, only whether two keys are equal and which numbers
`split` and `Number` read back from it, and both are those of the coordinates. -/

namespace Dbl

/-- One round of the first loop of `add`: `value + matrix.getElement(row, col)`. -/
def addLeftStep (other : SparseMatrix) (result : SparseMatrix) (e : Key × Int) : SparseMatrix :=
  match splitKey e.1 with
  | some (row, col) => result.setElement row col (jsAdd e.2 (other.getElement row col))
  | none => result

/-- The method `this.add(matrix)`. -/
def add (this matrix : SparseMatrix) : SparseMatrix :=
  let result : SparseMatrix :=
    { SparseMatrix.empty with
      rows := JSNum.max this.rows matrix.rows, cols := JSNum.max this.cols matrix.cols }
  let result := this.data.foldl (addLeftStep matrix) result
  matrix.data.foldl (SparseMatrix.addRightStep this) result

/-- One round of the first loop of `subtract`: `value - matrix.getElement(row, col)`. -/
def subLeftStep (other : SparseMatrix) (result : SparseMatrix) (e : Key × Int) : SparseMatrix :=
  match splitKey e.1 with
  | some (row, col) => result.setElement row col (jsSub e.2 (other.getElement row col))
  | none => result

/-- The method `this.subtract(matrix)`; the opposite `-value` of a double is exact. -/
def subtract (this matrix : SparseMatrix) : SparseMatrix :=
  let result : SparseMatrix :=
    { SparseMatrix.empty with
      rows := JSNum.max this.rows matrix.rows, cols := JSNum.max this.cols matrix.cols }
  let result := this.data.foldl (subLeftStep matrix) result
  matrix.data.foldl (SparseMatrix.subRightStep this) result

/-- Body of the inner loop of `multiply`: `currentValue + valueA * valueB`. -/
def mulInner (matrix : SparseMatrix) (rowA colA valueA : Int) (result : SparseMatrix)
    (colB : Nat) : SparseMatrix :=
  let valueB := matrix.getElement colA colB
  if valueB ≠ 0 then
    result.setElement rowA colB (jsAdd (result.getElement rowA colB) (jsMul valueA valueB))
  else result

/-- One round of the outer loop of `multiply`. -/
def mulStep (matrix : SparseMatrix) (result : SparseMatrix) (e : Key × Int) : SparseMatrix :=
  match splitKey e.1 with
  | some (rowA, colA) =>
    (List.range matrix.cols.loopBound).foldl (mulInner matrix rowA colA e.2) result
  | none => result

/-- The method `this.multiply(matrix)`. -/
def multiply (this matrix : SparseMatrix) : Except SparseMatrix.Err SparseMatrix :=
  if JSNum.strictNe this.cols matrix.rows then Except.error SparseMatrix.Err.dimension
  else
    let result : SparseMatrix :=
      { SparseMatrix.empty with rows := this.rows, cols := matrix.cols }
    Except.ok (this.data.foldl (mulStep matrix) result)

/-- The conversion `Number(s)` on a string of shape `-?\d+`: the double nearest to its
decimal value (JavaScript answers `Infinity` from `2^1024` on, where no double is
nearest; the statements on the number read stay below `2^53`). -/
def jsNumber (s : Str) : Option Int :=
  (SparseMatrixJS.jsNumber s).map toDouble

/-- The function `parseInt(x)`: the double nearest to the integer read (below `2^1024`,
as for `jsNumber`), or `NaN`. -/
def parseInt (x : Option Str) : JSNum :=
  match SparseMatrixJS.parseInt x with
  | JSNum.nan => JSNum.nan
  | JSNum.int n => JSNum.int (toDouble n)

/-- The match followed by `match.map(Number)`. -/
def parseTriple (line : Str) : Option (Int × Int × Int) := do
  let (g1, g2, g3) ← SparseMatrix.matchTriple line
  let row ← jsNumber g1
  let col ← jsNumber g2
  let value ← jsNumber g3
  some (row, col, value)

/-- The callback of `lines.forEach((line, index) => ...)` in `loadFromFile`. -/
def loadLine (M : SparseMatrix) (index : Nat) (line : Str) :
    Except SparseMatrix.Err SparseMatrix :=
  if trim line = [] then Except.ok M
  else
    let line := trim line
    if index = 0 then Except.ok { M with rows := parseInt ((splitOn '=' line).get? 1) }
    else if index = 1 then Except.ok { M with cols := parseInt ((splitOn '=' line).get? 1) }
    else
      match parseTriple line with
      | none => Except.error SparseMatrix.Err.format
      | some (row, col, value) => Except.ok (M.setElement row col value)

/-- The loop `lines.forEach` from the index `index` on; an error ends it. -/
def loadLines : SparseMatrix → Nat → List Str → Except SparseMatrix.Err SparseMatrix
  | M, _, [] => Except.ok M
  | M, index, line :: rest =>
    match loadLine M index line with
    | Except.error e => Except.error e
    | Except.ok M' => loadLines M' (index + 1) rest

/-- The method `loadFromFile`, on the content of the file. -/
def loadFromFile (M : SparseMatrix) (fileContent : Str) :
    Except SparseMatrix.Err SparseMatrix :=
  loadLines M 0 (splitOn '\n' (trim fileContent))

/-- The constructor `new SparseMatrix(filePath)`, on the content of the file. -/
def fromText (fileContent : Str) : Except SparseMatrix.Err SparseMatrix :=
  loadFromFile SparseMatrix.empty fileContent

/-- The text `${a}` of a number field. -/
def toText : JSNum → Str
  | JSNum.nan => ['N', 'a', 'N']
  | JSNum.int n => numberText n

/-- The template string `(${row}, ${col}, ${value})`. -/
def entryLine (row col value : Int) : Str :=
  '(' :: numberText row ++ ',' :: ' ' :: numberText col ++ ',' :: ' ' :: numberText value ++ [')']

/-- The data lines pushed by the loop of `saveToFile`. -/
def dataLines (M : SparseMatrix) : List Str :=
  M.data.filterMap (fun e => (splitKey e.1).map (fun p => entryLine p.1 p.2 e.2))

/-- The array `lines` of `saveToFile`. -/
def saveLines (M : SparseMatrix) : List Str :=
  ("rows=".toList ++ toText M.rows) :: ("cols=".toList ++ toText M.cols) :: dataLines M

/-- The text written by `saveToFile`. -/
def saveToFile (M : SparseMatrix) : Str :=
  joinWith '\n' (saveLines M)

end Dbl

/-! ### Data lines in their parts, and matrices with large values -/

/-- The parts of a data line: the digits of the row, the white space after the first
comma, the digits of the column, the white space after the second comma, the sign and
the digits of the value. -/
structure DataLine where
  rowDigits : Str
  space1 : Str
  colDigits : Str
  space2 : Str
  negative : Bool
  valueDigits : Str

namespace DataLine

/-- The line: `(`, the row, a comma, white space, the column, a comma, white space,
the value and `)`. -/
def text (d : DataLine) : Str :=
  '(' :: (d.rowDigits ++ ',' :: (d.space1 ++ (d.colDigits ++ ',' ::
    (d.space2 ++ ((if d.negative then ['-'] else []) ++ (d.valueDigits ++ [')']))))))

/-- The row: the decimal value of the first run of digits. -/
def row (d : DataLine) : Int := (parseDec d.rowDigits : Int)

/-- The column: the decimal value of the second run of digits. -/
def col (d : DataLine) : Int := (parseDec d.colDigits : Int)

/-- The value: the decimal value of the third run of digits, with its sign. -/
def value (d : DataLine) : Int :=
  if d.negative then -(parseDec d.valueDigits : Int) else (parseDec d.valueDigits : Int)

/-- The runs of digits are not empty and hold digits only; the white space holds white
space only, and no line feed. -/
def Valid (d : DataLine) : Prop :=
  (d.rowDigits ≠ [] ∧ ∀ ch ∈ d.rowDigits, isDigit ch = true) ∧
  (d.colDigits ≠ [] ∧ ∀ ch ∈ d.colDigits, isDigit ch = true) ∧
  (d.valueDigits ≠ [] ∧ ∀ ch ∈ d.valueDigits, isDigit ch = true) ∧
  (∀ ch ∈ d.space1, isSpace ch = true ∧ ch ≠ '\n') ∧
  (∀ ch ∈ d.space2, isSpace ch = true ∧ ch ≠ '\n')

instance (d : DataLine) : Decidable (Valid d) := by
  unfold Valid
  exact inferInstance

end DataLine

/-- A `1x1` matrix holding `2^53` at `(0, 0)`. -/
def bigA : SparseMatrix :=
  ⟨JSNum.int 1, JSNum.int 1, [(keyOf 0 0, 9007199254740992)]⟩

/-- A `1x1` matrix holding `1` at `(0, 0)`. -/
def oneB : SparseMatrix :=
  ⟨JSNum.int 1, JSNum.int 1, [(keyOf 0 0, 1)]⟩

/-- A `1x1` matrix holding `-1` at `(0, 0)`. -/
def minusOneB : SparseMatrix :=
  ⟨JSNum.int 1, JSNum.int 1, [(keyOf 0 0, -1)]⟩

/-- A `1x1` matrix holding `94906267` at `(0, 0)`; its square exceeds `2^53`. -/
def squareA : SparseMatrix :=
  ⟨JSNum.int 1, JSNum.int 1, [(keyOf 0 0, 94906267)]⟩

/-- A `1x3` row `2^53, 1, 1`, entered in this order. -/
def orderA : SparseMatrix :=
  ⟨JSNum.int 1, JSNum.int 3,
    [(keyOf 0 0, 9007199254740992), (keyOf 0 1, 1), (keyOf 0 2, 1)]⟩

/-- The same row, the two entries `1` entered first. -/
def orderA' : SparseMatrix :=
  ⟨JSNum.int 1, JSNum.int 3,
    [(keyOf 0 1, 1), (keyOf 0 2, 1), (keyOf 0 0, 9007199254740992)]⟩

/-- A `3x1` column of ones. -/
def onesB : SparseMatrix :=
  ⟨JSNum.int 3, JSNum.int 1, [(keyOf 0 0, 1), (keyOf 1 0, 1), (keyOf 2 0, 1)]⟩

/-- A `1x1` matrix holding `10^21` at `(0, 0)`. -/
def hugeM : SparseMatrix :=
  ⟨JSNum.int 1, JSNum.int 1, [(keyOf 0 0, 1000000000000000000000)]⟩

/-- Four data lines: `(0, 0, 1)`, `(0, 0, 0)`, `(1, 1, -7)` and `(1,1,4)`. -/
def sampleLines : List DataLine :=
  [⟨"0".toList, " ".toList, "0".toList, " ".toList, false, "1".toList⟩,
    ⟨"0".toList, " ".toList, "0".toList, " ".toList, false, "0".toList⟩,
    ⟨"1".toList, " ".toList, "1".toList, " ".toList, true, "7".toList⟩,
    ⟨"1".toList, [], "1".toList, [], false, "4".toList⟩]

end SparseMatrixJS

namespace SparseMatrixJS

/-! ## Lemmas on decimal text -/

theorem digitChar_toNat {d : Nat} (h : d < 10) : (digitChar d).toNat = 48 + d := by
  interval_cases d <;> rfl

theorem isDigit_digitChar {d : Nat} (h : d < 10) : isDigit (digitChar d) = true := by
  interval_cases d <;> rfl

theorem isDigit_toNat {ch : Char} (h : isDigit ch = true) : 48 ≤ ch.toNat ∧ ch.toNat ≤ 57 := by
  simpa [isDigit] using h

theorem isDigit_not_space {ch : Char} (h : isDigit ch = true) : isSpace ch = false := by
  have h1 := isDigit_toNat h
  simp only [isSpace, Bool.or_eq_false_iff, Bool.and_eq_false_iff, decide_eq_false_iff_not]
  omega

theorem natToDecAux_all (fuel n : Nat) : ∀ ch ∈ natToDecAux fuel n, isDigit ch = true := by
  induction fuel generalizing n with
  | zero => simp [natToDecAux]
  | succ fuel ih =>
    intro ch hch
    unfold natToDecAux at hch
    split at hch
    · rename_i hlt
      simp only [List.mem_singleton] at hch
      subst hch
      exact isDigit_digitChar hlt
    · simp only [List.mem_append, List.mem_singleton] at hch
      rcases hch with hch | hch
      · exact ih _ ch hch
      · subst hch
        exact isDigit_digitChar (Nat.mod_lt _ (by decide))

theorem natToDecAux_ne_nil (fuel n : Nat) : natToDecAux (fuel + 1) n ≠ [] := by
  unfold natToDecAux
  split <;> simp

theorem parseDec_append_singleton (s : Str) (ch : Char) :
    parseDec (s ++ [ch]) = parseDec s * 10 + (ch.toNat - 48) := by
  simp [parseDec, List.foldl_append]

theorem parseDec_natToDecAux (fuel n : Nat) (h : n < fuel) :
    parseDec (natToDecAux fuel n) = n := by
  induction fuel generalizing n with
  | zero => omega
  | succ fuel ih =>
    unfold natToDecAux
    split
    · rename_i hlt
      simp [parseDec, digitChar_toNat hlt]
    · rename_i hge
      rw [parseDec_append_singleton, ih (n / 10) (by omega),
        digitChar_toNat (Nat.mod_lt _ (by decide))]
      omega

theorem natToDec_all (n : Nat) : ∀ ch ∈ natToDec n, isDigit ch = true :=
  natToDecAux_all _ _

theorem natToDec_ne_nil (n : Nat) : natToDec n ≠ [] :=
  natToDecAux_ne_nil _ _

theorem parseDec_natToDec (n : Nat) : parseDec (natToDec n) = n :=
  parseDec_natToDecAux _ _ (Nat.lt_succ_self n)

theorem natToDec_all_eq (n : Nat) : (natToDec n).all isDigit = true := by
  rw [List.all_eq_true]
  exact natToDec_all n

/-- Every character of the text of an integer is a digit or the sign. -/
theorem intToDec_chars (i : Int) : ∀ ch ∈ intToDec i, isDigit ch = true ∨ ch = '-' := by
  intro ch hch
  unfold intToDec at hch
  split at hch
  · simp only [List.mem_cons] at hch
    rcases hch with hch | hch
    · exact Or.inr hch
    · exact Or.inl (natToDec_all _ ch hch)
  · exact Or.inl (natToDec_all _ ch hch)

theorem intToDec_ne_nil (i : Int) : intToDec i ≠ [] := by
  unfold intToDec
  split
  · simp
  · exact natToDec_ne_nil _

theorem natToDec_head_ne_minus (n : Nat) : ∀ t, natToDec n ≠ '-' :: t := by
  intro t h
  have := natToDec_all n '-' (by rw [h]; simp)
  exact absurd this (by decide)

/-- The conversion `Number` reads back the text of an integer. -/
theorem jsNumber_intToDec (i : Int) : jsNumber (intToDec i) = some i := by
  unfold intToDec
  split
  · rename_i hneg
    simp only [jsNumber, natToDec_ne_nil, ne_eq, not_false_eq_true, natToDec_all_eq, and_self,
      ↓reduceIte, parseDec_natToDec, Option.some.injEq]
    omega
  · rename_i hpos
    have hne := natToDec_head_ne_minus i.toNat
    unfold jsNumber
    split
    · rename_i ds heq
      exact absurd heq (hne ds)
    · simp only [natToDec_ne_nil, ne_eq, not_false_eq_true, natToDec_all_eq, and_self,
        ↓reduceIte, parseDec_natToDec, Option.some.injEq]
      omega

theorem intToDec_injective {i j : Int} (h : intToDec i = intToDec j) : i = j := by
  have h1 := jsNumber_intToDec i
  rw [h, jsNumber_intToDec] at h1
  exact (Option.some.inj h1).symm

theorem intToDec_no_comma (i : Int) : ',' ∉ intToDec i := by
  intro h
  rcases intToDec_chars i _ h with h | h
  · exact absurd h (by decide)
  · exact absurd h (by decide)

end SparseMatrixJS

namespace SparseMatrixJS

/-! ## Lemmas on `split` and on keys -/

theorem splitOn_of_not_mem (sep : Char) (s : Str) (h : sep ∉ s) : splitOn sep s = [s] := by
  induction s with
  | nil => rfl
  | cons ch rest ih =>
    have h1 : ch ≠ sep := fun e => h (by simp [e])
    have h2 : sep ∉ rest := fun e => h (by simp [e])
    simp [splitOn, h1, ih h2]

theorem splitOn_append_sep (sep : Char) (a b : Str) (h : sep ∉ a) :
    splitOn sep (a ++ sep :: b) = a :: splitOn sep b := by
  induction a with
  | nil => simp [splitOn]
  | cons ch rest ih =>
    have h1 : ch ≠ sep := fun e => h (by simp [e])
    have h2 : sep ∉ rest := fun e => h (by simp [e])
    simp [splitOn, h1, ih h2]

/-- Splitting a key built from integers and converting the parts gives the integers back. -/
theorem splitKey_keyOf (r c : Int) : splitKey (keyOf r c) = some (r, c) := by
  unfold splitKey keyOf
  rw [splitOn_append_sep _ _ _ (intToDec_no_comma r),
    splitOn_of_not_mem _ _ (intToDec_no_comma c)]
  simp [jsNumber_intToDec]

/-- Keys of distinct coordinates are distinct strings. -/
theorem keyOf_injective {r c r' c' : Int} (h : keyOf r c = keyOf r' c') : r = r' ∧ c = c' := by
  have h1 := splitKey_keyOf r c
  rw [h, splitKey_keyOf] at h1
  simpa using (Option.some.inj h1).symm

theorem keyOf_eq_iff {r c r' c' : Int} : keyOf r c = keyOf r' c' ↔ r = r' ∧ c = c' :=
  ⟨keyOf_injective, fun ⟨h1, h2⟩ => by rw [h1, h2]⟩

/-! ## Lemmas on the entry map -/

namespace JSMap

theorem has_eq_isSome (m : JSMap) (k : Key) : m.has k = (m.get k).isSome := by
  induction m with
  | nil => rfl
  | cons e rest ih =>
    obtain ⟨k', v'⟩ := e
    by_cases h : k' = k <;> simp [has, get, h, ih]

theorem get_set_self (m : JSMap) (k : Key) (v : Int) : (m.set k v).get k = some v := by
  induction m with
  | nil => simp [set, get]
  | cons e rest ih =>
    obtain ⟨k', v'⟩ := e
    by_cases h : k' = k <;> simp [set, get, h, ih]

theorem get_set_of_ne (m : JSMap) {k k' : Key} (v : Int) (h : k ≠ k') :
    (m.set k v).get k' = m.get k' := by
  induction m with
  | nil => simp [set, get, h]
  | cons e rest ih =>
    obtain ⟨k₀, v₀⟩ := e
    by_cases h0 : k₀ = k
    · subst h0
      simp [set, get, h]
    · by_cases h1 : k₀ = k'
      · subst h1
        simp [set, get, h0]
      · simp [set, get, h0, h1, ih]

theorem get_delete_self (m : JSMap) (k : Key) : (m.delete k).get k = none := by
  induction m with
  | nil => rfl
  | cons e rest ih =>
    obtain ⟨k', v'⟩ := e
    by_cases h : k' = k <;> simp [delete, get, h, ih]

theorem get_delete_of_ne (m : JSMap) {k k' : Key} (h : k ≠ k') :
    (m.delete k).get k' = m.get k' := by
  induction m with
  | nil => rfl
  | cons e rest ih =>
    obtain ⟨k₀, v₀⟩ := e
    by_cases h0 : k₀ = k
    · subst h0
      simp [delete, get, h, ih]
    · by_cases h1 : k₀ = k'
      · subst h1
        simp [delete, get, h0]
      · simp [delete, get, h0, h1, ih]

end JSMap

namespace SparseMatrix

theorem getElement_eq (M : SparseMatrix) (r c : Int) :
    M.getElement r c = (M.data.get (keyOf r c)).getD 0 := by
  unfold getElement
  rw [JSMap.has_eq_isSome]
  cases M.data.get (keyOf r c) <;> simp

theorem setElement_rows (M : SparseMatrix) (r c v : Int) :
    (M.setElement r c v).rows = M.rows := by
  unfold setElement; split <;> rfl

theorem setElement_cols (M : SparseMatrix) (r c v : Int) :
    (M.setElement r c v).cols = M.cols := by
  unfold setElement; split <;> rfl

theorem getElement_setElement_self (M : SparseMatrix) (r c v : Int) :
    (M.setElement r c v).getElement r c = v := by
  rw [getElement_eq]
  unfold setElement
  split
  · rename_i h
    simp [JSMap.get_delete_self, h]
  · simp [JSMap.get_set_self]

theorem getElement_setElement_of_ne (M : SparseMatrix) (r c v r' c' : Int)
    (h : ¬ (r' = r ∧ c' = c)) :
    (M.setElement r c v).getElement r' c' = M.getElement r' c' := by
  have hk : keyOf r c ≠ keyOf r' c' := fun e => h (by
    have := keyOf_injective e
    exact ⟨this.1.symm, this.2.symm⟩)
  rw [getElement_eq, getElement_eq]
  unfold setElement
  split
  · simp [JSMap.get_delete_of_ne _ hk]
  · simp [JSMap.get_set_of_ne _ _ hk]

theorem getElement_setElement (M : SparseMatrix) (r c v r' c' : Int) :
    (M.setElement r c v).getElement r' c' =
      if r' = r ∧ c' = c then v else M.getElement r' c' := by
  split
  · rename_i h
    rw [h.1, h.2, getElement_setElement_self]
  · rename_i h
    exact getElement_setElement_of_ne M r c v r' c' h

end SparseMatrix

end SparseMatrixJS

namespace SparseMatrixJS

/-! ## Well-formed states and the loops over entries -/

theorem canonicalKey_iff (k : Key) :
    SparseMatrix.canonicalKey k = true ↔ ∃ r c : Int, k = keyOf r c := by
  unfold SparseMatrix.canonicalKey
  constructor
  · intro h
    split at h
    · rename_i row col _
      exact ⟨row, col, (of_decide_eq_true h).symm⟩
    · exact absurd h (by simp)
  · rintro ⟨r, c, rfl⟩
    simp [splitKey_keyOf]

namespace JSMap

theorem get_eq_none_of_not_mem (m : JSMap) (k : Key) (h : k ∉ m.map Prod.fst) :
    m.get k = none := by
  induction m with
  | nil => rfl
  | cons e rest ih =>
    obtain ⟨k', v'⟩ := e
    simp only [List.map_cons, List.mem_cons, not_or] at h
    simp [get, Ne.symm h.1, ih h.2]

theorem mem_keys_of_get {m : JSMap} {k : Key} {v : Int} (h : m.get k = some v) :
    (k, v) ∈ m := by
  induction m with
  | nil => simp [get] at h
  | cons e rest ih =>
    obtain ⟨k', v'⟩ := e
    by_cases hk : k' = k
    · subst hk
      simp only [get, ↓reduceIte, Option.some.injEq] at h
      simp [h]
    · simp only [get, hk, ↓reduceIte] at h
      exact List.mem_cons_of_mem _ (ih h)

theorem get_of_mem {m : JSMap} (hnd : (m.map Prod.fst).Nodup) {k : Key} {v : Int}
    (h : (k, v) ∈ m) : m.get k = some v := by
  induction m with
  | nil => simp at h
  | cons e rest ih =>
    obtain ⟨k', v'⟩ := e
    simp only [List.map_cons, List.nodup_cons] at hnd
    simp only [List.mem_cons, Prod.mk.injEq] at h
    rcases h with ⟨h1, h2⟩ | h
    · subst h1 h2
      simp [get]
    · have hne : k' ≠ k := by
        rintro rfl
        exact hnd.1 (List.mem_map_of_mem Prod.fst h)
      simp [get, hne, ih hnd.2 h]

theorem mem_iff_get {m : JSMap} (hnd : (m.map Prod.fst).Nodup) (k : Key) (v : Int) :
    (k, v) ∈ m ↔ m.get k = some v :=
  ⟨get_of_mem hnd, mem_keys_of_get⟩

end JSMap

namespace SparseMatrix

/-- Result of a loop over the entries `L` of the left operand that writes
`f value (other.getElement row col)` at each coordinate. -/
theorem foldl_left_getElement (f : Int → Int → Int) (other : SparseMatrix)
    (step : SparseMatrix → Key × Int → SparseMatrix)
    (hstep : ∀ res e, step res e =
      match splitKey e.1 with
      | some (row, col) => res.setElement row col (f e.2 (other.getElement row col))
      | none => res)
    (L : JSMap) (hnd : (L.map Prod.fst).Nodup) (hcan : ∀ e ∈ L, canonicalKey e.1 = true)
    (res : SparseMatrix) (r c : Int) :
    (L.foldl step res).getElement r c =
      match L.get (keyOf r c) with
      | some v => f v (other.getElement r c)
      | none => res.getElement r c := by
  induction L generalizing res with
  | nil => rfl
  | cons e rest ih =>
    obtain ⟨k, v⟩ := e
    simp only [List.map_cons, List.nodup_cons] at hnd
    obtain ⟨r0, c0, hk⟩ := (canonicalKey_iff k).1 (hcan (k, v) (by simp))
    subst hk
    rw [List.foldl_cons, ih hnd.2 (fun e he => hcan e (List.mem_cons_of_mem _ he)), hstep]
    simp only [splitKey_keyOf]
    by_cases hrc : r = r0 ∧ c = c0
    · obtain ⟨h1, h2⟩ := hrc
      subst h1 h2
      rw [JSMap.get_eq_none_of_not_mem _ _ hnd.1]
      simp [JSMap.get, getElement_setElement_self]
    · have hne : keyOf r0 c0 ≠ keyOf r c := fun e => hrc (by
        have := keyOf_injective e
        exact ⟨this.1.symm, this.2.symm⟩)
      simp only [JSMap.get, hne, ↓reduceIte]
      rw [getElement_setElement_of_ne _ _ _ _ _ _ hrc]

/-- Result of a loop over the entries `L` of the right operand that writes `g value`
at each coordinate whose key the left operand does not have. -/
theorem foldl_right_getElement (g : Int → Int) (this : SparseMatrix)
    (step : SparseMatrix → Key × Int → SparseMatrix)
    (hstep : ∀ res e, step res e =
      match splitKey e.1 with
      | some (row, col) => if !this.data.has e.1 then res.setElement row col (g e.2) else res
      | none => res)
    (L : JSMap) (hnd : (L.map Prod.fst).Nodup) (hcan : ∀ e ∈ L, canonicalKey e.1 = true)
    (res : SparseMatrix) (r c : Int) :
    (L.foldl step res).getElement r c =
      match L.get (keyOf r c) with
      | some v => if this.data.has (keyOf r c) then res.getElement r c else g v
      | none => res.getElement r c := by
  induction L generalizing res with
  | nil => rfl
  | cons e rest ih =>
    obtain ⟨k, v⟩ := e
    simp only [List.map_cons, List.nodup_cons] at hnd
    obtain ⟨r0, c0, hk⟩ := (canonicalKey_iff k).1 (hcan (k, v) (by simp))
    subst hk
    rw [List.foldl_cons, ih hnd.2 (fun e he => hcan e (List.mem_cons_of_mem _ he)), hstep]
    simp only [splitKey_keyOf]
    by_cases hrc : r = r0 ∧ c = c0
    · obtain ⟨h1, h2⟩ := hrc
      subst h1 h2
      rw [JSMap.get_eq_none_of_not_mem _ _ hnd.1]
      by_cases hh : this.data.has (keyOf r c) = true
      · simp [JSMap.get, hh]
      · simp [JSMap.get, hh, getElement_setElement_self]
    · have hne : keyOf r0 c0 ≠ keyOf r c := fun e => hrc (by
        have := keyOf_injective e
        exact ⟨this.1.symm, this.2.symm⟩)
      simp only [JSMap.get, hne, ↓reduceIte]
      have hres : (if (!this.data.has (keyOf r0 c0)) = true then
          res.setElement r0 c0 (g v) else res).getElement r c = res.getElement r c := by
        split
        · exact getElement_setElement_of_ne _ _ _ _ _ _ hrc
        · rfl
      rw [hres]

theorem empty_getElement (a b : JSNum) (r c : Int) :
    ({ empty with rows := a, cols := b } : SparseMatrix).getElement r c = 0 := by
  simp [getElement, empty, JSMap.has]

/-- Value at `(r, c)` of the result of the two loops, for an operation `f` applied
to the stored values (`0` for an absent one), when `g v = f 0 v` and `f 0 0 = 0`. -/
theorem twoLoops_getElement (f : Int → Int → Int) (g : Int → Int) (hf : ∀ v, g v = f 0 v)
    (h0 : f 0 0 = 0) (A B : SparseMatrix) (hA : A.WF) (hB : B.WF)
    (step : SparseMatrix → Key × Int → SparseMatrix)
    (hstep : ∀ res e, step res e =
      match splitKey e.1 with
      | some (row, col) => res.setElement row col (f e.2 (B.getElement row col))
      | none => res)
    (stepR : SparseMatrix → Key × Int → SparseMatrix)
    (hstepR : ∀ res e, stepR res e =
      match splitKey e.1 with
      | some (row, col) => if !A.data.has e.1 then res.setElement row col (g e.2) else res
      | none => res)
    (a b : JSNum) (r c : Int) :
    (B.data.foldl stepR
      (A.data.foldl step { empty with rows := a, cols := b })).getElement r c =
      f (A.getElement r c) (B.getElement r c) := by
  rw [foldl_right_getElement g A stepR hstepR B.data hB.1 hB.2,
    foldl_left_getElement f B step hstep A.data hA.1 hA.2, empty_getElement,
    getElement_eq A, getElement_eq B, JSMap.has_eq_isSome]
  cases hAg : A.data.get (keyOf r c) <;> cases hBg : B.data.get (keyOf r c) <;>
    simp [hf, h0, hBg, getElement_eq]

end SparseMatrix

end SparseMatrixJS

namespace SparseMatrixJS

/-! ## Invariants kept by `setElement` and by the loops -/

namespace JSMap

theorem mem_set {m : JSMap} {k : Key} {v : Int} {e : Key × Int} (h : e ∈ m.set k v) :
    e = (k, v) ∨ e ∈ m := by
  induction m with
  | nil =>
    simp only [set, List.mem_singleton] at h
    exact Or.inl h
  | cons e' rest ih =>
    obtain ⟨k', v'⟩ := e'
    unfold set at h
    split at h
    · simp only [List.mem_cons] at h
      rcases h with h | h
      · exact Or.inl h
      · exact Or.inr (List.mem_cons_of_mem _ h)
    · simp only [List.mem_cons] at h
      rcases h with h | h
      · exact Or.inr (by simp [h])
      · rcases ih h with h | h
        · exact Or.inl h
        · exact Or.inr (List.mem_cons_of_mem _ h)

theorem mem_delete {m : JSMap} {k : Key} {e : Key × Int} (h : e ∈ m.delete k) : e ∈ m := by
  induction m with
  | nil => simp [delete] at h
  | cons e' rest ih =>
    obtain ⟨k', v'⟩ := e'
    unfold delete at h
    split at h
    · exact List.mem_cons_of_mem _ (ih h)
    · simp only [List.mem_cons] at h
      rcases h with h | h
      · simp [h]
      · exact List.mem_cons_of_mem _ (ih h)

theorem nodup_set {m : JSMap} (k : Key) (v : Int) (h : (m.map Prod.fst).Nodup) :
    ((m.set k v).map Prod.fst).Nodup := by
  induction m with
  | nil => simp [set]
  | cons e' rest ih =>
    obtain ⟨k', v'⟩ := e'
    simp only [List.map_cons, List.nodup_cons] at h
    unfold set
    split
    · rename_i hk
      subst hk
      simpa using h
    · rename_i hk
      simp only [List.map_cons, List.nodup_cons]
      refine ⟨?_, ih h.2⟩
      intro hmem
      obtain ⟨e, he, hek⟩ := List.mem_map.1 hmem
      rcases mem_set he with he | he
      · subst he
        exact hk hek.symm
      · exact h.1 (by rw [← hek]; exact List.mem_map_of_mem Prod.fst he)

theorem nodup_delete {m : JSMap} (k : Key) (h : (m.map Prod.fst).Nodup) :
    ((m.delete k).map Prod.fst).Nodup := by
  induction m with
  | nil => simp [delete]
  | cons e' rest ih =>
    obtain ⟨k', v'⟩ := e'
    simp only [List.map_cons, List.nodup_cons] at h
    unfold delete
    split
    · exact ih h.2
    · simp only [List.map_cons, List.nodup_cons]
      refine ⟨?_, ih h.2⟩
      intro hmem
      obtain ⟨e, he, hek⟩ := List.mem_map.1 hmem
      exact h.1 (by rw [← hek]; exact List.mem_map_of_mem Prod.fst (mem_delete he))

end JSMap

namespace SparseMatrix

theorem mem_setElement {M : SparseMatrix} {r c v : Int} {e : Key × Int}
    (h : e ∈ (M.setElement r c v).data) : (e = (keyOf r c, v) ∧ v ≠ 0) ∨ e ∈ M.data := by
  unfold setElement at h
  split at h
  · exact Or.inr (JSMap.mem_delete h)
  · rename_i hv
    rcases JSMap.mem_set h with h | h
    · exact Or.inl ⟨h, hv⟩
    · exact Or.inr h

theorem WF_setElement {M : SparseMatrix} (r c v : Int) (h : M.WF) :
    (M.setElement r c v).WF := by
  refine ⟨?_, ?_⟩
  · unfold setElement
    split
    · exact JSMap.nodup_delete _ h.1
    · exact JSMap.nodup_set _ _ h.1
  · intro e he
    rcases mem_setElement he with ⟨he, _⟩ | he
    · rw [he]
      exact (canonicalKey_iff _).2 ⟨r, c, rfl⟩
    · exact h.2 e he

theorem NoZero_setElement {M : SparseMatrix} (r c v : Int) (h : M.NoZero) :
    (M.setElement r c v).NoZero := by
  intro e he
  rcases mem_setElement he with ⟨he, hv⟩ | he
  · rw [he]
    exact hv
  · exact h e he

theorem keptBySet_WF : KeptBySet WF := fun _ r c v h => WF_setElement r c v h

theorem keptBySet_NoZero : KeptBySet NoZero := fun _ r c v h => NoZero_setElement r c v h

theorem foldl_kept {α : Type} {P : SparseMatrix → Prop}
    (step : SparseMatrix → α → SparseMatrix) (hstep : ∀ res e, P res → P (step res e))
    (L : List α) (res : SparseMatrix) (h : P res) : P (L.foldl step res) := by
  induction L generalizing res with
  | nil => exact h
  | cons e rest ih => exact ih _ (hstep res e h)

theorem addLeftStep_kept {P : SparseMatrix → Prop} (hP : KeptBySet P) (other res : SparseMatrix)
    (e : Key × Int) (h : P res) : P (addLeftStep other res e) := by
  unfold addLeftStep
  split
  · exact hP _ _ _ _ h
  · exact h

theorem subLeftStep_kept {P : SparseMatrix → Prop} (hP : KeptBySet P) (other res : SparseMatrix)
    (e : Key × Int) (h : P res) : P (subLeftStep other res e) := by
  unfold subLeftStep
  split
  · exact hP _ _ _ _ h
  · exact h

theorem addRightStep_kept {P : SparseMatrix → Prop} (hP : KeptBySet P)
    (this res : SparseMatrix) (e : Key × Int) (h : P res) : P (addRightStep this res e) := by
  unfold addRightStep
  split
  · split
    · exact hP _ _ _ _ h
    · exact h
  · exact h

theorem subRightStep_kept {P : SparseMatrix → Prop} (hP : KeptBySet P)
    (this res : SparseMatrix) (e : Key × Int) (h : P res) : P (subRightStep this res e) := by
  unfold subRightStep
  split
  · split
    · exact hP _ _ _ _ h
    · exact h
  · exact h

theorem mulInner_kept {P : SparseMatrix → Prop} (hP : KeptBySet P) (matrix : SparseMatrix)
    (rowA colA valueA : Int) (res : SparseMatrix) (colB : Nat) (h : P res) :
    P (mulInner matrix rowA colA valueA res colB) := by
  unfold mulInner
  simp only
  split
  · exact hP _ _ _ _ h
  · exact h

theorem mulStep_kept {P : SparseMatrix → Prop} (hP : KeptBySet P) (matrix res : SparseMatrix)
    (e : Key × Int) (h : P res) : P (mulStep matrix res e) := by
  unfold mulStep
  split
  · exact foldl_kept _ (fun res j => mulInner_kept hP matrix _ _ _ res j) _ _ h
  · exact h

theorem add_kept {P : SparseMatrix → Prop} (hP : KeptBySet P) (A B : SparseMatrix)
    (h0 : ∀ a b, P { empty with rows := a, cols := b }) : P (A.add B) := by
  unfold add
  exact foldl_kept _ (addRightStep_kept hP A) _ _
    (foldl_kept _ (addLeftStep_kept hP B) _ _ (h0 _ _))

theorem subtract_kept {P : SparseMatrix → Prop} (hP : KeptBySet P) (A B : SparseMatrix)
    (h0 : ∀ a b, P { empty with rows := a, cols := b }) : P (A.subtract B) := by
  unfold subtract
  exact foldl_kept _ (subRightStep_kept hP A) _ _
    (foldl_kept _ (subLeftStep_kept hP B) _ _ (h0 _ _))

theorem multiply_kept {P : SparseMatrix → Prop} (hP : KeptBySet P) (A B M : SparseMatrix)
    (h0 : ∀ a b, P { empty with rows := a, cols := b }) (h : A.multiply B = Except.ok M) :
    P M := by
  unfold multiply at h
  split at h
  · exact absurd h (by simp)
  · simp only [Except.ok.injEq] at h
    rw [← h]
    exact foldl_kept _ (mulStep_kept hP B) _ _ (h0 _ _)

theorem WF_init (a b : JSNum) : ({ empty with rows := a, cols := b } : SparseMatrix).WF := by
  simp [WF, empty]

theorem NoZero_init (a b : JSNum) :
    ({ empty with rows := a, cols := b } : SparseMatrix).NoZero := by
  simp [NoZero, empty]

theorem loadLine_kept {P : SparseMatrix → Prop} (hP : KeptBySet P)
    (hdim : ∀ M M' : SparseMatrix, M.data = M'.data → P M → P M')
    (M M' : SparseMatrix) (index : Nat) (line : Str) (h : P M)
    (hl : loadLine M index line = Except.ok M') : P M' := by
  unfold loadLine at hl
  split at hl
  · simp only [Except.ok.injEq] at hl
    exact hl ▸ h
  · simp only at hl
    split at hl
    · simp only [Except.ok.injEq] at hl
      exact hdim M M' (by rw [← hl]) h
    · split at hl
      · simp only [Except.ok.injEq] at hl
        exact hdim M M' (by rw [← hl]) h
      · split at hl
        · exact absurd hl (by simp)
        · simp only [Except.ok.injEq] at hl
          rw [← hl]
          exact hP _ _ _ _ h

theorem loadLines_kept {P : SparseMatrix → Prop} (hP : KeptBySet P)
    (hdim : ∀ M M' : SparseMatrix, M.data = M'.data → P M → P M')
    (lines : List Str) (M M' : SparseMatrix) (index : Nat) (h : P M)
    (hl : loadLines M index lines = Except.ok M') : P M' := by
  induction lines generalizing M index with
  | nil =>
    simp only [loadLines, Except.ok.injEq] at hl
    exact hl ▸ h
  | cons line rest ih =>
    unfold loadLines at hl
    split at hl
    · exact absurd hl (by simp)
    · rename_i M1 h1
      exact ih M1 (index + 1) (loadLine_kept hP hdim M M1 index line h h1) hl

theorem WF_of_data {M M' : SparseMatrix} (hd : M.data = M'.data) (h : M.WF) : M'.WF := by
  unfold WF at *
  rw [← hd]
  exact h

theorem NoZero_of_data {M M' : SparseMatrix} (hd : M.data = M'.data) (h : M.NoZero) :
    M'.NoZero := by
  unfold NoZero at *
  rw [← hd]
  exact h

/-- Every matrix the program can build has pairwise distinct keys made of two integers. -/
theorem Reachable.wf {M : SparseMatrix} (h : Reachable M) : M.WF := by
  induction h with
  | empty => exact WF_init _ _
  | setElement row col value _ ih => exact WF_setElement _ _ _ ih
  | fromText content hl =>
    exact loadLines_kept keptBySet_WF (fun _ _ hd h => WF_of_data hd h) _ _ _ _
      (WF_init _ _) hl
  | add _ _ _ _ => exact add_kept keptBySet_WF _ _ WF_init
  | subtract _ _ _ _ => exact subtract_kept keptBySet_WF _ _ WF_init
  | multiply _ _ hm _ _ => exact multiply_kept keptBySet_WF _ _ _ WF_init hm

theorem Reachable.noZero {M : SparseMatrix} (h : Reachable M) : M.NoZero := by
  induction h with
  | empty => exact NoZero_init _ _
  | setElement row col value _ ih => exact NoZero_setElement _ _ _ ih
  | fromText content hl =>
    exact loadLines_kept keptBySet_NoZero (fun _ _ hd h => NoZero_of_data hd h) _ _ _ _
      (NoZero_init _ _) hl
  | add _ _ _ _ => exact add_kept keptBySet_NoZero _ _ NoZero_init
  | subtract _ _ _ _ => exact subtract_kept keptBySet_NoZero _ _ NoZero_init
  | multiply _ _ hm _ _ => exact multiply_kept keptBySet_NoZero _ _ _ NoZero_init hm

theorem has_false_of_getElement_zero {M : SparseMatrix} (h : M.NoZero) (r c : Int)
    (h0 : M.getElement r c = 0) : M.data.has (keyOf r c) = false := by
  rw [JSMap.has_eq_isSome]
  rw [getElement_eq] at h0
  cases hg : M.data.get (keyOf r c) with
  | none => rfl
  | some v =>
    rw [hg] at h0
    simp only [Option.getD_some] at h0
    exact absurd h0 (h _ (JSMap.mem_keys_of_get hg))

end SparseMatrix

end SparseMatrixJS

namespace SparseMatrixJS

/-! ## The loops of `multiply` -/

namespace SparseMatrix

theorem sum_range_congr (m : Nat) (F G : Nat → Int) (h : ∀ k, k < m → F k = G k) :
    ((List.range m).map F).sum = ((List.range m).map G).sum := by
  induction m with
  | zero => rfl
  | succ m ih =>
    rw [List.range_succ, List.map_append, List.map_append, List.sum_append, List.sum_append,
      ih (fun k hk => h k (Nat.lt_succ_of_lt hk))]
    simp [h m (Nat.lt_succ_self m)]

theorem sum_range_update (m : Nat) (F G : Nat → Int) (j : Nat) (hj : j < m)
    (h : ∀ k, k ≠ j → F k = G k) :
    ((List.range m).map F).sum = ((List.range m).map G).sum + (F j - G j) := by
  induction m with
  | zero => omega
  | succ m ih =>
    rw [List.range_succ, List.map_append, List.map_append, List.sum_append, List.sum_append]
    simp only [List.map_cons, List.map_nil, List.sum_cons, List.sum_nil, add_zero]
    by_cases hjm : j = m
    · subst hjm
      rw [sum_range_congr j F G (fun k hk => h k (Nat.ne_of_lt hk))]
      ring
    · rw [ih (by omega), h m (fun e => hjm e.symm)]
      ring

/-- The contributions of the entries of a well-formed map whose columns lie in
`[0, m)` add up to the row-by-column sum over `k < m`. -/
theorem sum_contrib_eq (B : SparseMatrix) (m : Nat) (L : JSMap)
    (hnd : (L.map Prod.fst).Nodup) (hcan : ∀ e ∈ L, canonicalKey e.1 = true)
    (hcol : ∀ e ∈ L, ∀ r c, splitKey e.1 = some (r, c) → 0 ≤ c ∧ c < (m : Int))
    (r c : Int) :
    (L.map (contrib B r c)).sum =
      ((List.range m).map
        (fun k : Nat => (L.get (keyOf r k)).getD 0 * B.getElement k c)).sum := by
  induction L with
  | nil =>
    simp [JSMap.get]
  | cons e rest ih =>
    obtain ⟨k0, a⟩ := e
    simp only [List.map_cons, List.nodup_cons] at hnd
    obtain ⟨r0, c0, hk⟩ := (canonicalKey_iff k0).1 (hcan (k0, a) (by simp))
    subst hk
    have hc0 := hcol (keyOf r0 c0, a) (by simp) r0 c0 (splitKey_keyOf r0 c0)
    rw [List.map_cons, List.sum_cons,
      ih hnd.2 (fun e he => hcan e (List.mem_cons_of_mem _ he))
        (fun e he => hcol e (List.mem_cons_of_mem _ he))]
    by_cases hr : r0 = r
    · subst hr
      have hj : c0.toNat < m := by omega
      have hcast : ((c0.toNat : Nat) : Int) = c0 := by omega
      rw [sum_range_update m
        (fun k : Nat =>
          (JSMap.get ((keyOf r0 c0, a) :: rest) (keyOf r0 k)).getD 0 * B.getElement k c)
        (fun k : Nat => (JSMap.get rest (keyOf r0 k)).getD 0 * B.getElement k c)
        c0.toNat hj]
      · simp only [hcast, JSMap.get, ↓reduceIte, Option.getD_some,
          JSMap.get_eq_none_of_not_mem _ _ hnd.1, Option.getD_none]
        simp only [contrib, splitKey_keyOf, ↓reduceIte]
        ring
      · intro k hkne
        have hne : keyOf r0 c0 ≠ keyOf r0 k := by
          intro e
          have := (keyOf_injective e).2
          omega
        simp only [JSMap.get, hne, ↓reduceIte]
    · have hcontrib : contrib B r c (keyOf r0 c0, a) = 0 := by
        simp [contrib, splitKey_keyOf, hr]
      rw [hcontrib, zero_add]
      apply sum_range_congr
      intro k _
      have hne : keyOf r0 c0 ≠ keyOf r k := fun e => hr (keyOf_injective e).1
      simp only [JSMap.get, hne, ↓reduceIte]

end SparseMatrix

end SparseMatrixJS

namespace SparseMatrixJS

/-! ## Lemmas on the text format -/

theorem trim_eq_self (s : Str) (h1 : ∀ a t, s = a :: t → isSpace a = false)
    (h2 : ∀ i b, s = i ++ [b] → isSpace b = false) : trim s = s := by
  unfold trim
  cases s with
  | nil => rfl
  | cons a t =>
    have ha := h1 a t rfl
    rw [List.dropWhile_cons_of_neg (by simp [ha])]
    cases hrev : (a :: t).reverse with
    | nil => simp at hrev
    | cons b i =>
      have hs : a :: t = i.reverse ++ [b] := by
        have := congrArg List.reverse hrev
        simpa using this
      have hb := h2 _ _ hs
      rw [List.dropWhile_cons_of_neg (by simp [hb]), ← hrev, List.reverse_reverse]

theorem trim_of_clean {s : Str} (h : Clean s) : trim s = s := by
  obtain ⟨⟨a, t, hs, ha⟩, ⟨i, b, hs', hb⟩⟩ := h
  apply trim_eq_self
  · intro a' t' h'
    rw [hs] at h'
    injection h' with h1 _
    rw [← h1]; exact ha
  · intro i' b' h'
    rw [hs'] at h'
    have := List.append_inj_right' h' rfl
    injection this with h1 _
    rw [← h1]; exact hb

theorem clean_ne_nil {s : Str} (h : Clean s) : s ≠ [] := by
  obtain ⟨⟨a, t, hs, _⟩, _⟩ := h
  rw [hs]; simp

theorem clean_of_all {s : Str} (hne : s ≠ []) (h : ∀ ch ∈ s, isSpace ch = false) : Clean s := by
  constructor
  · cases s with
    | nil => exact absurd rfl hne
    | cons a t => exact ⟨a, t, rfl, h a (by simp)⟩
  · refine ⟨s.dropLast, s.getLast hne, (List.dropLast_append_getLast hne).symm, ?_⟩
    exact h _ (List.getLast_mem hne)

theorem clean_joinWith (ls : List Str) (hne : ls ≠ []) (h : ∀ l ∈ ls, Clean l) :
    Clean (joinWith (Char.ofNat 10) ls) := by
  induction ls with
  | nil => exact absurd rfl hne
  | cons l rest ih =>
    cases rest with
    | nil => simpa [joinWith] using h l (by simp)
    | cons l' rest' =>
      have hl := h l (by simp)
      have hrest := ih (by simp) (fun x hx => h x (List.mem_cons_of_mem _ hx))
      obtain ⟨⟨a, t, hs, ha⟩, _⟩ := hl
      obtain ⟨_, ⟨i, b, hs', hb⟩⟩ := hrest
      constructor
      · exact ⟨a, t ++ Char.ofNat 10 :: joinWith (Char.ofNat 10) (l' :: rest'),
          by simp [joinWith, hs], ha⟩
      · refine ⟨l ++ Char.ofNat 10 :: i, b, ?_, hb⟩
        simp only [joinWith]
        rw [hs']
        simp

theorem splitOn_joinWith (sep : Char) (ls : List Str) (hne : ls ≠ [])
    (h : ∀ l ∈ ls, sep ∉ l) : splitOn sep (joinWith sep ls) = ls := by
  induction ls with
  | nil => exact absurd rfl hne
  | cons l rest ih =>
    cases rest with
    | nil => simpa [joinWith] using splitOn_of_not_mem sep l (h l (by simp))
    | cons l' rest' =>
      simp only [joinWith]
      rw [splitOn_append_sep sep _ _ (h l (by simp)),
        ih (by simp) (fun x hx => h x (List.mem_cons_of_mem _ hx))]

theorem takeWhile_digits (ds : Str) (c : Char) (t : Str) (h : ∀ ch ∈ ds, isDigit ch = true)
    (hc : isDigit c = false) : (ds ++ c :: t).takeWhile isDigit = ds := by
  induction ds with
  | nil => simp [List.takeWhile, hc]
  | cons d rest ih =>
    rw [List.cons_append, List.takeWhile_cons_of_pos (h d (by simp)),
      ih (fun ch hch => h ch (List.mem_cons_of_mem _ hch))]

theorem dropWhile_digits (ds : Str) (c : Char) (t : Str) (h : ∀ ch ∈ ds, isDigit ch = true)
    (hc : isDigit c = false) : (ds ++ c :: t).dropWhile isDigit = c :: t := by
  induction ds with
  | nil => simp [List.dropWhile, hc]
  | cons d rest ih =>
    rw [List.cons_append, List.dropWhile_cons_of_pos (h d (by simp)),
      ih (fun ch hch => h ch (List.mem_cons_of_mem _ hch))]

theorem readGroup_digits (ds : Str) (c : Char) (t : Str) (hne : ds ≠ [])
    (h : ∀ ch ∈ ds, isDigit ch = true) (hc : isDigit c = false) :
    SparseMatrix.readGroup (ds ++ c :: t) = some (ds, c :: t) := by
  unfold SparseMatrix.readGroup
  rw [takeWhile_digits ds c t h hc, dropWhile_digits ds c t h hc]
  simp [hne]

theorem natToDec_cons (n : Nat) : ∃ d t, natToDec n = d :: t ∧ isDigit d = true := by
  cases h : natToDec n with
  | nil => exact absurd h (natToDec_ne_nil n)
  | cons d t => exact ⟨d, t, rfl, natToDec_all n d (by rw [h]; simp)⟩

theorem dropWhile_space_natToDec (n : Nat) (t : Str) :
    (natToDec n ++ t).dropWhile isSpace = natToDec n ++ t := by
  obtain ⟨d, t', hd, hdig⟩ := natToDec_cons n
  rw [hd, List.cons_append, List.dropWhile_cons_of_neg (by simp [isDigit_not_space hdig])]

theorem readSign_natToDec (n : Nat) (t : Str) :
    SparseMatrix.readSign (natToDec n ++ t) = ([], natToDec n ++ t) := by
  obtain ⟨d, t', hd, hdig⟩ := natToDec_cons n
  rw [hd, List.cons_append]
  unfold SparseMatrix.readSign
  split
  · rename_i t'' heq
    injection heq with h1 _
    rw [h1] at hdig
    exact absurd hdig (by decide)
  · rfl

/-- The text of a non-negative integer is the text of a natural number. -/
theorem intToDec_of_nonneg {i : Int} (h : 0 ≤ i) : intToDec i = natToDec i.toNat := by
  unfold intToDec
  rw [if_neg (by omega)]

theorem intToDec_of_neg {i : Int} (h : i < 0) : intToDec i = '-' :: natToDec i.natAbs := by
  unfold intToDec
  rw [if_pos h]

theorem expect_cons (ch : Char) (t : Str) : SparseMatrix.expect ch (ch :: t) = some t := by
  simp [SparseMatrix.expect]

theorem entryLine_eq (r c v : Int) :
    SparseMatrix.entryLine r c v =
      '(' :: (intToDec r ++ ',' :: ' ' :: (intToDec c ++ ',' :: ' ' :: (intToDec v ++ [')']))) := by
  simp [SparseMatrix.entryLine]

/-- The pattern reads a line written by `saveToFile` for non-negative coordinates. -/
theorem matchTriple_entryLine (r c v : Int) (hr : 0 ≤ r) (hc : 0 ≤ c) :
    SparseMatrix.matchTriple (SparseMatrix.entryLine r c v) =
      some (intToDec r, intToDec c, intToDec v) := by
  have hcomma : isDigit ',' = false := by decide
  have hparen : isDigit ')' = false := by decide
  have hsp : isSpace ' ' = true := by decide
  unfold SparseMatrix.matchTriple
  rw [entryLine_eq, intToDec_of_nonneg hr, intToDec_of_nonneg hc]
  simp only [Option.bind_eq_bind]
  rw [expect_cons, Option.some_bind,
    readGroup_digits _ _ _ (natToDec_ne_nil _) (natToDec_all _) hcomma, Option.some_bind]
  simp only
  rw [expect_cons, Option.some_bind, List.dropWhile_cons_of_pos hsp, dropWhile_space_natToDec,
    readGroup_digits _ _ _ (natToDec_ne_nil _) (natToDec_all _) hcomma, Option.some_bind]
  simp only
  rw [expect_cons, Option.some_bind, List.dropWhile_cons_of_pos hsp]
  by_cases hv : v < 0
  · rw [intToDec_of_neg hv, List.cons_append,
      List.dropWhile_cons_of_neg (by decide)]
    simp only [SparseMatrix.readSign]
    rw [readGroup_digits _ _ _ (natToDec_ne_nil _) (natToDec_all _) hparen]
    simp [SparseMatrix.expect]
  · rw [intToDec_of_nonneg (by omega), dropWhile_space_natToDec, readSign_natToDec]
    simp only
    rw [readGroup_digits _ _ _ (natToDec_ne_nil _) (natToDec_all _) hparen]
    simp [SparseMatrix.expect]

theorem parseTriple_entryLine (r c v : Int) (hr : 0 ≤ r) (hc : 0 ≤ c) :
    SparseMatrix.parseTriple (SparseMatrix.entryLine r c v) = some (r, c, v) := by
  unfold SparseMatrix.parseTriple
  rw [matchTriple_entryLine r c v hr hc]
  simp [jsNumber_intToDec]

end SparseMatrixJS

namespace SparseMatrixJS

/-! ## Reading back what `saveToFile` writes -/

theorem readDigits_digits (ds : Str) (h : ∀ ch ∈ ds, isDigit ch = true) (acc cnt : Nat) :
    readDigits false ds acc cnt =
      (ds.foldl (fun acc ch => acc * 10 + (ch.toNat - 48)) acc, cnt + ds.length) := by
  induction ds generalizing acc cnt with
  | nil => rfl
  | cons d rest ih =>
    unfold readDigits
    simp only [Bool.false_eq_true, ↓reduceIte, h d (by simp), List.foldl_cons, List.length_cons]
    rw [ih (fun ch hch => h ch (List.mem_cons_of_mem _ hch))]
    congr 1
    omega

theorem parseIntDigits_natToDec (neg : Bool) (n : Nat) :
    parseIntDigits neg (natToDec n) = JSNum.int (if neg then -(n : Int) else (n : Int)) := by
  have hall := natToDec_all n
  have hlen : (natToDec n).length ≠ 0 := by
    intro h
    exact natToDec_ne_nil n (List.length_eq_zero.1 h)
  have hbranch : (match natToDec n with
      | '0' :: 'x' :: t => (true, t)
      | '0' :: 'X' :: t => (true, t)
      | t => (false, t)) = (false, natToDec n) := by
    split
    · rename_i t heq
      exact absurd (hall 'x' (by rw [heq]; simp)) (by decide)
    · rename_i t heq
      exact absurd (hall 'X' (by rw [heq]; simp)) (by decide)
    · rfl
  unfold parseIntDigits
  rw [hbranch]
  simp only
  rw [readDigits_digits _ hall]
  simp only [zero_add, hlen, ↓reduceIte]
  have : List.foldl (fun acc ch => acc * 10 + (ch.toNat - 48)) 0 (natToDec n) = n :=
    parseDec_natToDec n
  rw [this]

/-- The function `parseInt` reads back the text of an integer. -/
theorem parseInt_intToDec (i : Int) : parseInt (some (intToDec i)) = JSNum.int i := by
  by_cases hi : i < 0
  · rw [intToDec_of_neg hi]
    simp only [parseInt]
    rw [List.dropWhile_cons_of_neg (by decide)]
    simp only
    rw [parseIntDigits_natToDec]
    simp only [↓reduceIte, JSNum.int.injEq]
    omega
  · rw [intToDec_of_nonneg (by omega)]
    have hd := dropWhile_space_natToDec i.toNat []
    simp only [List.append_nil] at hd
    simp only [parseInt]
    rw [hd]
    have hall := natToDec_all i.toNat
    split
    · rename_i t heq
      exact absurd (hall '-' (by rw [heq]; simp)) (by decide)
    · rename_i t heq
      exact absurd (hall '+' (by rw [heq]; simp)) (by decide)
    · rw [parseIntDigits_natToDec]
      simp only [Bool.false_eq_true, ↓reduceIte, JSNum.int.injEq]
      omega

theorem intToDec_not_space (i : Int) : ∀ ch ∈ intToDec i, isSpace ch = false := by
  intro ch hch
  rcases intToDec_chars i ch hch with h | h
  · exact isDigit_not_space h
  · rw [h]; decide

theorem intToDec_not_mem (i : Int) (x : Char) (hx : isDigit x = false) (hx' : x ≠ '-') :
    x ∉ intToDec i := by
  intro hmem
  rcases intToDec_chars i x hmem with h | h
  · rw [h] at hx; exact absurd hx (by simp)
  · exact hx' h

/-- A header line `name=<integer>` is clean, has no line feed, and its part after
the `=` is the text of the integer. -/
theorem header_line (name : Str) (i : Int)
    (hsp : ∀ ch ∈ name, isSpace ch = false) (heq : '=' ∉ name) (hnl : '\n' ∉ name) :
    Clean (name ++ '=' :: intToDec i) ∧ '\n' ∉ name ++ '=' :: intToDec i ∧
      parseInt ((splitOn '=' (name ++ '=' :: intToDec i)).get? 1) = JSNum.int i := by
  refine ⟨?_, ?_, ?_⟩
  · apply clean_of_all (by simp)
    intro ch hch
    simp only [List.mem_append, List.mem_cons] at hch
    rcases hch with h | h | h
    · exact hsp ch h
    · rw [h]; decide
    · exact intToDec_not_space i ch h
  · simp only [List.mem_append, List.mem_cons, not_or]
    exact ⟨hnl, by decide, intToDec_not_mem i _ (by decide) (by decide)⟩
  · rw [splitOn_append_sep _ _ _ heq,
      splitOn_of_not_mem _ _ (intToDec_not_mem i _ (by decide) (by decide))]
    simpa using parseInt_intToDec i

theorem entryLine_clean (r c v : Int) : Clean (SparseMatrix.entryLine r c v) := by
  rw [entryLine_eq]
  refine ⟨⟨'(', _, rfl, by decide⟩, ⟨'(' :: (intToDec r ++ ',' :: ' ' :: (intToDec c ++
    ',' :: ' ' :: intToDec v)), ')', by simp, by decide⟩⟩

theorem entryLine_no_newline (r c v : Int) : '\n' ∉ SparseMatrix.entryLine r c v := by
  rw [entryLine_eq]
  have h := fun i => intToDec_not_mem i '\n' (by decide) (by decide)
  simp only [List.mem_cons, List.mem_append, not_or, List.mem_singleton]
  simp [h]

namespace JSMap

theorem set_of_not_mem (m : JSMap) (k : Key) (v : Int) (h : k ∉ m.map Prod.fst) :
    m.set k v = m ++ [(k, v)] := by
  induction m with
  | nil => rfl
  | cons e rest ih =>
    obtain ⟨k', v'⟩ := e
    simp only [List.map_cons, List.mem_cons, not_or] at h
    simp [set, Ne.symm h.1, ih h.2]

end JSMap

namespace SparseMatrix

theorem loadLine_entryLine (a b : JSNum) (pre : JSMap) (index : Nat) (hi : 2 ≤ index)
    (r c v : Int) (hr : 0 ≤ r) (hc : 0 ≤ c) (hv : v ≠ 0)
    (hk : keyOf r c ∉ pre.map Prod.fst) :
    loadLine ⟨a, b, pre⟩ index (entryLine r c v) =
      Except.ok ⟨a, b, pre ++ [(keyOf r c, v)]⟩ := by
  unfold loadLine
  rw [trim_of_clean (entryLine_clean r c v)]
  simp only [clean_ne_nil (entryLine_clean r c v), ↓reduceIte]
  rw [if_neg (by omega), if_neg (by omega), parseTriple_entryLine r c v hr hc]
  simp only [setElement, hv, ↓reduceIte]
  rw [JSMap.set_of_not_mem _ _ _ hk]

/-- Loading the data lines of `rest` after the entries `pre` appends `rest`. -/
theorem loadLines_dataLines (a b : JSNum) (rest pre : JSMap) (index : Nat) (hi : 2 ≤ index)
    (hnd : ((pre ++ rest).map Prod.fst).Nodup)
    (hcan : ∀ e ∈ rest, canonicalKey e.1 = true)
    (hpos : ∀ e ∈ rest, ∀ r c, splitKey e.1 = some (r, c) → 0 ≤ r ∧ 0 ≤ c)
    (hnz : ∀ e ∈ rest, e.2 ≠ 0) :
    loadLines ⟨a, b, pre⟩ index
      (rest.filterMap (fun e => (splitKey e.1).map (fun p => entryLine p.1 p.2 e.2))) =
      Except.ok ⟨a, b, pre ++ rest⟩ := by
  induction rest generalizing pre index with
  | nil => simp [loadLines]
  | cons e rest ih =>
    obtain ⟨k, v⟩ := e
    obtain ⟨r, c, hk⟩ := (canonicalKey_iff k).1 (hcan (k, v) (by simp))
    subst hk
    have hrc := hpos (keyOf r c, v) (by simp) r c (splitKey_keyOf r c)
    have hv := hnz (keyOf r c, v) (by simp)
    have hnotin : keyOf r c ∉ pre.map Prod.fst := by
      intro hmem
      rw [List.map_append, List.nodup_append] at hnd
      exact hnd.2.2 hmem (by simp)
    have hfm : List.filterMap
        (fun e : Key × Int => (splitKey e.1).map (fun p => entryLine p.1 p.2 e.2))
        ((keyOf r c, v) :: rest) =
        entryLine r c v :: List.filterMap
          (fun e : Key × Int => (splitKey e.1).map (fun p => entryLine p.1 p.2 e.2)) rest := by
      simp [List.filterMap_cons, splitKey_keyOf]
    rw [hfm]
    unfold loadLines
    rw [loadLine_entryLine a b pre index hi r c v hrc.1 hrc.2 hv hnotin]
    simp only
    rw [ih (pre ++ [(keyOf r c, v)]) (index + 1) (by omega) (by simpa using hnd)
      (fun e he => hcan e (List.mem_cons_of_mem _ he))
      (fun e he => hpos e (List.mem_cons_of_mem _ he))
      (fun e he => hnz e (List.mem_cons_of_mem _ he))]
    simp

theorem dataLines_props (M : SparseMatrix) :
    ∀ l ∈ dataLines M, Clean l ∧ '\n' ∉ l := by
  intro l hl
  unfold dataLines at hl
  obtain ⟨e, _, he⟩ := List.mem_filterMap.1 hl
  cases hs : splitKey e.1 with
  | none => simp [hs] at he
  | some p =>
    simp only [hs, Option.map_some', Option.some.injEq] at he
    rw [← he]
    exact ⟨entryLine_clean _ _ _, entryLine_no_newline _ _ _⟩

/-- Reading the text written by `saveToFile` gives the matrix back. -/
theorem fromText_saveToFile (R C : Int) (data : JSMap)
    (hnd : (data.map Prod.fst).Nodup)
    (hcan : ∀ e ∈ data, canonicalKey e.1 = true)
    (hpos : ∀ e ∈ data, ∀ r c, splitKey e.1 = some (r, c) → 0 ≤ r ∧ 0 ≤ c)
    (hnz : ∀ e ∈ data, e.2 ≠ 0) :
    fromText (saveToFile ⟨JSNum.int R, JSNum.int C, data⟩) =
      Except.ok ⟨JSNum.int R, JSNum.int C, data⟩ := by
  have hrows := header_line "rows".toList R (by decide) (by decide) (by decide)
  have hcols := header_line "cols".toList C (by decide) (by decide) (by decide)
  have hr : "rows=".toList ++ intToDec R = "rows".toList ++ '=' :: intToDec R := rfl
  have hc : "cols=".toList ++ intToDec C = "cols".toList ++ '=' :: intToDec C := rfl
  rw [← hr] at hrows
  rw [← hc] at hcols
  have hlines : ∀ l ∈ saveLines ⟨JSNum.int R, JSNum.int C, data⟩, Clean l ∧ '\n' ∉ l := by
    intro l hl
    simp only [saveLines, List.mem_cons] at hl
    rcases hl with h | h | h
    · rw [h]; exact ⟨hrows.1, hrows.2.1⟩
    · rw [h]; exact ⟨hcols.1, hcols.2.1⟩
    · exact dataLines_props _ l h
  unfold fromText loadFromFile saveToFile
  rw [trim_of_clean (clean_joinWith _ (by simp [saveLines]) (fun l hl => (hlines l hl).1)),
    splitOn_joinWith _ _ (by simp [saveLines]) (fun l hl => (hlines l hl).2)]
  unfold saveLines
  simp only [JSNum.toText]
  unfold loadLines loadLine
  rw [trim_of_clean hrows.1]
  simp only [clean_ne_nil hrows.1, ↓reduceIte, hrows.2.2]
  unfold loadLines loadLine
  rw [trim_of_clean hcols.1]
  simp only [clean_ne_nil hcols.1, ↓reduceIte, hcols.2.2]
  have := loadLines_dataLines (JSNum.int R) (JSNum.int C) data [] 2 (le_refl 2)
    (by simpa using hnd) hcan hpos hnz
  simpa [empty, dataLines] using this

end SparseMatrix

end SparseMatrixJS

namespace SparseMatrixJS

/-! ## Further lemmas for the claims -/

theorem jsMax_comm (a b : JSNum) : JSNum.max a b = JSNum.max b a := by
  cases a <;> cases b <;> simp [JSNum.max, max_comm]

namespace JSMap

theorem has_of_mem {m : JSMap} {e : Key × Int} (h : e ∈ m) : m.has e.1 = true := by
  induction m with
  | nil => simp at h
  | cons e' rest ih =>
    obtain ⟨k', v'⟩ := e'
    simp only [List.mem_cons] at h
    by_cases hk : k' = e.1
    · simp [has, hk]
    · rcases h with h | h
      · exact absurd (by rw [h]) hk
      · simp [has, hk, ih h]

end JSMap

namespace SparseMatrix

theorem keptBySet_dims (a b : JSNum) : KeptBySet (fun M => M.rows = a ∧ M.cols = b) := by
  intro M r c v h
  rw [setElement_rows, setElement_cols]
  exact h

theorem add_dims (A B : SparseMatrix) :
    (A.add B).rows = JSNum.max A.rows B.rows ∧ (A.add B).cols = JSNum.max A.cols B.cols := by
  unfold add
  exact foldl_kept _ (addRightStep_kept (keptBySet_dims _ _) A) _ _
    (foldl_kept _ (addLeftStep_kept (keptBySet_dims _ _) B) _ _ ⟨rfl, rfl⟩)

theorem subtract_dims (A B : SparseMatrix) :
    (A.subtract B).rows = JSNum.max A.rows B.rows ∧
      (A.subtract B).cols = JSNum.max A.cols B.cols := by
  unfold subtract
  exact foldl_kept _ (subRightStep_kept (keptBySet_dims _ _) A) _ _
    (foldl_kept _ (subLeftStep_kept (keptBySet_dims _ _) B) _ _ ⟨rfl, rfl⟩)

theorem mulLoop_dims (A B : SparseMatrix) :
    (A.data.foldl (mulStep B) { empty with rows := A.rows, cols := B.cols }).rows = A.rows ∧
    (A.data.foldl (mulStep B) { empty with rows := A.rows, cols := B.cols }).cols = B.cols :=
  foldl_kept _ (mulStep_kept (keptBySet_dims _ _) B) _ _ ⟨rfl, rfl⟩

theorem add_getElement_eq (A B : SparseMatrix) (hA : A.WF) (hB : B.WF) (r c : Int) :
    (A.add B).getElement r c = A.getElement r c + B.getElement r c := by
  unfold add
  exact twoLoops_getElement (· + ·) (fun v => v) (by intro v; simp) (by simp) A B hA hB
    (addLeftStep B) (fun res e => rfl) (addRightStep A) (fun res e => rfl) _ _ r c

theorem subtract_getElement_eq (A B : SparseMatrix) (hA : A.WF) (hB : B.WF) (r c : Int) :
    (A.subtract B).getElement r c = A.getElement r c - B.getElement r c := by
  unfold subtract
  exact twoLoops_getElement (· - ·) (fun v => -v) (by intro v; simp) (by simp) A B hA hB
    (subLeftStep B) (fun res e => rfl) (subRightStep A) (fun res e => rfl) _ _ r c

/-- In a well-formed matrix without stored zero, the entries are the pairs of a key of
integers and the non-zero value `getElement` returns there. -/
theorem mem_data_iff {M : SparseMatrix} (hwf : M.WF) (hnz : M.NoZero) (k : Key) (v : Int) :
    (k, v) ∈ M.data ↔ ∃ r c, k = keyOf r c ∧ v ≠ 0 ∧ M.getElement r c = v := by
  constructor
  · intro h
    obtain ⟨r, c, hk⟩ := (canonicalKey_iff k).1 (hwf.2 _ h)
    refine ⟨r, c, hk, hnz _ h, ?_⟩
    rw [getElement_eq, ← hk, JSMap.get_of_mem hwf.1 h]
    rfl
  · rintro ⟨r, c, hk, hv, hg⟩
    rw [getElement_eq, ← hk] at hg
    cases hget : M.data.get k with
    | none =>
      rw [hget] at hg
      exact absurd hg.symm hv
    | some w =>
      rw [hget] at hg
      simp only [Option.getD_some] at hg
      rw [← hg]
      exact JSMap.mem_keys_of_get hget

theorem entryLine_injective {r c v r' c' v' : Int}
    (h : entryLine r c v = entryLine r' c' v') : r = r' ∧ c = c' := by
  rw [entryLine_eq, entryLine_eq] at h
  injection h with _ h
  have hsp : ∀ i : Int, ',' ∉ ' ' :: intToDec i := by
    intro i hmem
    simp only [List.mem_cons] at hmem
    rcases hmem with hmem | hmem
    · exact absurd hmem (by decide)
    · exact intToDec_no_comma i hmem
  have hsplit : ∀ a b d : Int, splitOn ',' (intToDec a ++ ',' :: ' ' :: (intToDec b ++
      ',' :: ' ' :: (intToDec d ++ [')']))) =
      intToDec a :: (' ' :: intToDec b) :: splitOn ',' (' ' :: (intToDec d ++ [')'])) := by
    intro a b d
    rw [splitOn_append_sep _ _ _ (intToDec_no_comma a)]
    have : ' ' :: (intToDec b ++ ',' :: ' ' :: (intToDec d ++ [')'])) =
        (' ' :: intToDec b) ++ ',' :: (' ' :: (intToDec d ++ [')'])) := by simp
    rw [this, splitOn_append_sep _ _ _ (hsp b)]
  have h2 := congrArg (splitOn ',') h
  rw [hsplit, hsplit] at h2
  injection h2 with h3 h4
  injection h4 with h5 _
  injection h5 with _ h6
  exact ⟨intToDec_injective h3, intToDec_injective h6⟩

/-- After `setElement(r, c, 0)` on a well-formed matrix no written line is a data
line for `(r, c)`. -/
theorem no_line_after_zero (M : SparseMatrix) (hM : M.WF) (r c v : Int) :
    entryLine r c v ∉ saveLines (M.setElement r c 0) := by
  intro hmem
  have hwf := WF_setElement r c 0 hM
  simp only [saveLines, List.mem_cons] at hmem
  rcases hmem with h | h | h
  · rw [entryLine_eq] at h
    injection h with h _
    exact absurd h (by decide)
  · rw [entryLine_eq] at h
    injection h with h _
    exact absurd h (by decide)
  · unfold dataLines at h
    obtain ⟨e, he, hline⟩ := List.mem_filterMap.1 h
    obtain ⟨r', c', hk⟩ := (canonicalKey_iff e.1).1 (hwf.2 e he)
    rw [hk, splitKey_keyOf] at hline
    simp only [Option.map_some', Option.some.injEq] at hline
    obtain ⟨h1, h2⟩ := entryLine_injective hline
    subst h1 h2
    have hhas := JSMap.has_of_mem he
    rw [hk, JSMap.has_eq_isSome] at hhas
    have : (M.setElement r' c' 0).data = M.data.delete (keyOf r' c') := by
      simp [setElement]
    rw [this, JSMap.get_delete_self] at hhas
    exact absurd hhas (by simp)

theorem has_after_zero (M : SparseMatrix) (r c : Int) :
    (M.setElement r c 0).data.has (keyOf r c) = false := by
  have : (M.setElement r c 0).data = M.data.delete (keyOf r c) := by
    simp [setElement]
  rw [this, JSMap.has_eq_isSome, JSMap.get_delete_self]
  rfl

end SparseMatrix

end SparseMatrixJS

namespace SparseMatrixJS

/-! ## The claims -/

namespace SparseMatrix

/-- C4: for integer dimensions, `multiply(A, B)` throws the dimension error exactly
when `A.cols` differs from `B.rows` (also when a dimension is `0`), an error carries no
matrix, and when they are equal the call returns a matrix with the rows of `A` and the
columns of `B`. -/
theorem multiply_dimension (A B : SparseMatrix) (a b : Int)
    (hA : A.cols = JSNum.int a) (hB : B.rows = JSNum.int b) :
    (A.multiply B = Except.error Err.dimension ↔ a ≠ b) ∧
      (a = b → ∃ M, A.multiply B = Except.ok M ∧ M.rows = A.rows ∧ M.cols = B.cols) := by
  constructor
  · by_cases h : a = b <;> simp [multiply, hA, hB, JSNum.strictNe, h]
  · intro h
    refine ⟨_, ?_, (mulLoop_dims A B).1, (mulLoop_dims A B).2⟩
    simp [multiply, hA, hB, JSNum.strictNe, h]

theorem multiply_dimension_witness :
    empty.cols = JSNum.int 0 ∧ scenarioA.rows = JSNum.int 2 ∧
      ((empty.multiply scenarioA = Except.error Err.dimension ↔ (0 : Int) ≠ 2) ∧
        ((0 : Int) = 2 → ∃ M, empty.multiply scenarioA = Except.ok M ∧
          M.rows = empty.rows ∧ M.cols = scenarioA.cols)) :=
  ⟨rfl, rfl, multiply_dimension empty scenarioA 0 2 rfl rfl⟩

/-- C5: `add` and `subtract` are total: for all matrices, whatever their dimensions,
they return a matrix, whose `rows` is `Math.max` of the two `rows` and whose `cols` is
`Math.max` of the two `cols`; on integers `Math.max` is the maximum. -/
theorem add_subtract_dims (A B : SparseMatrix) (a b : Int) :
    (A.add B).rows = JSNum.max A.rows B.rows ∧ (A.add B).cols = JSNum.max A.cols B.cols ∧
      (A.subtract B).rows = JSNum.max A.rows B.rows ∧
      (A.subtract B).cols = JSNum.max A.cols B.cols ∧
      JSNum.max (JSNum.int a) (JSNum.int b) = JSNum.int (max a b) :=
  ⟨(add_dims A B).1, (add_dims A B).2, (subtract_dims A B).1, (subtract_dims A B).2, rfl⟩

end SparseMatrix

end SparseMatrixJS

namespace SparseMatrixJS

namespace SparseMatrix

/-- C7: every matrix reachable from the empty matrix through `setElement`, the
constructor from a file, `add`, `subtract` and `multiply` has no stored entry of
value `0`: a coordinate whose value is `0` has no entry, so the result of `add` or
`subtract` with a reachable matrix stores nothing where the two contributions cancel,
nor does a product where its value is `0`; for instance `subtract` of the scenario
matrix with itself stores no entry. -/
theorem reachable_noZero (M : SparseMatrix) (h : Reachable M) :
    M.NoZero ∧
      (∀ r c, M.getElement r c = 0 → M.data.has (keyOf r c) = false) ∧
      (∀ B, Reachable B → ∀ r c,
        (M.getElement r c + B.getElement r c = 0 →
          (M.add B).data.has (keyOf r c) = false) ∧
        (M.getElement r c - B.getElement r c = 0 →
          (M.subtract B).data.has (keyOf r c) = false)) ∧
      (∀ B P, Reachable B → M.multiply B = Except.ok P →
        P.NoZero ∧ ∀ r c, P.getElement r c = 0 → P.data.has (keyOf r c) = false) ∧
      (scenarioA.subtract scenarioA).data = [] := by
  refine ⟨h.noZero, has_false_of_getElement_zero h.noZero, ?_, ?_, by decide⟩
  · intro B hB r c
    constructor
    · intro h0
      apply has_false_of_getElement_zero (Reachable.add h hB).noZero
      rw [add_getElement_eq M B h.wf hB.wf, h0]
    · intro h0
      apply has_false_of_getElement_zero (Reachable.subtract h hB).noZero
      rw [subtract_getElement_eq M B h.wf hB.wf, h0]
  · intro B P hB hP
    have hnz := (Reachable.multiply h hB hP).noZero
    exact ⟨hnz, has_false_of_getElement_zero hnz⟩

theorem reachable_noZero_witness :
    Reachable (scenarioA.add scenarioB) ∧ (scenarioA.add scenarioB).NoZero :=
  have hA : Reachable scenarioA :=
    Reachable.fromText "rows=2\ncols=2\n(0,0,1)\n(1,1,2)".toList (by decide)
  have hB : Reachable scenarioB :=
    Reachable.fromText "rows=2\ncols=2\n(0,0,3)\n(0,1,4)".toList (by decide)
  ⟨Reachable.add hA hB, (reachable_noZero _ (Reachable.add hA hB)).1⟩

/-- C8: zero suppression.  For a well-formed matrix `M` and a coordinate `(r, c)`,
after `setElement(r, c, 0)` the value read at `(r, c)` is `0`, the map has no entry of
key `(r, c)` (present before or not), and no line written by `saveToFile` is a data
line `(r, c, v)`. -/
theorem setElement_zero (M : SparseMatrix) (hM : M.WF) (r c : Int) :
    (M.setElement r c 0).getElement r c = 0 ∧
      (M.setElement r c 0).data.has (keyOf r c) = false ∧
      (∀ v, (keyOf r c, v) ∉ (M.setElement r c 0).data) ∧
      (∀ v, entryLine r c v ∉ saveLines (M.setElement r c 0)) := by
  refine ⟨getElement_setElement_self M r c 0, has_after_zero M r c, ?_,
    no_line_after_zero M hM r c⟩
  intro v hmem
  have h1 := JSMap.has_of_mem hmem
  rw [has_after_zero] at h1
  exact absurd h1 (by simp)

theorem setElement_zero_witness :
    scenarioA.WF ∧ (scenarioA.setElement 1 1 0).getElement 1 1 = 0 ∧
      (scenarioA.setElement 1 1 0).data.has (keyOf 1 1) = false ∧
      (∀ v, (keyOf 1 1, v) ∉ (scenarioA.setElement 1 1 0).data) ∧
      (∀ v, entryLine 1 1 v ∉ saveLines (scenarioA.setElement 1 1 0)) :=
  ⟨by decide, setElement_zero scenarioA (by decide) 1 1⟩

/-- C9: after `setElement(r, c, v)`, `getElement(r', c')` is `v` at `(r, c)` and what
it was before at every other coordinate; `rows` and `cols` are unchanged, whatever the
coordinate; and `getElement` is the stored value, `0` when the map has no entry. -/
theorem setElement_frame (M : SparseMatrix) (r c v r' c' : Int) :
    (M.setElement r c v).getElement r' c' =
        (if r' = r ∧ c' = c then v else M.getElement r' c') ∧
      (M.setElement r c v).rows = M.rows ∧ (M.setElement r c v).cols = M.cols ∧
      M.getElement r' c' = (M.data.get (keyOf r' c')).getD 0 ∧
      (M.data.has (keyOf r' c') = false → M.getElement r' c' = 0) :=
  ⟨getElement_setElement M r c v r' c', setElement_rows M r c v, setElement_cols M r c v,
    getElement_eq M r' c', fun h => by simp [getElement, h]⟩

/-- C10: commutativity of addition.  For well-formed `A` and `B`, `add(A, B)` and
`add(B, A)` have the same `rows`, the same `cols` and the same set of stored
`(key, value)` entries. -/
theorem add_commutative (A B : SparseMatrix) (hA : A.WF) (hB : B.WF) :
    (A.add B).rows = (B.add A).rows ∧ (A.add B).cols = (B.add A).cols ∧
      ∀ k v, (k, v) ∈ (A.add B).data ↔ (k, v) ∈ (B.add A).data := by
  refine ⟨?_, ?_, ?_⟩
  · rw [(add_dims A B).1, (add_dims B A).1, jsMax_comm]
  · rw [(add_dims A B).2, (add_dims B A).2, jsMax_comm]
  · intro k v
    rw [mem_data_iff (add_kept keptBySet_WF A B WF_init) (add_kept keptBySet_NoZero A B NoZero_init),
      mem_data_iff (add_kept keptBySet_WF B A WF_init) (add_kept keptBySet_NoZero B A NoZero_init)]
    constructor
    · rintro ⟨r, c, hk, hv, hg⟩
      exact ⟨r, c, hk, hv, by
        rw [add_getElement_eq B A hB hA, ← hg, add_getElement_eq A B hA hB, Int.add_comm]⟩
    · rintro ⟨r, c, hk, hv, hg⟩
      exact ⟨r, c, hk, hv, by
        rw [add_getElement_eq A B hA hB, ← hg, add_getElement_eq B A hB hA, Int.add_comm]⟩

theorem add_commutative_witness :
    scenarioA.WF ∧ scenarioB.WF ∧
      (scenarioA.add scenarioB).rows = (scenarioB.add scenarioA).rows ∧
      (scenarioA.add scenarioB).cols = (scenarioB.add scenarioA).cols ∧
      ∀ k v, (k, v) ∈ (scenarioA.add scenarioB).data ↔ (k, v) ∈ (scenarioB.add scenarioA).data :=
  ⟨by decide, by decide, add_commutative scenarioA scenarioB (by decide) (by decide)⟩

end SparseMatrix

end SparseMatrixJS

namespace SparseMatrixJS

/-! ## Claims on the algebra of `add` and `subtract` -/

namespace SparseMatrix

theorem subtract_self_data (M : SparseMatrix) (hM : M.WF) : (M.subtract M).data = [] := by
  rw [List.eq_nil_iff_forall_not_mem]
  rintro ⟨k, v⟩ he
  obtain ⟨r, c, _, hv, hg⟩ :=
    (mem_data_iff (subtract_kept keptBySet_WF M M WF_init)
      (subtract_kept keptBySet_NoZero M M NoZero_init) k v).1 he
  rw [subtract_getElement_eq M M hM hM, Int.sub_self] at hg
  exact hv hg.symm

/-- C11 as the code has it: for a well-formed `M`, `subtract(M, M)` is the zero matrix
(it stores no entry and reads `0` everywhere), and `add(M, subtract(M, M))` reads the
value of `M` at every coordinate. -/
theorem add_subtract_self (M : SparseMatrix) (hM : M.WF) :
    (M.subtract M).data = [] ∧ (∀ r c, (M.subtract M).getElement r c = 0) ∧
      ∀ r c, (M.add (M.subtract M)).getElement r c = M.getElement r c := by
  refine ⟨subtract_self_data M hM, ?_, ?_⟩
  · intro r c
    rw [subtract_getElement_eq M M hM hM, Int.sub_self]
  · intro r c
    rw [add_getElement_eq M _ hM (subtract_kept keptBySet_WF M M WF_init),
      subtract_getElement_eq M M hM hM, Int.sub_self, Int.add_zero]

theorem add_subtract_self_witness :
    scenarioA.WF ∧ (scenarioA.subtract scenarioA).data = [] ∧
      (∀ r c, (scenarioA.subtract scenarioA).getElement r c = 0) ∧
      ∀ r c, (scenarioA.add (scenarioA.subtract scenarioA)).getElement r c =
        scenarioA.getElement r c :=
  ⟨by decide, add_subtract_self scenarioA (by decide)⟩

/-- C11 as stated fails: `(0, 0)` has a stored entry in the scenario matrix `M`, and
`add(M, subtract(M, M))` reads `1` there, not `0`. -/
theorem add_subtract_self_counterexample :
    scenarioA.WF ∧ scenarioA.data.has (keyOf 0 0) = true ∧
      (scenarioA.add (scenarioA.subtract scenarioA)).getElement 0 0 = 1 ∧
      (scenarioA.add (scenarioA.subtract scenarioA)).getElement 0 0 ≠ 0 := by
  decide

end SparseMatrix

end SparseMatrixJS

namespace SparseMatrixJS

/-! ## The line pattern and the errors of the parser -/

namespace SparseMatrix

theorem expect_some {ch : Char} {s t : Str} (h : expect ch s = some t) : s = ch :: t := by
  cases s with
  | nil => simp [expect] at h
  | cons c rest =>
    simp only [expect] at h
    split at h
    · rename_i hc
      simp only [Option.some.injEq] at h
      rw [hc, h]
    · exact absurd h (by simp)

theorem readGroup_some {s g t : Str} (h : readGroup s = some (g, t)) :
    g ≠ [] ∧ (∀ ch ∈ g, isDigit ch = true) ∧ s = g ++ t := by
  unfold readGroup at h
  split at h
  · exact absurd h (by simp)
  · rename_i hne
    simp only [Option.some.injEq, Prod.mk.injEq] at h
    obtain ⟨h1, h2⟩ := h
    subst h1 h2
    exact ⟨hne, fun ch hch => List.mem_takeWhile_imp hch,
      (List.takeWhile_append_dropWhile isDigit s).symm⟩

theorem readSign_spec (s : Str) :
    s = (readSign s).1 ++ (readSign s).2 ∧ ((readSign s).1 = [] ∨ (readSign s).1 = ['-']) := by
  unfold readSign
  split
  · exact ⟨rfl, Or.inr rfl⟩
  · exact ⟨rfl, Or.inl rfl⟩

/-- Shape of a line the pattern matches: `(`, digits, a comma, white space, digits, a
comma, white space, an optional `-`, digits, `)`. -/
theorem matchTriple_shape {line g1 g2 g3 : Str} (h : matchTriple line = some (g1, g2, g3)) :
    ∃ w1 w2 sign d : Str,
      line = '(' :: (g1 ++ ',' :: (w1 ++ (g2 ++ ',' :: (w2 ++ (sign ++ (d ++ [')'])))))) ∧
      g3 = sign ++ d ∧ (sign = [] ∨ sign = ['-']) ∧
      (g1 ≠ [] ∧ ∀ ch ∈ g1, isDigit ch = true) ∧ (g2 ≠ [] ∧ ∀ ch ∈ g2, isDigit ch = true) ∧
      (d ≠ [] ∧ ∀ ch ∈ d, isDigit ch = true) ∧
      (∀ ch ∈ w1, isSpace ch = true) ∧ (∀ ch ∈ w2, isSpace ch = true) := by
  unfold matchTriple at h
  simp only [Option.bind_eq_bind, Option.bind_eq_some] at h
  obtain ⟨s1, h1, ⟨a1, s2⟩, h2, s3, h3, ⟨a2, s4⟩, h4, s5, h5, ⟨a3, s6⟩, h6, s7, h7, h8⟩ := h
  simp only at h3 h5 h6 h7 h8
  split at h8
  · rename_i hs7
    simp only [Option.some.injEq, Prod.mk.injEq] at h8
    obtain ⟨e1, e2, e3⟩ := h8
    subst e1 e2 hs7
    have l1 := expect_some h1
    obtain ⟨n1, d1, l2⟩ := readGroup_some h2
    have l3 := expect_some h3
    obtain ⟨n2, d2, l4⟩ := readGroup_some h4
    have l5 := expect_some h5
    obtain ⟨n3, d3, l6⟩ := readGroup_some h6
    have l7 := expect_some h7
    obtain ⟨l8, hsign⟩ := readSign_spec (List.dropWhile isSpace s5)
    refine ⟨s3.takeWhile isSpace, s5.takeWhile isSpace,
      (readSign (List.dropWhile isSpace s5)).1, a3, ?_, e3.symm, hsign, ⟨n1, d1⟩, ⟨n2, d2⟩,
      ⟨n3, d3⟩, fun ch hch => List.mem_takeWhile_imp hch,
      fun ch hch => List.mem_takeWhile_imp hch⟩
    have e5 : s5 = List.takeWhile isSpace s5 ++
        ((readSign (List.dropWhile isSpace s5)).1 ++ (a3 ++ [')'])) := by
      have h := (List.takeWhile_append_dropWhile isSpace s5).symm
      rw [l8, l6, l7] at h
      exact h
    have e3' : s3 = List.takeWhile isSpace s3 ++ (a2 ++ ',' :: s5) := by
      have h := (List.takeWhile_append_dropWhile isSpace s3).symm
      rw [l4, l5] at h
      exact h
    rw [l1, l2, l3]
    conv_lhs => rw [e3', e5]
  · exact absurd h8 (by simp)

theorem jsNumber_digits {d : Str} (hne : d ≠ []) (h : ∀ ch ∈ d, isDigit ch = true) :
    jsNumber d = some (parseDec d : Int) := by
  have hall : d.all isDigit = true := by
    rw [List.all_eq_true]; exact h
  unfold jsNumber
  split
  · rename_i ds
    exact absurd (h '-' (by simp)) (by decide)
  · simp [hne, hall]

theorem jsNumber_minus_digits {d : Str} (hne : d ≠ []) (h : ∀ ch ∈ d, isDigit ch = true) :
    jsNumber ('-' :: d) = some (-(parseDec d : Int)) := by
  have hall : d.all isDigit = true := by
    rw [List.all_eq_true]; exact h
  simp [jsNumber, hne, hall]

/-- The conversion `Number` answers on the groups of a match: the failure of
`parseTriple` is the failure of the pattern. -/
theorem parseTriple_eq_none_iff (line : Str) :
    parseTriple line = none ↔ matchTriple line = none := by
  constructor
  · intro h
    cases hm : matchTriple line with
    | none => rfl
    | some g =>
      obtain ⟨g1, g2, g3⟩ := g
      obtain ⟨w1, w2, sign, d, _, e3, hsign, ⟨n1, d1⟩, ⟨n2, d2⟩, ⟨n3, d3⟩, _, _⟩ :=
        matchTriple_shape hm
      have j3 : ∃ v, jsNumber g3 = some v := by
        rcases hsign with hs | hs
        · rw [e3, hs, List.nil_append, jsNumber_digits n3 d3]
          exact ⟨_, rfl⟩
        · rw [e3, hs, List.singleton_append, jsNumber_minus_digits n3 d3]
          exact ⟨_, rfl⟩
      obtain ⟨v, hv⟩ := j3
      simp [parseTriple, hm, jsNumber_digits n1 d1, jsNumber_digits n2 d2, hv] at h
  · intro h
    simp [parseTriple, h]

theorem clean_of_matchTriple {line : Str} (h : (matchTriple line).isSome = true) :
    Clean line := by
  obtain ⟨⟨g1, g2, g3⟩, hm⟩ := Option.isSome_iff_exists.1 h
  obtain ⟨w1, w2, sign, d, hl, _⟩ := matchTriple_shape hm
  rw [hl]
  refine ⟨⟨'(', _, rfl, by decide⟩,
    ⟨'(' :: (g1 ++ ',' :: (w1 ++ (g2 ++ ',' :: (w2 ++ (sign ++ d))))), ')', by simp,
      by decide⟩⟩

theorem loadLine_error {M : SparseMatrix} {index : Nat} {line : Str} {e : Err}
    (h : loadLine M index line = Except.error e) :
    e = Err.format ∧ 2 ≤ index ∧ trim line ≠ [] ∧ matchTriple (trim line) = none := by
  unfold loadLine at h
  split at h
  · exact absurd h (by simp)
  · rename_i hne
    simp only at h
    split at h
    · exact absurd h (by simp)
    · split at h
      · exact absurd h (by simp)
      · split at h
        · rename_i hp
          simp only [Except.error.injEq] at h
          exact ⟨h.symm, by omega, hne, (parseTriple_eq_none_iff _).1 hp⟩
        · exact absurd h (by simp)

theorem loadLine_bad {M : SparseMatrix} {index : Nat} {line : Str} (hi : 2 ≤ index)
    (hne : trim line ≠ []) (hm : matchTriple (trim line) = none) :
    loadLine M index line = Except.error Err.format := by
  unfold loadLine
  rw [if_neg hne]
  simp only
  rw [if_neg (by omega), if_neg (by omega), (parseTriple_eq_none_iff _).2 hm]

/-- The loop over the lines fails exactly when some non-blank line of index at least
`2` does not match the pattern, and then with the format error. -/
theorem loadLines_error_iff (lines : List Str) (M : SparseMatrix) (index : Nat) :
    (∃ e, loadLines M index lines = Except.error e) ↔
      ∃ i line, lines.get? i = some line ∧ 2 ≤ index + i ∧ trim line ≠ [] ∧
        matchTriple (trim line) = none := by
  induction lines generalizing M index with
  | nil => simp [loadLines]
  | cons l rest ih =>
    unfold loadLines
    constructor
    · rintro ⟨e, h⟩
      split at h
      · rename_i e' he
        obtain ⟨_, h2, h3, h4⟩ := loadLine_error he
        exact ⟨0, l, rfl, h2, h3, h4⟩
      · rename_i M' _
        obtain ⟨i, line, h1, h2, h3, h4⟩ := (ih M' (index + 1)).1 ⟨e, h⟩
        exact ⟨i + 1, line, by simpa using h1, by omega, h3, h4⟩
    · rintro ⟨i, line, h1, h2, h3, h4⟩
      split
      · rename_i e' _
        exact ⟨e', rfl⟩
      · rename_i M' hok
        cases i with
        | zero =>
          simp only [List.get?_cons_zero, Option.some.injEq] at h1
          subst h1
          rw [loadLine_bad (by omega) h3 h4] at hok
          exact absurd hok (by simp)
        | succ j =>
          exact (ih M' (index + 1)).2 ⟨j, line, by simpa using h1, by omega, h3, h4⟩

theorem loadLines_error_format {lines : List Str} {M : SparseMatrix} {index : Nat} {e : Err}
    (h : loadLines M index lines = Except.error e) : e = Err.format := by
  induction lines generalizing M index with
  | nil => simp [loadLines] at h
  | cons l rest ih =>
    unfold loadLines at h
    split at h
    · rename_i e' he
      simp only [Except.error.injEq] at h
      rw [← h]
      exact (loadLine_error he).1
    · exact ih h

end SparseMatrix

end SparseMatrixJS

namespace SparseMatrixJS

namespace SparseMatrix

theorem dropWhile_space_append (w s : Str) (h : ∀ ch ∈ w, isSpace ch = true) :
    (w ++ s).dropWhile isSpace = s.dropWhile isSpace := by
  induction w with
  | nil => rfl
  | cons a rest ih =>
    rw [List.cons_append, List.dropWhile_cons_of_pos (h a (by simp)),
      ih (fun ch hch => h ch (List.mem_cons_of_mem _ hch))]

/-- C13 on the code: blank lines around the text and after the two header lines are
passed over, but a blank line between the `rows=` line and the `cols=` line moves the
`cols=` line to the index `2`, where it is matched against the triple pattern and the
load fails. -/
theorem blank_line_between_headers :
    fromText "rows=2\ncols=2\n(0, 0, 1)".toList =
        Except.ok ⟨JSNum.int 2, JSNum.int 2, [(keyOf 0 0, 1)]⟩ ∧
      fromText "\n \nrows=2\ncols=2\n\n(0, 0, 1)\n \n".toList =
        Except.ok ⟨JSNum.int 2, JSNum.int 2, [(keyOf 0 0, 1)]⟩ ∧
      fromText "rows=2\n\ncols=2\n(0, 0, 1)".toList = Except.error Err.format := by
  decide

/-- C14: when some non-blank line of index at least `2` (hence every non-blank line
after the two header lines) does not match the triple pattern, the constructor throws
the format error and returns no matrix; when it is the first such line, the lines
before it are loaded and the error is thrown on that line.  The line `(1, 2)` after a
valid data line is an instance. -/
theorem malformed_line_fails (content : Str) (i : Nat) (line : Str) (hi : 2 ≤ i)
    (hline : (splitOn '\n' (trim content)).get? i = some line) (hne : trim line ≠ [])
    (hm : matchTriple (trim line) = none) :
    fromText content = Except.error Err.format ∧
      ((∀ j l, j < i → (splitOn '\n' (trim content)).get? j = some l → 2 ≤ j →
          trim l ≠ [] → matchTriple (trim l) ≠ none) →
        ∃ M, loadLines empty 0 ((splitOn '\n' (trim content)).take i) = Except.ok M ∧
          loadLine M i line = Except.error Err.format) ∧
      fromText "rows=2\ncols=2\n(0, 0, 1)\n(1, 2)".toList = Except.error Err.format := by
  refine ⟨?_, ?_, by decide⟩
  · obtain ⟨e, he⟩ := (loadLines_error_iff (splitOn '\n' (trim content)) empty 0).2
      ⟨i, line, hline, by omega, hne, hm⟩
    unfold fromText loadFromFile
    rw [he, loadLines_error_format he]
  · intro hfirst
    cases hp : loadLines empty 0 ((splitOn '\n' (trim content)).take i) with
    | ok M => exact ⟨M, rfl, loadLine_bad hi hne hm⟩
    | error e =>
      obtain ⟨j, l, h1, h2, h3, h4⟩ :=
        (loadLines_error_iff ((splitOn '\n' (trim content)).take i) empty 0).1 ⟨e, hp⟩
      have hj : j < i := by
        by_contra hge
        rw [List.get?_eq_none.2 (by
          rw [List.length_take]; omega)] at h1
        exact absurd h1 (by simp)
      rw [List.get?_eq_getElem?, List.getElem?_take_of_lt hj, ← List.get?_eq_getElem?] at h1
      exact absurd h4 (hfirst j l hj h1 (by omega) h3)

theorem malformed_line_fails_witness :
    (2 : Nat) ≤ 3 ∧
      (splitOn '\n' (trim "rows=2\ncols=2\n(0, 0, 1)\n(1, 2)".toList)).get? 3 =
        some "(1, 2)".toList ∧
      trim "(1, 2)".toList ≠ [] ∧ matchTriple (trim "(1, 2)".toList) = none ∧
      fromText "rows=2\ncols=2\n(0, 0, 1)\n(1, 2)".toList = Except.error Err.format :=
  ⟨by decide, by decide, by decide, by decide,
    (malformed_line_fails "rows=2\ncols=2\n(0, 0, 1)\n(1, 2)".toList 3 "(1, 2)".toList
      (by decide) (by decide) (by decide) (by decide)).1⟩

/-- C15 as the code has it: the constructor does not check its first two lines and
never fails on them.  A non-blank line of index `0` sets `rows`, one of index `1` sets
`cols`, to `parseInt` of the part after the first `=` of the line, whatever stands
before it; `parseInt` gives `NaN` when there is no such part.  The constructor fails
only with the format error, and only when a non-blank line of index at least `2` does
not match the triple pattern. -/
theorem header_lines_not_validated (content : Str) (M : SparseMatrix) (line : Str) :
    (∀ e, fromText content = Except.error e →
        e = Err.format ∧ ∃ i l, 2 ≤ i ∧ (splitOn '\n' (trim content)).get? i = some l ∧
          trim l ≠ [] ∧ matchTriple (trim l) = none) ∧
      loadLine M 0 line = Except.ok
        (if trim line = [] then M
          else { M with rows := parseInt ((splitOn '=' (trim line)).get? 1) }) ∧
      loadLine M 1 line = Except.ok
        (if trim line = [] then M
          else { M with cols := parseInt ((splitOn '=' (trim line)).get? 1) }) ∧
      parseInt none = JSNum.nan := by
  refine ⟨?_, ?_, ?_, rfl⟩
  · intro e he
    unfold fromText loadFromFile at he
    obtain ⟨i, l, h1, h2, h3, h4⟩ :=
      (loadLines_error_iff (splitOn '\n' (trim content)) empty 0).1 ⟨e, he⟩
    exact ⟨loadLines_error_format he, i, l, by omega, h1, h3, h4⟩
  · unfold loadLine
    by_cases hb : trim line = [] <;> simp [hb]
  · unfold loadLine
    by_cases hb : trim line = [] <;> simp [hb]

/-- C15 as stated fails: the headers in the wrong order, a line without `=`, and
integers that cannot be parsed are all accepted. -/
theorem header_lines_counterexample :
    fromText "cols=3\nrows=2".toList = Except.ok ⟨JSNum.int 3, JSNum.int 2, []⟩ ∧
      fromText "hello".toList = Except.ok ⟨JSNum.nan, JSNum.int 0, []⟩ ∧
      fromText "rows=abc\ncols=2x".toList = Except.ok ⟨JSNum.nan, JSNum.int 2, []⟩ ∧
      fromText "(0, 0, 1)\n(1, 1, 2)".toList = Except.ok ⟨JSNum.nan, JSNum.nan, []⟩ := by
  decide

/-- C16 as stated fails: a data line without space after the commas, and one with two
spaces after each comma, are accepted and set the element. -/
theorem spaces_after_comma_counterexample :
    fromText "rows=2\ncols=2\n(0,0,1)".toList =
        Except.ok ⟨JSNum.int 2, JSNum.int 2, [(keyOf 0 0, 1)]⟩ ∧
      fromText "rows=2\ncols=2\n(0,  0,  1)".toList =
        Except.ok ⟨JSNum.int 2, JSNum.int 2, [(keyOf 0 0, 1)]⟩ := by
  decide

end SparseMatrix

end SparseMatrixJS

namespace SparseMatrixJS

namespace SparseMatrix

theorem foldl_setElement_getElement (ts : List (Int × Int × Int)) (M : SparseMatrix)
    (r c : Int) :
    (ts.foldl (fun N t => N.setElement t.1 t.2.1 t.2.2) M).getElement r c =
      match ts.reverse.find? (fun t => t.1 = r ∧ t.2.1 = c) with
      | some t => t.2.2
      | none => M.getElement r c := by
  induction ts using List.reverseRecOn with
  | nil => rfl
  | append_singleton ts t ih =>
    rw [List.foldl_append, List.foldl_cons, List.foldl_nil, getElement_setElement,
      List.reverse_append, List.reverse_singleton, List.singleton_append, List.find?_cons]
    by_cases h : r = t.1 ∧ c = t.2.1
    · have h' : decide (t.1 = r ∧ t.2.1 = c) = true := by
        simp [h.1, h.2]
      rw [if_pos h, h']
    · have h' : decide (t.1 = r ∧ t.2.1 = c) = false := by
        simp only [decide_eq_false_iff_not]
        intro hh
        exact h ⟨hh.1.symm, hh.2.symm⟩
      rw [if_neg h, h', ih]

theorem loadLines_triples (ls : List Str) (M : SparseMatrix) (index : Nat) (hi : 2 ≤ index)
    (h : ∀ l ∈ ls, (matchTriple l).isSome = true) :
    loadLines M index ls =
        Except.ok ((ls.filterMap parseTriple).foldl
          (fun N t => N.setElement t.1 t.2.1 t.2.2) M) ∧
      (ls.filterMap parseTriple).length = ls.length := by
  induction ls generalizing M index with
  | nil => exact ⟨rfl, rfl⟩
  | cons l rest ih =>
    have hl := h l (by simp)
    have hclean := clean_of_matchTriple hl
    have hp : ∃ t, parseTriple l = some t := by
      cases hpt : parseTriple l with
      | some t => exact ⟨t, rfl⟩
      | none =>
        rw [(parseTriple_eq_none_iff l).1 hpt] at hl
        exact absurd hl (by simp)
    obtain ⟨t, ht⟩ := hp
    obtain ⟨row, col, value⟩ := t
    have hrest := ih (M.setElement row col value) (index + 1) (by omega)
      (fun x hx => h x (List.mem_cons_of_mem _ hx))
    have hline : loadLine M index l = Except.ok (M.setElement row col value) := by
      unfold loadLine
      rw [trim_of_clean hclean, if_neg (clean_ne_nil hclean)]
      simp only
      rw [if_neg (by omega), if_neg (by omega), ht]
    rw [List.filterMap_cons_some ht]
    constructor
    · unfold loadLines
      rw [hline]
      simp only
      rw [hrest.1, List.foldl_cons]
    · simp [hrest.2]

/-- Loading a text made of a `rows=` line, a `cols=` line and lines that match the
pattern: the dimensions are read and the triples are set in the order of the lines. -/
theorem fromText_lines (R C : Int) (ls : List Str)
    (hls : ∀ l ∈ ls, (matchTriple l).isSome = true ∧ '\n' ∉ l) :
    fromText (joinWith '\n'
      (("rows=".toList ++ intToDec R) :: ("cols=".toList ++ intToDec C) :: ls)) =
      Except.ok ((ls.filterMap parseTriple).foldl (fun N t => N.setElement t.1 t.2.1 t.2.2)
        ⟨JSNum.int R, JSNum.int C, []⟩) := by
  have hrows := header_line "rows".toList R (by decide) (by decide) (by decide)
  have hcols := header_line "cols".toList C (by decide) (by decide) (by decide)
  have hr : "rows=".toList ++ intToDec R = "rows".toList ++ '=' :: intToDec R := rfl
  have hc : "cols=".toList ++ intToDec C = "cols".toList ++ '=' :: intToDec C := rfl
  rw [← hr] at hrows
  rw [← hc] at hcols
  have hlines : ∀ l ∈ ("rows=".toList ++ intToDec R) :: ("cols=".toList ++ intToDec C) :: ls,
      Clean l ∧ '\n' ∉ l := by
    intro l hl
    simp only [List.mem_cons] at hl
    rcases hl with h | h | h
    · rw [h]; exact ⟨hrows.1, hrows.2.1⟩
    · rw [h]; exact ⟨hcols.1, hcols.2.1⟩
    · exact ⟨clean_of_matchTriple (hls l h).1, (hls l h).2⟩
  unfold fromText loadFromFile
  rw [trim_of_clean (clean_joinWith _ (by simp) (fun l hl => (hlines l hl).1)),
    splitOn_joinWith _ _ (by simp) (fun l hl => (hlines l hl).2)]
  unfold loadLines loadLine
  rw [trim_of_clean hrows.1]
  simp only [clean_ne_nil hrows.1, ↓reduceIte, hrows.2.2]
  unfold loadLines loadLine
  rw [trim_of_clean hcols.1]
  simp only [clean_ne_nil hcols.1, ↓reduceIte, hcols.2.2]
  exact (loadLines_triples ls _ 2 (le_refl 2) (fun l hl => (hls l hl).1)).1

end SparseMatrix

end SparseMatrixJS

namespace SparseMatrixJS

/-! ## Claims on the written text and on the product -/

namespace JSMap

theorem not_mem_keys_of_has {m : JSMap} {k : Key} (h : m.has k = false) :
    k ∉ m.map Prod.fst := by
  intro hmem
  obtain ⟨e, he, hk⟩ := List.mem_map.1 hmem
  have := has_of_mem he
  rw [hk, h] at this
  exact absurd this (by simp)

end JSMap

namespace SparseMatrix

theorem exists_triples (L : JSMap) (hcan : ∀ e ∈ L, canonicalKey e.1 = true) :
    ∃ ts : List (Int × Int × Int),
      L = ts.map (fun t => (keyOf t.1 t.2.1, t.2.2)) ∧
      L.filterMap (fun e => (splitKey e.1).map (fun p => entryLine p.1 p.2 e.2)) =
        ts.map (fun t => entryLine t.1 t.2.1 t.2.2) := by
  induction L with
  | nil => exact ⟨[], rfl, rfl⟩
  | cons e rest ih =>
    obtain ⟨k, v⟩ := e
    obtain ⟨r, c, hk⟩ := (canonicalKey_iff k).1 (hcan (k, v) (by simp))
    obtain ⟨ts, h1, h2⟩ := ih (fun e he => hcan e (List.mem_cons_of_mem _ he))
    refine ⟨(r, c, v) :: ts, ?_, ?_⟩
    · rw [List.map_cons, ← h1, hk]
    · rw [List.map_cons, ← h2, hk]
      simp [List.filterMap_cons, splitKey_keyOf]

theorem toText_no_newline (a : JSNum) : '\n' ∉ a.toText := by
  cases a with
  | nan => decide
  | int n => exact intToDec_not_mem n _ (by decide) (by decide)

theorem saveLines_no_newline (M : SparseMatrix) : ∀ l ∈ saveLines M, '\n' ∉ l := by
  intro l hl
  simp only [saveLines, List.mem_cons] at hl
  rcases hl with h | h | h
  · rw [h]
    simp only [List.mem_append, not_or]
    exact ⟨by decide, toText_no_newline _⟩
  · rw [h]
    simp only [List.mem_append, not_or]
    exact ⟨by decide, toText_no_newline _⟩
  · exact (dataLines_props M l h).2

/-- C18: for a well-formed matrix `M` with entries `t_1 .. t_n` (coordinates and value,
in the order of the `Map`), `saveToFile` writes `n + 2` lines: `rows=<rows>`,
`cols=<cols>`, then the line `(<row>, <col>, <value>)` of each entry in that order, with
one space after each comma; a new coordinate set to a non-zero value adds its line at
the end; no data line has the value `0` when `M` stores no zero. -/
theorem saveToFile_lines (M : SparseMatrix) (hM : M.WF) :
    ∃ ts : List (Int × Int × Int),
      M.data = ts.map (fun t => (keyOf t.1 t.2.1, t.2.2)) ∧
      saveLines M = ("rows=".toList ++ M.rows.toText) :: ("cols=".toList ++ M.cols.toText) ::
        ts.map (fun t => entryLine t.1 t.2.1 t.2.2) ∧
      (saveLines M).length = M.data.length + 2 ∧
      splitOn '\n' (saveToFile M) = saveLines M ∧
      (M.NoZero → ∀ t ∈ ts, t.2.2 ≠ 0) ∧
      (∀ r c v, M.data.has (keyOf r c) = false → v ≠ 0 →
        dataLines (M.setElement r c v) = dataLines M ++ [entryLine r c v]) ∧
      entryLine 3 (-4) 5 = "(3, -4, 5)".toList ∧
      saveToFile scenarioA = "rows=2\ncols=2\n(0, 0, 1)\n(1, 1, 2)".toList := by
  obtain ⟨ts, h1, h2⟩ := exists_triples M.data hM.2
  refine ⟨ts, h1, ?_, ?_, ?_, ?_, ?_, by decide, by decide⟩
  · simp only [saveLines, dataLines, h2]
  · simp only [saveLines, dataLines, h2, List.length_cons, List.length_map]
    rw [h1, List.length_map]
  · unfold saveToFile
    exact splitOn_joinWith _ _ (by simp [saveLines]) (saveLines_no_newline M)
  · intro hnz t ht
    exact hnz (keyOf t.1 t.2.1, t.2.2) (by
      rw [h1]
      exact List.mem_map_of_mem (fun t : Int × Int × Int => (keyOf t.1 t.2.1, t.2.2)) ht)
  · intro r c v hhas hv
    unfold dataLines setElement
    rw [if_neg hv]
    simp only
    rw [JSMap.set_of_not_mem _ _ _ (JSMap.not_mem_keys_of_has hhas), List.filterMap_append]
    simp [List.filterMap_cons, splitKey_keyOf]

theorem saveToFile_lines_witness :
    scenarioA.WF ∧ saveLines scenarioA =
      ["rows=2".toList, "cols=2".toList, "(0, 0, 1)".toList, "(1, 1, 2)".toList] ∧
      ∃ ts : List (Int × Int × Int),
        scenarioA.data = ts.map (fun t => (keyOf t.1 t.2.1, t.2.2)) ∧
        saveLines scenarioA =
          ("rows=".toList ++ scenarioA.rows.toText) ::
            ("cols=".toList ++ scenarioA.cols.toText) ::
            ts.map (fun t => entryLine t.1 t.2.1 t.2.2) ∧
        (saveLines scenarioA).length = scenarioA.data.length + 2 := by
  obtain ⟨ts, h1, h2, h3, _⟩ := saveToFile_lines scenarioA (by decide)
  exact ⟨by decide, by decide, ts, h1, h2, h3⟩

end SparseMatrix

end SparseMatrixJS

namespace SparseMatrixJS

namespace SparseMatrix

theorem foldl_kept_mem {α : Type} (P : SparseMatrix → Prop)
    (step : SparseMatrix → α → SparseMatrix) (L : List α)
    (hstep : ∀ res x, x ∈ L → P res → P (step res x))
    (res : SparseMatrix) (h : P res) : P (L.foldl step res) := by
  induction L generalizing res with
  | nil => exact h
  | cons x rest ih =>
    exact ih (fun res y hy => hstep res y (List.mem_cons_of_mem _ hy)) _
      (hstep res x (by simp) h)

/-- Every entry of the matrix built by the loops of `multiply` lies in a column the
inner loop visits and in the row of an entry of the left operand. -/
theorem mulLoop_entries (A B : SparseMatrix) :
    ∀ e ∈ (A.data.foldl (mulStep B) { empty with rows := A.rows, cols := B.cols }).data,
      ∃ r c : Int, e.1 = keyOf r c ∧ 0 ≤ c ∧ c < (B.cols.loopBound : Int) ∧
        ∃ e' ∈ A.data, ∃ c', splitKey e'.1 = some (r, c') := by
  apply foldl_kept_mem (fun res => ∀ e ∈ res.data,
      ∃ r c : Int, e.1 = keyOf r c ∧ 0 ≤ c ∧ c < (B.cols.loopBound : Int) ∧
        ∃ e' ∈ A.data, ∃ c', splitKey e'.1 = some (r, c')) (mulStep B) A.data
  · intro res e0 he0 hres
    unfold mulStep
    split
    · rename_i rowA colA hsplit
      apply foldl_kept_mem (fun res => ∀ e ∈ res.data,
          ∃ r c : Int, e.1 = keyOf r c ∧ 0 ≤ c ∧ c < (B.cols.loopBound : Int) ∧
            ∃ e' ∈ A.data, ∃ c', splitKey e'.1 = some (r, c'))
        (mulInner B rowA colA e0.2) (List.range B.cols.loopBound)
      · intro res' j hj hres' e he
        unfold mulInner at he
        simp only at he
        split at he
        · rcases mem_setElement he with ⟨he1, _⟩ | he1
          · refine ⟨rowA, (j : Int), by rw [he1], by omega, ?_, e0, he0, colA, hsplit⟩
            have := List.mem_range.1 hj
            omega
          · exact hres' e he1
        · exact hres' e he
      · exact hres
    · exact hres
  · intro e he
    simp [empty] at he

/-- The product reads the right operand only in the columns the inner loop visits. -/
theorem mulLoop_congr (A B B' : SparseMatrix) (hc : B'.cols = B.cols)
    (hget : ∀ (k : Int) (j : Nat), j < B.cols.loopBound →
      B'.getElement k j = B.getElement k j) (res : SparseMatrix) :
    A.data.foldl (mulStep B') res = A.data.foldl (mulStep B) res := by
  apply List.foldl_ext
  intro res' e _
  unfold mulStep
  split
  · rename_i rowA colA _
    rw [hc]
    apply List.foldl_ext
    intro res'' j hj
    unfold mulInner
    rw [hget colA j (List.mem_range.1 hj)]
  · rfl

/-- C19: when `A.cols` and `B.rows` are the same integer and `B.cols` is the integer
`m`, `multiply(A, B)` returns a matrix every entry of which has its column in `[0, m)`
and its row equal to the row of an entry of `A`; so the product is the same for every
right operand that agrees with `B` on the columns in `[0, m)`, whatever it stores in
the columns from `m` on; the rows of the result are not bounded by its `rows`, as the
product of a `1x1` matrix holding an entry in row `5` shows. -/
theorem multiply_entries (A B : SparseMatrix) (n m : Int) (hAc : A.cols = JSNum.int n)
    (hBr : B.rows = JSNum.int n) (hBc : B.cols = JSNum.int m) :
    ∃ P, A.multiply B = Except.ok P ∧
      (∀ e ∈ P.data, ∃ r c : Int, e.1 = keyOf r c ∧ 0 ≤ c ∧ c < m ∧
        ∃ e' ∈ A.data, ∃ c', splitKey e'.1 = some (r, c')) ∧
      (∀ B' : SparseMatrix, B'.rows = B.rows → B'.cols = B.cols →
        (∀ k j : Int, 0 ≤ j → j < m → B'.getElement k j = B.getElement k j) →
        A.multiply B' = Except.ok P) ∧
      multiply ⟨JSNum.int 1, JSNum.int 1, [(keyOf 5 0, 2)]⟩
          ⟨JSNum.int 1, JSNum.int 1, [(keyOf 0 0, 3), (keyOf 0 7, 9)]⟩ =
        Except.ok ⟨JSNum.int 1, JSNum.int 1, [(keyOf 5 0, 6)]⟩ := by
  have hok : A.multiply B = Except.ok
      (A.data.foldl (mulStep B) { empty with rows := A.rows, cols := B.cols }) := by
    simp [multiply, hAc, hBr, JSNum.strictNe]
  have hbound : (B.cols.loopBound : Int) ≤ m ∨ m < 0 := by
    rw [hBc]
    simp only [JSNum.loopBound]
    omega
  refine ⟨_, hok, ?_, ?_, by decide⟩
  · intro e he
    obtain ⟨r, c, h1, h2, h3, h4⟩ := mulLoop_entries A B e he
    refine ⟨r, c, h1, h2, ?_, h4⟩
    rw [hBc] at h3
    simp only [JSNum.loopBound] at h3
    omega
  · intro B' hr hc hget
    have hget' : ∀ (k : Int) (j : Nat), j < B.cols.loopBound →
        B'.getElement k j = B.getElement k j := by
      intro k j hj
      apply hget k j (by omega)
      rw [hBc] at hj
      simp only [JSNum.loopBound] at hj
      omega
    have : A.multiply B' = Except.ok
        (A.data.foldl (mulStep B') { empty with rows := A.rows, cols := B'.cols }) := by
      simp [multiply, hAc, hr, hBr, JSNum.strictNe]
    rw [this, hc, mulLoop_congr A B B' hc hget']

theorem multiply_entries_witness :
    scenarioMulA.cols = JSNum.int 2 ∧ scenarioMulB.rows = JSNum.int 2 ∧
      scenarioMulB.cols = JSNum.int 2 ∧
      ∃ P, scenarioMulA.multiply scenarioMulB = Except.ok P ∧
        (∀ e ∈ P.data, ∃ r c : Int, e.1 = keyOf r c ∧ 0 ≤ c ∧ c < 2 ∧
          ∃ e' ∈ scenarioMulA.data, ∃ c', splitKey e'.1 = some (r, c')) := by
  obtain ⟨P, h1, h2, _⟩ := multiply_entries scenarioMulA scenarioMulB 2 2 rfl rfl rfl
  exact ⟨rfl, rfl, rfl, P, h1, h2⟩

end SparseMatrix

end SparseMatrixJS

namespace SparseMatrixJS

/-! ## The string-keyed store against the pair-keyed store -/

namespace PairMap

theorem has_map (l : PairMap) (r c : Int) :
    JSMap.has (l.map (fun e => (keyOf e.1.1 e.1.2, e.2))) (keyOf r c) = l.has (r, c) := by
  induction l with
  | nil => rfl
  | cons e rest ih =>
    obtain ⟨⟨a, b⟩, v⟩ := e
    by_cases h : a = r ∧ b = c
    · simp [JSMap.has, has, h.1, h.2]
    · have hk : keyOf a b ≠ keyOf r c := fun e => h (keyOf_injective e)
      have hp : (a, b) ≠ (r, c) := fun e => h (by simpa using e)
      simp only [List.map_cons, JSMap.has, has, hk, hp, ↓reduceIte]
      exact ih

theorem get_map (l : PairMap) (r c : Int) :
    JSMap.get (l.map (fun e => (keyOf e.1.1 e.1.2, e.2))) (keyOf r c) = l.get (r, c) := by
  induction l with
  | nil => rfl
  | cons e rest ih =>
    obtain ⟨⟨a, b⟩, v⟩ := e
    by_cases h : a = r ∧ b = c
    · simp [JSMap.get, get, h.1, h.2]
    · have hk : keyOf a b ≠ keyOf r c := fun e => h (keyOf_injective e)
      have hp : (a, b) ≠ (r, c) := fun e => h (by simpa using e)
      simp only [List.map_cons, JSMap.get, get, hk, hp, ↓reduceIte]
      exact ih

theorem set_map (l : PairMap) (r c v : Int) :
    JSMap.set (l.map (fun e => (keyOf e.1.1 e.1.2, e.2))) (keyOf r c) v =
      (l.set (r, c) v).map (fun e => (keyOf e.1.1 e.1.2, e.2)) := by
  induction l with
  | nil => rfl
  | cons e rest ih =>
    obtain ⟨⟨a, b⟩, w⟩ := e
    by_cases h : a = r ∧ b = c
    · simp [JSMap.set, set, h.1, h.2]
    · have hk : keyOf a b ≠ keyOf r c := fun e => h (keyOf_injective e)
      have hp : (a, b) ≠ (r, c) := fun e => h (by simpa using e)
      simp only [List.map_cons, JSMap.set, set, hk, hp, ↓reduceIte]
      rw [ih]

theorem delete_map (l : PairMap) (r c : Int) :
    JSMap.delete (l.map (fun e => (keyOf e.1.1 e.1.2, e.2))) (keyOf r c) =
      (l.delete (r, c)).map (fun e => (keyOf e.1.1 e.1.2, e.2)) := by
  induction l with
  | nil => rfl
  | cons e rest ih =>
    obtain ⟨⟨a, b⟩, w⟩ := e
    by_cases h : a = r ∧ b = c
    · simp [JSMap.delete, delete, h.1, h.2, ih]
    · have hk : keyOf a b ≠ keyOf r c := fun e => h (keyOf_injective e)
      have hp : (a, b) ≠ (r, c) := fun e => h (by simpa using e)
      simp only [List.map_cons, JSMap.delete, delete, hk, hp, ↓reduceIte]
      rw [ih]

end PairMap

namespace PairMatrix

open SparseMatrix

theorem toStringKeyed_getElement (M : PairMatrix) (r c : Int) :
    M.toStringKeyed.getElement r c = M.getElement r c := by
  rw [getElement_eq]
  simp only [toStringKeyed, getElement, PairMap.get_map]

theorem toStringKeyed_setElement (M : PairMatrix) (r c v : Int) :
    M.toStringKeyed.setElement r c v = (M.setElement r c v).toStringKeyed := by
  unfold SparseMatrix.setElement setElement
  by_cases hv : v = 0
  · simp only [hv, ↓reduceIte, toStringKeyed, PairMap.delete_map]
  · simp only [hv, ↓reduceIte, toStringKeyed, PairMap.set_map]

theorem foldl_toStringKeyed {α : Type} (L : List α)
    (stepS : SparseMatrix → α → SparseMatrix) (stepP : PairMatrix → α → PairMatrix)
    (h : ∀ res x, stepS res.toStringKeyed x = (stepP res x).toStringKeyed)
    (res : PairMatrix) :
    L.foldl stepS res.toStringKeyed = (L.foldl stepP res).toStringKeyed := by
  induction L generalizing res with
  | nil => rfl
  | cons x rest ih => rw [List.foldl_cons, List.foldl_cons, h, ih]

theorem toStringKeyed_has (M : PairMatrix) (e : (Int × Int) × Int) :
    M.toStringKeyed.data.has (keyOf e.1.1 e.1.2) = M.data.has e.1 := by
  simp only [toStringKeyed]
  exact PairMap.has_map M.data e.1.1 e.1.2

theorem toStringKeyed_add (M N : PairMatrix) :
    M.toStringKeyed.add N.toStringKeyed = (M.add N).toStringKeyed := by
  unfold SparseMatrix.add add
  simp only
  have h0 : ({ SparseMatrix.empty with
      rows := JSNum.max M.toStringKeyed.rows N.toStringKeyed.rows,
      cols := JSNum.max M.toStringKeyed.cols N.toStringKeyed.cols } : SparseMatrix) =
      (⟨JSNum.max M.rows N.rows, JSNum.max M.cols N.cols, []⟩ : PairMatrix).toStringKeyed := rfl
  rw [h0]
  have hM : M.toStringKeyed.data = M.data.map (fun e => (keyOf e.1.1 e.1.2, e.2)) := rfl
  have hN : N.toStringKeyed.data = N.data.map (fun e => (keyOf e.1.1 e.1.2, e.2)) := rfl
  rw [hM, hN, List.foldl_map, List.foldl_map]
  rw [foldl_toStringKeyed M.data _
    (fun res e => res.setElement e.1.1 e.1.2 (e.2 + N.getElement e.1.1 e.1.2))]
  · rw [foldl_toStringKeyed N.data _
      (fun res e => if !M.data.has e.1 then res.setElement e.1.1 e.1.2 e.2 else res)]
    intro res e
    simp only [addRightStep, splitKey_keyOf, ← hM, toStringKeyed_has]
    split
    · exact toStringKeyed_setElement _ _ _ _
    · rfl
  · intro res e
    simp only [addLeftStep, splitKey_keyOf, toStringKeyed_getElement]
    exact toStringKeyed_setElement _ _ _ _

theorem toStringKeyed_subtract (M N : PairMatrix) :
    M.toStringKeyed.subtract N.toStringKeyed = (M.subtract N).toStringKeyed := by
  unfold SparseMatrix.subtract subtract
  simp only
  have h0 : ({ SparseMatrix.empty with
      rows := JSNum.max M.toStringKeyed.rows N.toStringKeyed.rows,
      cols := JSNum.max M.toStringKeyed.cols N.toStringKeyed.cols } : SparseMatrix) =
      (⟨JSNum.max M.rows N.rows, JSNum.max M.cols N.cols, []⟩ : PairMatrix).toStringKeyed := rfl
  rw [h0]
  have hM : M.toStringKeyed.data = M.data.map (fun e => (keyOf e.1.1 e.1.2, e.2)) := rfl
  have hN : N.toStringKeyed.data = N.data.map (fun e => (keyOf e.1.1 e.1.2, e.2)) := rfl
  rw [hM, hN, List.foldl_map, List.foldl_map]
  rw [foldl_toStringKeyed M.data _
    (fun res e => res.setElement e.1.1 e.1.2 (e.2 - N.getElement e.1.1 e.1.2))]
  · rw [foldl_toStringKeyed N.data _
      (fun res e => if !M.data.has e.1 then res.setElement e.1.1 e.1.2 (-e.2) else res)]
    intro res e
    simp only [subRightStep, splitKey_keyOf, ← hM, toStringKeyed_has]
    split
    · exact toStringKeyed_setElement _ _ _ _
    · rfl
  · intro res e
    simp only [subLeftStep, splitKey_keyOf, toStringKeyed_getElement]
    exact toStringKeyed_setElement _ _ _ _

theorem toStringKeyed_multiply (M N : PairMatrix) :
    M.toStringKeyed.multiply N.toStringKeyed = (M.multiply N).map toStringKeyed := by
  unfold SparseMatrix.multiply multiply
  have hc : M.toStringKeyed.cols = M.cols := rfl
  have hr : N.toStringKeyed.rows = N.rows := rfl
  rw [hc, hr]
  by_cases hd : JSNum.strictNe M.cols N.rows = true
  · simp [hd, Except.map]
  · simp only [hd, Bool.false_eq_true, ↓reduceIte, Except.map, Except.ok.injEq]
    have h0 : ({ SparseMatrix.empty with
        rows := M.toStringKeyed.rows, cols := N.toStringKeyed.cols } : SparseMatrix) =
        (⟨M.rows, N.cols, []⟩ : PairMatrix).toStringKeyed := rfl
    have hM : M.toStringKeyed.data = M.data.map (fun e => (keyOf e.1.1 e.1.2, e.2)) := rfl
    rw [h0, hM, List.foldl_map]
    apply foldl_toStringKeyed
    intro res e
    simp only [mulStep, splitKey_keyOf]
    have hcols : N.toStringKeyed.cols = N.cols := rfl
    rw [hcols]
    apply foldl_toStringKeyed
    intro res' colB
    simp only [mulInner, toStringKeyed_getElement]
    split
    · exact toStringKeyed_setElement _ _ _ _
    · rfl

theorem toStringKeyed_saveToFile (M : PairMatrix) :
    M.toStringKeyed.saveToFile = M.saveToFile := by
  unfold SparseMatrix.saveToFile saveToFile saveLines dataLines
  have : List.filterMap
      (fun e : Key × Int => (splitKey e.1).map (fun p => entryLine p.1 p.2 e.2))
      M.toStringKeyed.data = M.data.map (fun e => entryLine e.1.1 e.1.2 e.2) := by
    simp only [toStringKeyed, List.filterMap_map]
    rw [← List.filterMap_eq_map]
    congr 1
    funext e
    simp [splitKey_keyOf]
  rw [this]
  rfl

theorem exists_pairMatrix (S : SparseMatrix) (hS : S.WF) :
    ∃ P : PairMatrix, P.toStringKeyed = S ∧ (P.data.map Prod.fst).Nodup := by
  obtain ⟨rows, cols, data⟩ := S
  have hex : ∀ L : JSMap, (∀ e ∈ L, canonicalKey e.1 = true) →
      ∃ l : PairMap, l.map (fun e => (keyOf e.1.1 e.1.2, e.2)) = L := by
    intro L
    induction L with
    | nil => exact fun _ => ⟨[], rfl⟩
    | cons e rest ih =>
      intro hcan
      obtain ⟨k, v⟩ := e
      obtain ⟨r, c, hk⟩ := (canonicalKey_iff k).1 (hcan (k, v) (by simp))
      obtain ⟨l, hl⟩ := ih (fun e he => hcan e (List.mem_cons_of_mem _ he))
      exact ⟨((r, c), v) :: l, by rw [List.map_cons, hl, hk]⟩
  obtain ⟨l, hl⟩ := hex data hS.2
  refine ⟨⟨rows, cols, l⟩, by simp [toStringKeyed, hl], ?_⟩
  have hnd := hS.1
  simp only at hnd
  rw [← hl, List.map_map] at hnd
  have hcomp : (Prod.fst ∘ fun e : (Int × Int) × Int => (keyOf e.1.1 e.1.2, e.2)) =
      (fun p : Int × Int => keyOf p.1 p.2) ∘ Prod.fst := rfl
  rw [hcomp, ← List.map_map] at hnd
  exact List.Nodup.of_map _ hnd

end PairMatrix

namespace SparseMatrix

/-- C20: the key `${r},${c}` encodes the pair of integers faithfully: equal keys have
equal coordinates, and splitting a key and converting its parts gives the coordinates
back; so the string-keyed store of the code does what the pair-keyed store of the
specification does: `getElement`, `setElement`, `add`, `subtract`, `multiply` and
`saveToFile` commute with the translation of a pair-keyed state into a string-keyed
one, and every well-formed state of the code is the translation of a pair-keyed
state with pairwise distinct keys. -/
theorem string_key_faithful (r c r' c' v : Int) (M N : PairMatrix) :
    (keyOf r c = keyOf r' c' → r = r' ∧ c = c') ∧
      splitKey (keyOf r c) = some (r, c) ∧
      M.toStringKeyed.getElement r c = M.getElement r c ∧
      M.toStringKeyed.setElement r c v = (M.setElement r c v).toStringKeyed ∧
      M.toStringKeyed.add N.toStringKeyed = (M.add N).toStringKeyed ∧
      M.toStringKeyed.subtract N.toStringKeyed = (M.subtract N).toStringKeyed ∧
      M.toStringKeyed.multiply N.toStringKeyed =
        (M.multiply N).map PairMatrix.toStringKeyed ∧
      M.toStringKeyed.saveToFile = M.saveToFile ∧
      (∀ S : SparseMatrix, S.WF →
        ∃ P : PairMatrix, P.toStringKeyed = S ∧ (P.data.map Prod.fst).Nodup) :=
  ⟨keyOf_injective, splitKey_keyOf r c, PairMatrix.toStringKeyed_getElement M r c,
    PairMatrix.toStringKeyed_setElement M r c v, PairMatrix.toStringKeyed_add M N,
    PairMatrix.toStringKeyed_subtract M N, PairMatrix.toStringKeyed_multiply M N,
    PairMatrix.toStringKeyed_saveToFile M, PairMatrix.exists_pairMatrix⟩

end SparseMatrix

end SparseMatrixJS

namespace SparseMatrixJS

/-! ## The methods over the heap: operands are left as they were -/

namespace Heap

theorem read_append_of_lt (h : Heap) (X : SparseMatrix) {p : Ref} (hp : p < h.length) :
    read (h ++ [X]) p = read h p := by
  unfold read
  rw [List.getD_eq_getElem?_getD, List.getD_eq_getElem?_getD, List.getElem?_append_left hp]

theorem read_append_length (h : Heap) (X : SparseMatrix) :
    read (h ++ [X]) h.length = X := by
  unfold read
  rw [List.getD_eq_getElem?_getD, List.getElem?_append_right (le_refl _)]
  simp

theorem write_append_length (h : Heap) (X Y : SparseMatrix) :
    write (h ++ [X]) h.length Y = h ++ [Y] := by
  unfold write
  induction h with
  | nil => rfl
  | cons a rest ih =>
    simp only [List.cons_append, List.length_cons, List.set_cons_succ]
    rw [ih]

theorem setElement_append_length (h : Heap) (X : SparseMatrix) (r c v : Int) :
    setElement (h ++ [X]) h.length r c v = h ++ [X.setElement r c v] := by
  unfold setElement
  rw [read_append_length, write_append_length]

/-- A loop whose rounds only write to the last object of the heap leaves the other
objects as they were, and makes of the last object what the rounds make of it. -/
theorem foldl_last {α : Type} (h : Heap) (stepH : Heap → α → Heap)
    (stepP : SparseMatrix → α → SparseMatrix)
    (hstep : ∀ X x, stepH (h ++ [X]) x = h ++ [stepP X x]) (L : List α) (X : SparseMatrix) :
    L.foldl stepH (h ++ [X]) = h ++ [L.foldl stepP X] := by
  induction L generalizing X with
  | nil => rfl
  | cons x rest ih => rw [List.foldl_cons, List.foldl_cons, hstep, ih]

theorem add_eq (h : Heap) (a b : Ref) (ha : a < h.length) (hb : b < h.length) :
    add h a b = (h ++ [(read h a).add (read h b)], h.length) := by
  unfold add alloc
  simp only
  rw [read_append_length, write_append_length, read_append_length, write_append_length,
    read_append_of_lt _ _ ha]
  rw [foldl_last h _ (SparseMatrix.addLeftStep (read h b))]
  · rw [read_append_of_lt _ _ hb, foldl_last h _ (SparseMatrix.addRightStep (read h a))]
    · rfl
    · intro X e
      unfold SparseMatrix.addRightStep
      cases splitKey e.1 with
      | none => rfl
      | some p =>
        simp only [read_append_of_lt _ _ ha]
        split
        · exact setElement_append_length _ _ _ _ _
        · rfl
  · intro X e
    unfold SparseMatrix.addLeftStep
    cases splitKey e.1 with
    | none => rfl
    | some p =>
      simp only [getElement, read_append_of_lt _ _ hb]
      exact setElement_append_length _ _ _ _ _

theorem subtract_eq (h : Heap) (a b : Ref) (ha : a < h.length) (hb : b < h.length) :
    subtract h a b = (h ++ [(read h a).subtract (read h b)], h.length) := by
  unfold subtract alloc
  simp only
  rw [read_append_length, write_append_length, read_append_length, write_append_length,
    read_append_of_lt _ _ ha]
  rw [foldl_last h _ (SparseMatrix.subLeftStep (read h b))]
  · rw [read_append_of_lt _ _ hb, foldl_last h _ (SparseMatrix.subRightStep (read h a))]
    · rfl
    · intro X e
      unfold SparseMatrix.subRightStep
      cases splitKey e.1 with
      | none => rfl
      | some p =>
        simp only [read_append_of_lt _ _ ha]
        split
        · exact setElement_append_length _ _ _ _ _
        · rfl
  · intro X e
    unfold SparseMatrix.subLeftStep
    cases splitKey e.1 with
    | none => rfl
    | some p =>
      simp only [getElement, read_append_of_lt _ _ hb]
      exact setElement_append_length _ _ _ _ _

theorem multiply_eq (h : Heap) (a b : Ref) (ha : a < h.length) (hb : b < h.length) :
    multiply h a b =
      match (read h a).multiply (read h b) with
      | Except.error e => (h, Except.error e)
      | Except.ok P => (h ++ [P], Except.ok h.length) := by
  unfold multiply SparseMatrix.multiply
  by_cases hd : JSNum.strictNe (read h a).cols (read h b).rows = true
  · simp [hd]
  · simp only [hd, Bool.false_eq_true, ↓reduceIte, alloc]
    rw [read_append_length, read_append_of_lt _ _ ha, write_append_length, read_append_length,
      read_append_of_lt _ _ hb, write_append_length, read_append_of_lt _ _ ha]
    rw [foldl_last h _ (SparseMatrix.mulStep (read h b))]
    intro X e
    unfold SparseMatrix.mulStep
    cases splitKey e.1 with
    | none => rfl
    | some p =>
      simp only [read_append_of_lt _ _ hb]
      apply foldl_last
      intro Y colB
      unfold SparseMatrix.mulInner
      simp only [getElement, read_append_of_lt _ _ hb, read_append_length]
      split
      · exact setElement_append_length _ _ _ _ _
      · rfl

/-- C12: for references `a` and `b` to objects of the heap, equal or not, `add`,
`subtract` and `multiply` leave every object of the heap as it was: the heap after the
call is the heap before it followed by one new object, the result, whose state is what
the method computes from the states of `a` and `b`; when `multiply` throws, the heap is
the heap before the call.  So `rows`, `cols` and the entries of the operands are what
they were, and a later `setElement` on the result changes no earlier object. -/
theorem operands_not_mutated (h : Heap) (a b : Ref) (ha : a < h.length) (hb : b < h.length) :
    add h a b = (h ++ [(read h a).add (read h b)], h.length) ∧
      subtract h a b = (h ++ [(read h a).subtract (read h b)], h.length) ∧
      multiply h a b =
        (match (read h a).multiply (read h b) with
          | Except.error e => (h, Except.error e)
          | Except.ok P => (h ++ [P], Except.ok h.length)) ∧
      (∀ p, p < h.length →
        read (add h a b).1 p = read h p ∧ read (subtract h a b).1 p = read h p ∧
          read (multiply h a b).1 p = read h p) ∧
      (∀ p r c v, p < h.length →
        read (setElement (add h a b).1 (add h a b).2 r c v) p = read h p ∧
          read (setElement (subtract h a b).1 (subtract h a b).2 r c v) p = read h p ∧
          ∀ res, (multiply h a b).2 = Except.ok res →
            read (setElement (multiply h a b).1 res r c v) p = read h p) := by
  refine ⟨add_eq h a b ha hb, subtract_eq h a b ha hb, multiply_eq h a b ha hb, ?_, ?_⟩
  · intro p hp
    rw [add_eq h a b ha hb, subtract_eq h a b ha hb, multiply_eq h a b ha hb]
    refine ⟨read_append_of_lt _ _ hp, read_append_of_lt _ _ hp, ?_⟩
    cases (read h a).multiply (read h b) with
    | error e => rfl
    | ok P => exact read_append_of_lt _ _ hp
  · intro p r c v hp
    rw [add_eq h a b ha hb, subtract_eq h a b ha hb, multiply_eq h a b ha hb]
    refine ⟨?_, ?_, ?_⟩
    · simp only
      rw [setElement_append_length, read_append_of_lt _ _ hp]
    · simp only
      rw [setElement_append_length, read_append_of_lt _ _ hp]
    · intro res hres
      cases hm : (read h a).multiply (read h b) with
      | error e =>
        rw [hm] at hres
        exact absurd hres (by simp)
      | ok P =>
        rw [hm] at hres
        simp only [Except.ok.injEq] at hres
        subst hres
        simp only
        rw [setElement_append_length, read_append_of_lt _ _ hp]

theorem operands_not_mutated_witness :
    (0 : Nat) < [SparseMatrix.scenarioA].length ∧
      add [SparseMatrix.scenarioA] 0 0 =
        ([SparseMatrix.scenarioA, SparseMatrix.scenarioA.add SparseMatrix.scenarioA], 1) ∧
      read (setElement (add [SparseMatrix.scenarioA] 0 0).1 (add [SparseMatrix.scenarioA] 0 0).2
        0 0 9) 0 = SparseMatrix.scenarioA := by
  have hw := operands_not_mutated [SparseMatrix.scenarioA] 0 0 (by decide) (by decide)
  exact ⟨by decide, hw.1, (hw.2.2.2.2 0 0 0 9 (by decide)).1⟩

end Heap

end SparseMatrixJS

namespace SparseMatrixJS

/-! ## The numbers of JavaScript: exact in the safe range -/

theorem roundNat_of_le {a : Nat} (h : a ≤ 9007199254740992) : roundNat a = a := by
  unfold roundNat
  split
  · rfl
  · have : a = 9007199254740992 := by omega
    subst this
    decide

theorem toDouble_of_safe {x : Int} (h : Safe x) : toDouble x = x := by
  unfold Safe at h
  unfold toDouble
  split
  · rw [roundNat_of_le h]
    omega
  · rw [roundNat_of_le (by omega)]
    omega

theorem safe_iff_abs (x : Int) : Safe x ↔ |x| ≤ 9007199254740992 := by
  unfold Safe
  rw [Int.abs_eq_natAbs]
  omega

theorem numberText_of_safe {x : Int} (h : Safe x) : numberText x = intToDec x := by
  unfold Safe at h
  have hn : ∀ n : Nat, n ≤ 9007199254740992 → natToText n = natToDec n := by
    intro n hn
    unfold natToText
    rw [if_pos hn]
  unfold numberText intToDec
  split
  · rw [hn _ h]
  · rw [hn _ (by omega)]

/-! ## Sum and difference on doubles -/

namespace Dbl

open SparseMatrix

/-- Value at `(r, c)` of the result of `add` on doubles: the rounded sum where the left
operand has an entry, the value of the right operand elsewhere. -/
theorem add_getElement_dbl (A B : SparseMatrix) (hA : A.WF) (hB : B.WF) (r c : Int) :
    (add A B).getElement r c =
      if A.data.has (keyOf r c) then jsAdd (A.getElement r c) (B.getElement r c)
      else B.getElement r c := by
  unfold add
  simp only
  rw [foldl_right_getElement (fun v => v) A (addRightStep A) (fun res e => rfl) B.data hB.1 hB.2,
    foldl_left_getElement jsAdd B (addLeftStep B) (fun res e => rfl) A.data hA.1 hA.2,
    empty_getElement, getElement_eq A, getElement_eq B, JSMap.has_eq_isSome]
  cases hAg : A.data.get (keyOf r c) <;> cases hBg : B.data.get (keyOf r c) <;>
    simp [hBg, getElement_eq]

theorem subtract_getElement_dbl (A B : SparseMatrix) (hA : A.WF) (hB : B.WF) (r c : Int) :
    (subtract A B).getElement r c =
      if A.data.has (keyOf r c) then jsSub (A.getElement r c) (B.getElement r c)
      else -B.getElement r c := by
  unfold subtract
  simp only
  rw [foldl_right_getElement (fun v => -v) A (subRightStep A) (fun res e => rfl) B.data
      hB.1 hB.2,
    foldl_left_getElement jsSub B (subLeftStep B) (fun res e => rfl) A.data hA.1 hA.2,
    empty_getElement, getElement_eq A, getElement_eq B, JSMap.has_eq_isSome]
  cases hAg : A.data.get (keyOf r c) <;> cases hBg : B.data.get (keyOf r c) <;>
    simp [hBg, getElement_eq]

theorem getElement_of_not_has (A : SparseMatrix) (r c : Int)
    (h : ¬ A.data.has (keyOf r c) = true) : A.getElement r c = 0 := by
  simp [getElement, h]

/-- C1 as the code has it: for well-formed matrices `A` and `B` of any dimensions and
every coordinate `(r, c)` at which the sum of `getElement` of `A` and of `B` is at most
`2^53` in absolute value, `getElement` of `add(A, B)` is that sum; on the addition
scenario the entries of the result are `(0,0):4`, `(1,1):2`, `(0,1):4` (listed in
insertion order). -/
theorem add_safe_getElement (A B : SparseMatrix) (hA : A.WF) (hB : B.WF) (r c : Int)
    (hs : Safe (A.getElement r c + B.getElement r c)) :
    (add A B).getElement r c = A.getElement r c + B.getElement r c ∧
      (add scenarioA scenarioB).data = [(keyOf 0 0, 4), (keyOf 1 1, 2), (keyOf 0 1, 4)] := by
  refine ⟨?_, by decide⟩
  rw [add_getElement_dbl A B hA hB]
  split
  · exact toDouble_of_safe hs
  · rename_i h
    rw [getElement_of_not_has A r c h, Int.zero_add]

theorem add_safe_getElement_witness :
    scenarioA.WF ∧ scenarioB.WF ∧
      Safe (scenarioA.getElement 0 0 + scenarioB.getElement 0 0) ∧
      (add scenarioA scenarioB).getElement 0 0 =
        scenarioA.getElement 0 0 + scenarioB.getElement 0 0 :=
  ⟨by decide, by decide, by decide,
    (add_safe_getElement scenarioA scenarioB (by decide) (by decide) 0 0 (by decide)).1⟩

/-- C1 as stated fails: the matrices holding `2^53` and `1` at `(0, 0)` are loaded from
text, and `add` reads `9007199254740992` at `(0, 0)`, where the sum of the two values is
`9007199254740993`. -/
theorem add_rounds_counterexample :
    fromText "rows=1\ncols=1\n(0, 0, 9007199254740992)".toList = Except.ok bigA ∧
      fromText "rows=1\ncols=1\n(0, 0, 1)".toList = Except.ok oneB ∧
      (add bigA oneB).getElement 0 0 = 9007199254740992 ∧
      bigA.getElement 0 0 + oneB.getElement 0 0 = 9007199254740993 ∧
      (add bigA oneB).getElement 0 0 ≠ bigA.getElement 0 0 + oneB.getElement 0 0 := by
  decide

/-- C2 as the code has it: for well-formed matrices `A` and `B` and every coordinate
`(r, c)` at which `getElement` of `A` minus `getElement` of `B` is at most `2^53` in
absolute value, `getElement` of `subtract(A, B)` is that difference, so a coordinate
stored only in `B` holds the negated value; on the scenario the entries of the result
are `(0,0):-2`, `(1,1):2`, `(0,1):-4` (listed in insertion order). -/
theorem subtract_safe_getElement (A B : SparseMatrix) (hA : A.WF) (hB : B.WF) (r c : Int)
    (hs : Safe (A.getElement r c - B.getElement r c)) :
    (subtract A B).getElement r c = A.getElement r c - B.getElement r c ∧
      (subtract scenarioA scenarioB).data =
        [(keyOf 0 0, -2), (keyOf 1 1, 2), (keyOf 0 1, -4)] := by
  refine ⟨?_, by decide⟩
  rw [subtract_getElement_dbl A B hA hB]
  split
  · exact toDouble_of_safe hs
  · rename_i h
    rw [getElement_of_not_has A r c h, Int.zero_sub]

theorem subtract_safe_getElement_witness :
    scenarioA.WF ∧ scenarioB.WF ∧
      Safe (scenarioA.getElement 0 1 - scenarioB.getElement 0 1) ∧
      (subtract scenarioA scenarioB).getElement 0 1 =
        scenarioA.getElement 0 1 - scenarioB.getElement 0 1 :=
  ⟨by decide, by decide, by decide,
    (subtract_safe_getElement scenarioA scenarioB (by decide) (by decide) 0 1 (by decide)).1⟩

/-- C2 as stated fails: the matrices holding `2^53` and `-1` at `(0, 0)` are loaded from
text, and `subtract` reads `9007199254740992` at `(0, 0)`, where the difference of the
two values is `9007199254740993`. -/
theorem subtract_rounds_counterexample :
    fromText "rows=1\ncols=1\n(0, 0, 9007199254740992)".toList = Except.ok bigA ∧
      fromText "rows=1\ncols=1\n(0, 0, -1)".toList = Except.ok minusOneB ∧
      (subtract bigA minusOneB).getElement 0 0 = 9007199254740992 ∧
      bigA.getElement 0 0 - minusOneB.getElement 0 0 = 9007199254740993 ∧
      (subtract bigA minusOneB).getElement 0 0 ≠
        bigA.getElement 0 0 - minusOneB.getElement 0 0 := by
  decide

end Dbl

end SparseMatrixJS

namespace SparseMatrixJS

/-! ## The product on doubles -/

namespace Dbl

open SparseMatrix

theorem mulInner_getElement_dbl (B : SparseMatrix) (rowA colA a : Int) (res : SparseMatrix)
    (j : Nat) (r c : Int) :
    (mulInner B rowA colA a res j).getElement r c =
      if r = rowA ∧ c = j ∧ B.getElement colA j ≠ 0 then
        jsAdd (res.getElement r c) (jsMul a (B.getElement colA j))
      else res.getElement r c := by
  unfold mulInner
  simp only
  by_cases hv : B.getElement colA j = 0
  · simp [hv]
  · simp only [ne_eq, hv, not_false_eq_true, ↓reduceIte, and_true]
    rw [getElement_setElement]
    split
    · rename_i h
      rw [h.1, h.2]
    · rfl

theorem inner_getElement_dbl (B : SparseMatrix) (rowA colA a : Int) (res : SparseMatrix)
    (n : Nat) (r c : Int) :
    ((List.range n).foldl (mulInner B rowA colA a) res).getElement r c =
      if r = rowA ∧ 0 ≤ c ∧ c < n ∧ B.getElement colA c ≠ 0 then
        jsAdd (res.getElement r c) (jsMul a (B.getElement colA c))
      else res.getElement r c := by
  induction n with
  | zero =>
    have : ¬ (r = rowA ∧ 0 ≤ c ∧ c < ((0 : Nat) : Int) ∧ B.getElement colA c ≠ 0) := by omega
    rw [if_neg this]
    rfl
  | succ n ih =>
    rw [List.range_succ, List.foldl_append, List.foldl_cons, List.foldl_nil,
      mulInner_getElement_dbl, ih]
    by_cases h1 : r = rowA ∧ c = (n : Int) ∧ B.getElement colA (n : Int) ≠ 0
    · obtain ⟨hr, hc, hb⟩ := h1
      have h2 : ¬ (r = rowA ∧ 0 ≤ c ∧ c < (n : Int) ∧ B.getElement colA c ≠ 0) := by omega
      have h3 : r = rowA ∧ 0 ≤ c ∧ c < ((n + 1 : Nat) : Int) ∧ B.getElement colA c ≠ 0 := by
        refine ⟨hr, by omega, by omega, ?_⟩
        rw [hc]; exact hb
      rw [if_pos ⟨hr, hc, hb⟩, if_neg h2, if_pos h3, hc]
    · rw [if_neg h1]
      by_cases h2 : r = rowA ∧ 0 ≤ c ∧ c < (n : Int) ∧ B.getElement colA c ≠ 0
      · have h3 : r = rowA ∧ 0 ≤ c ∧ c < ((n + 1 : Nat) : Int) ∧
            B.getElement colA c ≠ 0 := ⟨h2.1, h2.2.1, by omega, h2.2.2.2⟩
        rw [if_pos h2, if_pos h3]
      · have h3 : ¬ (r = rowA ∧ 0 ≤ c ∧ c < ((n + 1 : Nat) : Int) ∧
            B.getElement colA c ≠ 0) := by
          rintro ⟨hr, h0, hlt, hb⟩
          by_cases hcn : c = (n : Int)
          · exact h1 ⟨hr, hcn, by rw [← hcn]; exact hb⟩
          · exact h2 ⟨hr, h0, by omega, hb⟩
        rw [if_neg h2, if_neg h3]

theorem mulStep_getElement_dbl (B : SparseMatrix) (res : SparseMatrix) (r0 c0 a : Int)
    (r c : Int) :
    (mulStep B res (keyOf r0 c0, a)).getElement r c =
      if r = r0 ∧ 0 ≤ c ∧ c < (B.cols.loopBound : Int) ∧ B.getElement c0 c ≠ 0 then
        jsAdd (res.getElement r c) (jsMul a (B.getElement c0 c))
      else res.getElement r c := by
  unfold mulStep
  simp only [splitKey_keyOf]
  exact inner_getElement_dbl B r0 c0 a res _ r c

theorem sum_abs_nonneg (L : List Int) : 0 ≤ (L.map (fun x => |x|)).sum := by
  induction L with
  | nil => simp
  | cons x rest ih =>
    simp only [List.map_cons, List.sum_cons]
    have := abs_nonneg x
    omega

theorem contrib_keyOf (B : SparseMatrix) (r c r0 c0 a : Int) :
    contrib B r c (keyOf r0 c0, a) = if r0 = r then a * B.getElement c0 c else 0 := by
  simp [contrib, splitKey_keyOf]

/-- Value of a cell of the product on doubles, when the absolute values of the
contributions to the cell add up to at most `2^53`: every partial sum is exact. -/
theorem outer_getElement_dbl (B : SparseMatrix) (L : JSMap)
    (hcan : ∀ e ∈ L, canonicalKey e.1 = true) (res : SparseMatrix) (r c : Int)
    (hc : 0 ≤ c ∧ c < (B.cols.loopBound : Int))
    (hsafe : |res.getElement r c| + ((L.map (contrib B r c)).map (fun x => |x|)).sum ≤
      9007199254740992) :
    (L.foldl (mulStep B) res).getElement r c =
      res.getElement r c + (L.map (contrib B r c)).sum := by
  induction L generalizing res with
  | nil => simp
  | cons e rest ih =>
    obtain ⟨k, a⟩ := e
    obtain ⟨r0, c0, hk⟩ := (canonicalKey_iff k).1 (hcan (k, a) (by simp))
    subst hk
    simp only [List.map_cons, List.sum_cons] at hsafe
    have hrest := sum_abs_nonneg (rest.map (contrib B r c))
    have hcur := abs_nonneg (res.getElement r c)
    have hstep : (mulStep B res (keyOf r0 c0, a)).getElement r c =
        res.getElement r c + contrib B r c (keyOf r0 c0, a) := by
      rw [mulStep_getElement_dbl, contrib_keyOf]
      by_cases hr : r0 = r
      · by_cases hb : B.getElement c0 c = 0
        · have : ¬ (r = r0 ∧ 0 ≤ c ∧ c < (B.cols.loopBound : Int) ∧
              B.getElement c0 c ≠ 0) := fun h => h.2.2.2 hb
          rw [if_neg this, if_pos hr, hb]
          simp
        · rw [if_pos ⟨hr.symm, hc.1, hc.2, hb⟩, if_pos hr]
          rw [contrib_keyOf, if_pos hr] at hsafe
          have hv : Safe (a * B.getElement c0 c) := by
            rw [safe_iff_abs]; omega
          have hsum : Safe (res.getElement r c + a * B.getElement c0 c) := by
            rw [safe_iff_abs]
            have := abs_add (res.getElement r c) (a * B.getElement c0 c)
            omega
          unfold jsAdd jsMul
          rw [toDouble_of_safe hv, toDouble_of_safe hsum]
      · have : ¬ (r = r0 ∧ 0 ≤ c ∧ c < (B.cols.loopBound : Int) ∧
            B.getElement c0 c ≠ 0) := fun h => hr h.1.symm
        rw [if_neg this, if_neg hr]
        simp
    rw [List.foldl_cons, ih (fun e he => hcan e (List.mem_cons_of_mem _ he)), hstep,
      List.map_cons, List.sum_cons]
    · ring
    · rw [hstep]
      have := abs_add (res.getElement r c) (contrib B r c (keyOf r0 c0, a))
      omega

/-- The absolute values of the contributions of the entries of a well-formed map whose
columns lie in `[0, m)` add up to the sum over `k < m` of the absolute values of the
products. -/
theorem sum_abs_contrib_eq (B : SparseMatrix) (m : Nat) (L : JSMap)
    (hnd : (L.map Prod.fst).Nodup) (hcan : ∀ e ∈ L, canonicalKey e.1 = true)
    (hcol : ∀ e ∈ L, ∀ r c, splitKey e.1 = some (r, c) → 0 ≤ c ∧ c < (m : Int))
    (r c : Int) :
    ((L.map (contrib B r c)).map (fun x => |x|)).sum =
      ((List.range m).map
        (fun k : Nat => |(L.get (keyOf r k)).getD 0 * B.getElement k c|)).sum := by
  induction L with
  | nil => simp [JSMap.get]
  | cons e rest ih =>
    obtain ⟨k0, a⟩ := e
    simp only [List.map_cons, List.nodup_cons] at hnd
    obtain ⟨r0, c0, hk⟩ := (canonicalKey_iff k0).1 (hcan (k0, a) (by simp))
    subst hk
    have hc0 := hcol (keyOf r0 c0, a) (by simp) r0 c0 (splitKey_keyOf r0 c0)
    rw [List.map_cons, List.map_cons, List.sum_cons,
      ih hnd.2 (fun e he => hcan e (List.mem_cons_of_mem _ he))
        (fun e he => hcol e (List.mem_cons_of_mem _ he)), contrib_keyOf]
    by_cases hr : r0 = r
    · subst hr
      have hj : c0.toNat < m := by omega
      have hcast : ((c0.toNat : Nat) : Int) = c0 := by omega
      rw [sum_range_update m
        (fun k : Nat =>
          |(JSMap.get ((keyOf r0 c0, a) :: rest) (keyOf r0 k)).getD 0 * B.getElement k c|)
        (fun k : Nat => |(JSMap.get rest (keyOf r0 k)).getD 0 * B.getElement k c|)
        c0.toNat hj]
      · simp only [hcast, JSMap.get, ↓reduceIte, Option.getD_some,
          JSMap.get_eq_none_of_not_mem _ _ hnd.1, Option.getD_none]
        simp only [zero_mul, abs_zero, sub_zero]
        ring
      · intro k hkne
        have hne : keyOf r0 c0 ≠ keyOf r0 k := by
          intro e
          have := (keyOf_injective e).2
          omega
        simp only [JSMap.get, hne, ↓reduceIte]
    · rw [if_neg hr, abs_zero, zero_add]
      apply sum_range_congr
      intro k _
      have hne : keyOf r0 c0 ≠ keyOf r k := fun e => hr (keyOf_injective e).1
      simp only [JSMap.get, hne, ↓reduceIte]

/-- C3 as the code has it: when `A.cols` and `B.rows` are the same integer `n`, `A` is
well formed with every stored column in `[0, n)`, `j` is a column of `B`
(`0 ≤ j < B.cols`), and the absolute values of the products `A(i, k) * B(k, j)` for
`k < n` add up to at most `2^53`, then `multiply(A, B)` returns a matrix whose value at
`(i, j)` is the sum over `k < n` of `A(i, k) * B(k, j)`, whatever the order of the
entries of `A` and whether or not the running sum passes through `0`; on the product
scenario the result is `2x2` with the single entry `(0,0):11`. -/
theorem multiply_safe_getElement (A B : SparseMatrix) (n m : Int) (hA : A.WF)
    (hAc : A.cols = JSNum.int n) (hBr : B.rows = JSNum.int n) (hBc : B.cols = JSNum.int m)
    (hcol : ∀ e ∈ A.data, ∀ p ∈ splitKey e.1, 0 ≤ p.2 ∧ p.2 < n)
    (i j : Int) (hj : 0 ≤ j ∧ j < m)
    (hsafe : ((List.range n.toNat).map
      (fun k : Nat => |A.getElement i k * B.getElement k j|)).sum ≤ 9007199254740992) :
    (∃ M, multiply A B = Except.ok M ∧
      M.getElement i j =
        ((List.range n.toNat).map (fun k : Nat => A.getElement i k * B.getElement k j)).sum) ∧
      multiply scenarioMulA scenarioMulB =
        Except.ok ⟨JSNum.int 2, JSNum.int 2, [(keyOf 0 0, 11)]⟩ := by
  refine ⟨?_, by decide⟩
  have hcol' : ∀ e ∈ A.data, ∀ r c, splitKey e.1 = some (r, c) →
      0 ≤ c ∧ c < ((n.toNat : Nat) : Int) := by
    intro e he r c hs
    have := hcol e he (r, c) hs
    simp only at this
    omega
  have hjb : 0 ≤ j ∧ j < (B.cols.loopBound : Int) := by
    rw [hBc]
    simp only [JSNum.loopBound]
    omega
  have habs : ((A.data.map (contrib B i j)).map (fun x => |x|)).sum ≤ 9007199254740992 := by
    rw [sum_abs_contrib_eq B n.toNat A.data hA.1 hA.2 hcol']
    have hcongr := sum_range_congr n.toNat
      (fun k : Nat => |(A.data.get (keyOf i k)).getD 0 * B.getElement k j|)
      (fun k : Nat => |A.getElement i k * B.getElement k j|)
      (fun k _ => by simp only [getElement_eq A])
    rw [hcongr]
    exact hsafe
  have hval : (A.data.foldl (mulStep B)
      { SparseMatrix.empty with rows := A.rows, cols := B.cols }).getElement i j =
      ((List.range n.toNat).map (fun k : Nat => A.getElement i k * B.getElement k j)).sum := by
    rw [outer_getElement_dbl B A.data hA.2 _ i j hjb (by
        rw [empty_getElement]; simpa using habs),
      empty_getElement, zero_add, sum_contrib_eq B n.toNat A.data hA.1 hA.2 hcol']
    apply sum_range_congr
    intro k _
    rw [getElement_eq A]
  refine ⟨_, ?_, hval⟩
  simp [multiply, hAc, hBr, JSNum.strictNe]

theorem multiply_safe_getElement_witness :
    cancelA.WF ∧ cancelA.cols = JSNum.int 3 ∧ cancelB.rows = JSNum.int 3 ∧
      cancelB.cols = JSNum.int 1 ∧
      (∀ e ∈ cancelA.data, ∀ p ∈ splitKey e.1, 0 ≤ p.2 ∧ p.2 < 3) ∧
      ((List.range (3 : Int).toNat).map
        (fun k : Nat => |cancelA.getElement 0 k * cancelB.getElement k 0|)).sum ≤
          9007199254740992 ∧
      ∃ M, multiply cancelA cancelB = Except.ok M ∧
        M.getElement 0 0 =
          ((List.range (3 : Int).toNat).map
            (fun k : Nat => cancelA.getElement 0 k * cancelB.getElement k 0)).sum :=
  ⟨by decide, rfl, rfl, rfl, by decide, by decide,
    (multiply_safe_getElement cancelA cancelB 3 1 (by decide) rfl rfl rfl (by decide) 0 0
      (by decide) (by decide)).1⟩

/-- C3 as stated fails: the `1x1` matrix holding `94906267`, loaded from text, has the
square `9007199515875289`, and `multiply` returns `9007199515875288`; and with values
beyond `2^53` the product depends on the order of the entries of `A`: the row
`2^53, 1, 1` times a column of ones gives `9007199254740992`, the same row entered as
`1, 1, 2^53` gives `9007199254740994`. -/
theorem multiply_rounds_counterexample :
    fromText "rows=1\ncols=1\n(0, 0, 94906267)".toList = Except.ok squareA ∧
      multiply squareA squareA =
        Except.ok ⟨JSNum.int 1, JSNum.int 1, [(keyOf 0 0, 9007199515875288)]⟩ ∧
      squareA.getElement 0 0 * squareA.getElement 0 0 = 9007199515875289 ∧
      multiply orderA onesB =
        Except.ok ⟨JSNum.int 1, JSNum.int 1, [(keyOf 0 0, 9007199254740992)]⟩ ∧
      multiply orderA' onesB =
        Except.ok ⟨JSNum.int 1, JSNum.int 1, [(keyOf 0 0, 9007199254740994)]⟩ ∧
      (∀ r c, orderA.getElement r c = orderA'.getElement r c) := by
  refine ⟨by decide, by decide, by decide, by decide, by decide, ?_⟩
  intro r c
  rw [getElement_eq, getElement_eq]
  simp only [orderA, orderA', JSMap.get]
  by_cases h0 : keyOf 0 0 = keyOf r c <;> by_cases h1 : keyOf 0 1 = keyOf r c <;>
    by_cases h2 : keyOf 0 2 = keyOf r c <;> simp [h0, h1, h2]
  all_goals
    first
    | exact absurd (keyOf_injective (h0.trans h1.symm)).2 (by decide)
    | exact absurd (keyOf_injective (h0.trans h2.symm)).2 (by decide)

end Dbl

end SparseMatrixJS

namespace SparseMatrixJS

/-! ## Reading and writing with doubles -/

namespace Dbl

open SparseMatrix

theorem parseTriple_dbl (l : Str) :
    parseTriple l =
      (SparseMatrix.parseTriple l).map
        (fun t => (toDouble t.1, toDouble t.2.1, toDouble t.2.2)) := by
  unfold parseTriple SparseMatrix.parseTriple jsNumber
  cases matchTriple l with
  | none => rfl
  | some g =>
    obtain ⟨g1, g2, g3⟩ := g
    cases h1 : SparseMatrixJS.jsNumber g1 <;> cases h2 : SparseMatrixJS.jsNumber g2 <;>
      cases h3 : SparseMatrixJS.jsNumber g3 <;> simp [h1, h2, h3]

theorem parseTriple_dbl_of_safe (l : Str)
    (h : ∀ t ∈ SparseMatrix.parseTriple l, Safe t.1 ∧ Safe t.2.1 ∧ Safe t.2.2) :
    parseTriple l = SparseMatrix.parseTriple l := by
  rw [parseTriple_dbl]
  cases hp : SparseMatrix.parseTriple l with
  | none => rfl
  | some t =>
    obtain ⟨r, c, v⟩ := t
    have hs := h (r, c, v) hp
    simp only [Option.map_some']
    rw [toDouble_of_safe hs.1, toDouble_of_safe hs.2.1, toDouble_of_safe hs.2.2]

theorem parseInt_dbl_of_safe {x : Option Str} {R : Int}
    (h : SparseMatrixJS.parseInt x = JSNum.int R) (hs : Safe R) :
    parseInt x = SparseMatrixJS.parseInt x := by
  unfold parseInt
  rw [h]
  simp only
  rw [toDouble_of_safe hs]

theorem loadLine_dbl_of_safe (N : SparseMatrix) (index : Nat) (line : Str) (hi : 2 ≤ index)
    (h : ∀ t ∈ SparseMatrix.parseTriple (trim line), Safe t.1 ∧ Safe t.2.1 ∧ Safe t.2.2) :
    loadLine N index line = SparseMatrix.loadLine N index line := by
  unfold loadLine SparseMatrix.loadLine
  have h0 : index ≠ 0 := by omega
  have h1 : index ≠ 1 := by omega
  simp only [h0, h1, ↓reduceIte]
  rw [parseTriple_dbl_of_safe _ h]

theorem loadLines_dbl_of_safe (ls : List Str)
    (h : ∀ l ∈ ls, ∀ t ∈ SparseMatrix.parseTriple (trim l),
      Safe t.1 ∧ Safe t.2.1 ∧ Safe t.2.2)
    (M : SparseMatrix) (index : Nat) (hi : 2 ≤ index) :
    loadLines M index ls = SparseMatrix.loadLines M index ls := by
  induction ls generalizing M index with
  | nil => rfl
  | cons l rest ih =>
    unfold loadLines SparseMatrix.loadLines
    rw [loadLine_dbl_of_safe M index l hi (h l (by simp))]
    cases SparseMatrix.loadLine M index l with
    | error e => rfl
    | ok M' => exact ih (fun l hl => h l (List.mem_cons_of_mem _ hl)) M' (index + 1) (by omega)

/-- A text whose two header lines give integers of absolute value at most `2^53` and
whose data lines hold numbers of absolute value at most `2^53` is read alike with doubles
and with exact integers. -/
theorem fromText_dbl_of_safe (t l1 l2 : Str) (ds : List Str) (R C : Int)
    (hsplit : splitOn '\n' (trim t) = l1 :: l2 :: ds)
    (h1 : SparseMatrixJS.parseInt ((splitOn '=' (trim l1)).get? 1) = JSNum.int R)
    (hR : Safe R)
    (h2 : SparseMatrixJS.parseInt ((splitOn '=' (trim l2)).get? 1) = JSNum.int C)
    (hC : Safe C)
    (hds : ∀ l ∈ ds, ∀ t ∈ SparseMatrix.parseTriple (trim l),
      Safe t.1 ∧ Safe t.2.1 ∧ Safe t.2.2) :
    fromText t = SparseMatrix.fromText t := by
  unfold fromText SparseMatrix.fromText loadFromFile SparseMatrix.loadFromFile
  rw [hsplit]
  have e1 : ∀ N, loadLine N 0 l1 = SparseMatrix.loadLine N 0 l1 := by
    intro N
    unfold loadLine SparseMatrix.loadLine
    simp only [↓reduceIte]
    rw [parseInt_dbl_of_safe h1 hR]
  have e2 : ∀ N, loadLine N 1 l2 = SparseMatrix.loadLine N 1 l2 := by
    intro N
    unfold loadLine SparseMatrix.loadLine
    simp only [one_ne_zero, ↓reduceIte]
    rw [parseInt_dbl_of_safe h2 hC]
  unfold loadLines SparseMatrix.loadLines
  rw [e1]
  cases SparseMatrix.loadLine SparseMatrix.empty 0 l1 with
  | error e => rfl
  | ok M1 =>
    simp only
    unfold loadLines SparseMatrix.loadLines
    rw [e2]
    cases SparseMatrix.loadLine M1 (0 + 1) l2 with
    | error e => rfl
    | ok M2 =>
      simp only
      exact loadLines_dbl_of_safe ds hds M2 _ (by omega)

theorem lines_joinWith (ls : List Str) (hne : ls ≠ [])
    (h : ∀ l ∈ ls, Clean l ∧ '\n' ∉ l) :
    splitOn '\n' (trim (joinWith '\n' ls)) = ls := by
  rw [trim_of_clean (clean_joinWith _ hne (fun l hl => (h l hl).1)),
    splitOn_joinWith _ _ hne (fun l hl => (h l hl).2)]

theorem header_rows (R : Int) :
    Clean ("rows=".toList ++ intToDec R) ∧ '\n' ∉ "rows=".toList ++ intToDec R ∧
      SparseMatrixJS.parseInt
        ((splitOn '=' (trim ("rows=".toList ++ intToDec R))).get? 1) = JSNum.int R := by
  have h := header_line "rows".toList R (by decide) (by decide) (by decide)
  have hr : "rows=".toList ++ intToDec R = "rows".toList ++ '=' :: intToDec R := rfl
  rw [← hr] at h
  refine ⟨h.1, h.2.1, ?_⟩
  rw [trim_of_clean h.1]
  exact h.2.2

theorem header_cols (C : Int) :
    Clean ("cols=".toList ++ intToDec C) ∧ '\n' ∉ "cols=".toList ++ intToDec C ∧
      SparseMatrixJS.parseInt
        ((splitOn '=' (trim ("cols=".toList ++ intToDec C))).get? 1) = JSNum.int C := by
  have h := header_line "cols".toList C (by decide) (by decide) (by decide)
  have hr : "cols=".toList ++ intToDec C = "cols".toList ++ '=' :: intToDec C := rfl
  rw [← hr] at h
  refine ⟨h.1, h.2.1, ?_⟩
  rw [trim_of_clean h.1]
  exact h.2.2

theorem entryLine_of_safe {r c v : Int} (hr : Safe r) (hc : Safe c) (hv : Safe v) :
    entryLine r c v = SparseMatrix.entryLine r c v := by
  unfold entryLine SparseMatrix.entryLine
  rw [numberText_of_safe hr, numberText_of_safe hc, numberText_of_safe hv]

theorem dataLines_of_safe (data : JSMap)
    (hsafe : ∀ e ∈ data, Safe e.2 ∧ ∀ p ∈ splitKey e.1, Safe p.1 ∧ Safe p.2) :
    data.filterMap (fun e => (splitKey e.1).map (fun p => entryLine p.1 p.2 e.2)) =
      data.filterMap
        (fun e => (splitKey e.1).map (fun p => SparseMatrix.entryLine p.1 p.2 e.2)) := by
  induction data with
  | nil => rfl
  | cons e rest ih =>
    have hh := hsafe e (by simp)
    have he : (splitKey e.1).map (fun p => entryLine p.1 p.2 e.2) =
        (splitKey e.1).map (fun p => SparseMatrix.entryLine p.1 p.2 e.2) := by
      cases hs : splitKey e.1 with
      | none => rfl
      | some p =>
        have := hh.2 p hs
        simp only [Option.map_some']
        rw [entryLine_of_safe this.1 this.2 hh.1]
    rw [List.filterMap_cons, List.filterMap_cons, he,
      ih (fun e he => hsafe e (List.mem_cons_of_mem _ he))]

theorem saveToFile_of_safe (R C : Int) (data : JSMap) (hR : Safe R) (hC : Safe C)
    (hsafe : ∀ e ∈ data, Safe e.2 ∧ ∀ p ∈ splitKey e.1, Safe p.1 ∧ Safe p.2) :
    saveToFile ⟨JSNum.int R, JSNum.int C, data⟩ =
      SparseMatrix.saveToFile ⟨JSNum.int R, JSNum.int C, data⟩ := by
  unfold saveToFile SparseMatrix.saveToFile saveLines SparseMatrix.saveLines dataLines
    SparseMatrix.dataLines
  simp only [toText, JSNum.toText]
  rw [numberText_of_safe hR, numberText_of_safe hC, dataLines_of_safe data hsafe]

/-- C6 as the code has it: for a well-formed matrix whose dimensions, coordinates and
values are integers of absolute value at most `2^53`, with non-negative coordinates and
no stored zero, reading the text written by `saveToFile` succeeds and returns the same
matrix: same `rows`, same `cols`, same entries (in the same order). -/
theorem roundtrip_safe (M : SparseMatrix) (R C : Int) (hR : M.rows = JSNum.int R)
    (hC : M.cols = JSNum.int C) (hwf : M.WF)
    (hpos : ∀ e ∈ M.data, ∀ p ∈ splitKey e.1, 0 ≤ p.1 ∧ 0 ≤ p.2)
    (hnz : M.NoZero) (hsR : Safe R) (hsC : Safe C)
    (hsafe : ∀ e ∈ M.data, Safe e.2 ∧ ∀ p ∈ splitKey e.1, Safe p.1 ∧ Safe p.2) :
    fromText (saveToFile M) = Except.ok M := by
  obtain ⟨rows, cols, data⟩ := M
  simp only at hR hC hpos hsafe
  subst hR hC
  rw [saveToFile_of_safe R C data hsR hsC hsafe]
  have hrows := header_rows R
  have hcols := header_cols C
  have hlines : ∀ l ∈ SparseMatrix.saveLines ⟨JSNum.int R, JSNum.int C, data⟩,
      Clean l ∧ '\n' ∉ l := by
    intro l hl
    simp only [SparseMatrix.saveLines, List.mem_cons] at hl
    rcases hl with h | h | h
    · rw [h]; exact ⟨hrows.1, hrows.2.1⟩
    · rw [h]; exact ⟨hcols.1, hcols.2.1⟩
    · exact dataLines_props _ l h
  have hsplit : splitOn '\n' (trim (SparseMatrix.saveToFile ⟨JSNum.int R, JSNum.int C, data⟩)) =
      ("rows=".toList ++ intToDec R) :: ("cols=".toList ++ intToDec C) ::
        SparseMatrix.dataLines ⟨JSNum.int R, JSNum.int C, data⟩ :=
    lines_joinWith _ (by simp [SparseMatrix.saveLines]) hlines
  rw [fromText_dbl_of_safe _ _ _ _ R C hsplit hrows.2.2 hsR hcols.2.2 hsC]
  · exact fromText_saveToFile R C data hwf.1 hwf.2
      (fun e he r c hs => hpos e he (r, c) hs) hnz
  · intro l hl t ht
    simp only [SparseMatrix.dataLines, List.mem_filterMap] at hl
    obtain ⟨e, he, hmap⟩ := hl
    cases hs : splitKey e.1 with
    | none => simp [hs] at hmap
    | some p =>
      simp only [hs, Option.map_some', Option.some.injEq] at hmap
      have hp := hpos e he p hs
      have hsf := hsafe e he
      rw [← hmap, trim_of_clean (entryLine_clean _ _ _),
        parseTriple_entryLine p.1 p.2 e.2 hp.1 hp.2] at ht
      simp only [Option.mem_def, Option.some.injEq] at ht
      rw [← ht]
      exact ⟨(hsf.2 p hs).1, (hsf.2 p hs).2, hsf.1⟩

theorem roundtrip_safe_witness :
    scenarioA.rows = JSNum.int 2 ∧ scenarioA.cols = JSNum.int 2 ∧ scenarioA.WF ∧
      (∀ e ∈ scenarioA.data, ∀ p ∈ splitKey e.1, 0 ≤ p.1 ∧ 0 ≤ p.2) ∧
      scenarioA.NoZero ∧ Safe 2 ∧
      (∀ e ∈ scenarioA.data, Safe e.2 ∧ ∀ p ∈ splitKey e.1, Safe p.1 ∧ Safe p.2) ∧
      fromText (saveToFile scenarioA) = Except.ok scenarioA :=
  ⟨rfl, rfl, by decide, by decide, by decide, by decide, by decide,
    roundtrip_safe scenarioA 2 2 rfl rfl (by decide) (by decide) (by decide) (by decide)
      (by decide) (by decide)⟩

/-- C6 as stated fails: the `1x1` matrix holding `10^21` at `(0, 0)`, which is what
the constructor reads from a text with that value, is well formed with non-negative
integer dimensions and coordinates and no stored zero; `saveToFile` writes its value as
`1e+21`, a line the triple pattern rejects, and reading the text throws. -/
theorem roundtrip_counterexample :
    fromText "rows=1\ncols=1\n(0, 0, 1000000000000000000000)".toList = Except.ok hugeM ∧
      hugeM.WF ∧ hugeM.NoZero ∧ hugeM.rows = JSNum.int 1 ∧ hugeM.cols = JSNum.int 1 ∧
      (∀ e ∈ hugeM.data, ∀ p ∈ splitKey e.1, 0 ≤ p.1 ∧ 0 ≤ p.2) ∧
      saveToFile hugeM = "rows=1\ncols=1\n(0, 0, 1e+21)".toList ∧
      fromText (saveToFile hugeM) = Except.error Err.format := by
  decide

end Dbl

end SparseMatrixJS

namespace SparseMatrixJS

/-! ## Data lines in their parts -/

namespace DataLine

open SparseMatrix

theorem dropWhile_space_digits (ds t : Str) (hne : ds ≠ [])
    (h : ∀ ch ∈ ds, isDigit ch = true) :
    (ds ++ t).dropWhile isSpace = ds ++ t := by
  cases ds with
  | nil => exact absurd rfl hne
  | cons a rest =>
    have ha : isSpace a = false := isDigit_not_space (h a (by simp))
    rw [List.cons_append, List.dropWhile_cons_of_neg (by simp [ha])]

theorem readSign_digits (ds t : Str) (hne : ds ≠ []) (h : ∀ ch ∈ ds, isDigit ch = true) :
    readSign (ds ++ t) = ([], ds ++ t) := by
  cases ds with
  | nil => exact absurd rfl hne
  | cons a rest =>
    have ha : isDigit a = true := h a (by simp)
    rw [List.cons_append]
    unfold readSign
    split
    · rename_i t'' heq
      injection heq with h1 _
      rw [h1] at ha
      exact absurd ha (by decide)
    · rfl

/-- The pattern matches a line given in its parts, and captures the three runs of
digits, the third with its sign. -/
theorem matchTriple_text (d : DataLine)
    (h1 : d.rowDigits ≠ [] ∧ ∀ ch ∈ d.rowDigits, isDigit ch = true)
    (h2 : d.colDigits ≠ [] ∧ ∀ ch ∈ d.colDigits, isDigit ch = true)
    (h3 : d.valueDigits ≠ [] ∧ ∀ ch ∈ d.valueDigits, isDigit ch = true)
    (hs1 : ∀ ch ∈ d.space1, isSpace ch = true) (hs2 : ∀ ch ∈ d.space2, isSpace ch = true) :
    matchTriple d.text =
      some (d.rowDigits, d.colDigits, (if d.negative then ['-'] else []) ++ d.valueDigits) := by
  have hcomma : isDigit ',' = false := by decide
  have hparen : isDigit ')' = false := by decide
  unfold text matchTriple
  simp only [Option.bind_eq_bind]
  rw [expect_cons, Option.some_bind, readGroup_digits _ _ _ h1.1 h1.2 hcomma, Option.some_bind]
  simp only
  rw [expect_cons, Option.some_bind, dropWhile_space_append _ _ hs1,
    dropWhile_space_digits _ _ h2.1 h2.2, readGroup_digits _ _ _ h2.1 h2.2 hcomma,
    Option.some_bind]
  simp only
  rw [expect_cons, Option.some_bind, dropWhile_space_append _ _ hs2]
  cases d.negative with
  | false =>
    simp only [Bool.false_eq_true, ↓reduceIte, List.nil_append]
    rw [dropWhile_space_digits _ _ h3.1 h3.2, readSign_digits _ _ h3.1 h3.2]
    simp only
    rw [readGroup_digits _ _ _ h3.1 h3.2 hparen]
    simp [expect]
  | true =>
    simp only [↓reduceIte, List.singleton_append]
    rw [List.dropWhile_cons_of_neg (by decide)]
    simp only [readSign]
    rw [readGroup_digits _ _ _ h3.1 h3.2 hparen]
    simp [expect]

/-- The numbers read from a line given in its parts are the decimal values of its runs
of digits, the third negated under a sign. -/
theorem parseTriple_text (d : DataLine)
    (h1 : d.rowDigits ≠ [] ∧ ∀ ch ∈ d.rowDigits, isDigit ch = true)
    (h2 : d.colDigits ≠ [] ∧ ∀ ch ∈ d.colDigits, isDigit ch = true)
    (h3 : d.valueDigits ≠ [] ∧ ∀ ch ∈ d.valueDigits, isDigit ch = true)
    (hs1 : ∀ ch ∈ d.space1, isSpace ch = true) (hs2 : ∀ ch ∈ d.space2, isSpace ch = true) :
    SparseMatrix.parseTriple d.text = some (d.row, d.col, d.value) := by
  unfold SparseMatrix.parseTriple
  rw [matchTriple_text d h1 h2 h3 hs1 hs2]
  simp only [Option.bind_eq_bind, Option.some_bind]
  rw [jsNumber_digits h1.1 h1.2, jsNumber_digits h2.1 h2.2]
  simp only [Option.some_bind]
  unfold row col value
  cases d.negative with
  | false =>
    simp only [Bool.false_eq_true, ↓reduceIte, List.nil_append]
    rw [jsNumber_digits h3.1 h3.2]
    rfl
  | true =>
    simp only [↓reduceIte, List.singleton_append]
    rw [jsNumber_minus_digits h3.1 h3.2]
    rfl

theorem parseTriple_valid {d : DataLine} (hv : d.Valid) :
    SparseMatrix.parseTriple d.text = some (d.row, d.col, d.value) :=
  parseTriple_text d hv.1 hv.2.1 hv.2.2.1 (fun ch h => (hv.2.2.2.1 ch h).1)
    (fun ch h => (hv.2.2.2.2 ch h).1)

theorem matchTriple_valid {d : DataLine} (hv : d.Valid) :
    (matchTriple d.text).isSome = true := by
  rw [matchTriple_text d hv.1 hv.2.1 hv.2.2.1 (fun ch h => (hv.2.2.2.1 ch h).1)
    (fun ch h => (hv.2.2.2.2 ch h).1)]
  rfl

theorem digit_ne_newline {ds : Str} (h : ∀ ch ∈ ds, isDigit ch = true) : '\n' ∉ ds := by
  intro hm
  exact absurd (h _ hm) (by decide)

theorem text_no_newline {d : DataLine} (hv : d.Valid) : '\n' ∉ d.text := by
  obtain ⟨⟨_, h1⟩, ⟨_, h2⟩, ⟨_, h3⟩, hs1, hs2⟩ := hv
  have n1 := digit_ne_newline h1
  have n2 := digit_ne_newline h2
  have n3 := digit_ne_newline h3
  have m1 : '\n' ∉ d.space1 := fun hm => (hs1 _ hm).2 rfl
  have m2 : '\n' ∉ d.space2 := fun hm => (hs2 _ hm).2 rfl
  unfold text
  cases d.negative <;> simp [n1, n2, n3, m1, m2]

/-- Every line without line feed that the pattern matches is a line given in its
parts. -/
theorem exists_of_match {l : Str} (h : (matchTriple l).isSome = true) (hnl : '\n' ∉ l) :
    ∃ d : DataLine, d.Valid ∧ d.text = l := by
  cases hm : matchTriple l with
  | none => rw [hm] at h; exact absurd h (by simp)
  | some g =>
    obtain ⟨g1, g2, g3⟩ := g
    obtain ⟨w1, w2, sign, ds, hl, _, hsign, hg1, hg2, hds, hw1, hw2⟩ := matchTriple_shape hm
    have hw1' : ∀ ch ∈ w1, isSpace ch = true ∧ ch ≠ '\n' := by
      intro ch hch
      refine ⟨hw1 ch hch, ?_⟩
      intro e
      apply hnl
      rw [hl, ← e]
      simp [hch]
    have hw2' : ∀ ch ∈ w2, isSpace ch = true ∧ ch ≠ '\n' := by
      intro ch hch
      refine ⟨hw2 ch hch, ?_⟩
      intro e
      apply hnl
      rw [hl, ← e]
      simp [hch]
    rcases hsign with hs | hs
    · refine ⟨⟨g1, w1, g2, w2, false, ds⟩, ⟨hg1, hg2, hds, hw1', hw2'⟩, ?_⟩
      rw [hl, hs]
      rfl
    · refine ⟨⟨g1, w1, g2, w2, true, ds⟩, ⟨hg1, hg2, hds, hw1', hw2'⟩, ?_⟩
      rw [hl, hs]
      rfl

theorem filterMap_parseTriple (ds : List DataLine) (h : ∀ d ∈ ds, d.Valid) :
    (ds.map text).filterMap SparseMatrix.parseTriple =
      ds.map (fun d => (d.row, d.col, d.value)) := by
  induction ds with
  | nil => rfl
  | cons d rest ih =>
    rw [List.map_cons, List.filterMap_cons, parseTriple_valid (h d (by simp)),
      ih (fun d hd => h d (List.mem_cons_of_mem _ hd))]
    rfl

end DataLine

namespace Dbl

open SparseMatrix

/-- C17 as the code has it: for a text made of the line `rows=R`, the line `cols=C`
and data lines of the shape of the pattern (`(`, digits, a comma, white space, digits,
a comma, white space, an optional `-`, digits, `)`), where `R`, `C` and the numbers of
the data lines are at most `2^53` in absolute value, the constructor succeeds with
`rows = R`, `cols = C`, and `getElement(r, c)` is the value of the last data line whose
row and column, the decimal values of its first two runs of digits, are `(r, c)`, and
`0` when there is none; so a data line of value `0` is accepted and leaves no entry at
its coordinate, also when an earlier line had set one.  Each such line matches the
pattern, and every line without line feed that matches the pattern has this shape. -/
theorem fromText_dataLines (R C : Int) (ds : List DataLine) (hR : Safe R) (hC : Safe C)
    (hds : ∀ d ∈ ds, d.Valid ∧ Safe d.row ∧ Safe d.col ∧ Safe d.value) :
    (∃ M, fromText (joinWith '\n'
          (("rows=".toList ++ intToDec R) :: ("cols=".toList ++ intToDec C) ::
            ds.map DataLine.text)) = Except.ok M ∧
        M.rows = JSNum.int R ∧ M.cols = JSNum.int C ∧
        (∀ r c, M.getElement r c =
          lastValue (ds.map (fun d => (d.row, d.col, d.value))) r c) ∧
        (∀ r c, lastValue (ds.map (fun d => (d.row, d.col, d.value))) r c = 0 →
          M.data.has (keyOf r c) = false)) ∧
      (∀ d ∈ ds, (matchTriple d.text).isSome = true) ∧
      (∀ l : Str, (matchTriple l).isSome = true → '\n' ∉ l →
        ∃ d : DataLine, d.Valid ∧ d.text = l) := by
  refine ⟨?_, fun d hd => DataLine.matchTriple_valid (hds d hd).1,
    fun l h hnl => DataLine.exists_of_match h hnl⟩
  have hls : ∀ l ∈ ds.map DataLine.text, (matchTriple l).isSome = true ∧ '\n' ∉ l := by
    intro l hl
    obtain ⟨d, hd, e⟩ := List.mem_map.1 hl
    rw [← e]
    exact ⟨DataLine.matchTriple_valid (hds d hd).1, DataLine.text_no_newline (hds d hd).1⟩
  have hrows := header_rows R
  have hcols := header_cols C
  have hlines : ∀ l ∈ ("rows=".toList ++ intToDec R) :: ("cols=".toList ++ intToDec C) ::
      ds.map DataLine.text, Clean l ∧ '\n' ∉ l := by
    intro l hl
    simp only [List.mem_cons] at hl
    rcases hl with h | h | h
    · rw [h]; exact ⟨hrows.1, hrows.2.1⟩
    · rw [h]; exact ⟨hcols.1, hcols.2.1⟩
    · exact ⟨clean_of_matchTriple (hls l h).1, (hls l h).2⟩
  have hsafe : ∀ l ∈ ds.map DataLine.text, ∀ t ∈ SparseMatrix.parseTriple (trim l),
      Safe t.1 ∧ Safe t.2.1 ∧ Safe t.2.2 := by
    intro l hl t ht
    obtain ⟨d, hd, e⟩ := List.mem_map.1 hl
    have hv := hds d hd
    rw [trim_of_clean (clean_of_matchTriple (hls l hl).1), ← e,
      DataLine.parseTriple_valid hv.1] at ht
    simp only [Option.mem_def, Option.some.injEq] at ht
    rw [← ht]
    exact hv.2
  have hload := fromText_dbl_of_safe _ _ _ _ R C (lines_joinWith _ (by simp) hlines)
    hrows.2.2 hR hcols.2.2 hC hsafe
  rw [fromText_lines R C _ hls,
    DataLine.filterMap_parseTriple ds (fun d hd => (hds d hd).1)] at hload
  have hget : ∀ r c, ((ds.map (fun d => (d.row, d.col, d.value))).foldl
      (fun N (t : Int × Int × Int) => N.setElement t.1 t.2.1 t.2.2)
      (⟨JSNum.int R, JSNum.int C, []⟩ : SparseMatrix)).getElement r c =
      lastValue (ds.map (fun d => (d.row, d.col, d.value))) r c := by
    intro r c
    rw [foldl_setElement_getElement]
    rfl
  have hdims := foldl_kept (fun N (t : Int × Int × Int) => N.setElement t.1 t.2.1 t.2.2)
    (fun res t h => keptBySet_dims (JSNum.int R) (JSNum.int C) res t.1 t.2.1 t.2.2 h)
    (ds.map (fun d => (d.row, d.col, d.value))) ⟨JSNum.int R, JSNum.int C, []⟩ ⟨rfl, rfl⟩
  have hnz := foldl_kept (fun N (t : Int × Int × Int) => N.setElement t.1 t.2.1 t.2.2)
    (fun res t h => keptBySet_NoZero res t.1 t.2.1 t.2.2 h)
    (ds.map (fun d => (d.row, d.col, d.value))) ⟨JSNum.int R, JSNum.int C, []⟩
    (NoZero_init (JSNum.int R) (JSNum.int C))
  refine ⟨_, hload, hdims.1, hdims.2, hget, ?_⟩
  intro r c h0
  exact has_false_of_getElement_zero hnz r c (by rw [hget, h0])

end Dbl

end SparseMatrixJS

namespace SparseMatrixJS

namespace Dbl

open SparseMatrix

theorem fromText_dataLines_witness :
    Safe 2 ∧
      (∀ d ∈ sampleLines, d.Valid ∧ Safe d.row ∧ Safe d.col ∧ Safe d.value) ∧
      ∃ M, fromText (joinWith '\n'
          (("rows=".toList ++ intToDec 2) :: ("cols=".toList ++ intToDec 2) ::
            sampleLines.map DataLine.text)) = Except.ok M ∧
        M.rows = JSNum.int 2 ∧ M.cols = JSNum.int 2 ∧ M.getElement 0 0 = 0 ∧
        M.getElement 1 1 = 4 ∧ M.data.has (keyOf 0 0) = false := by
  obtain ⟨M, h1, h2, h3, h5, h6⟩ :=
    (fromText_dataLines 2 2 sampleLines (by decide) (by decide) (by decide)).1
  exact ⟨by decide, by decide, M, h1, h2, h3, by rw [h5]; decide, by rw [h5]; decide,
    h6 0 0 (by decide)⟩

/-- C17 as stated fails: the line `rows=99999999999999999999999` gives
`rows = 99999999999999991611392`, the nearest double, not the number written; and of the
two data lines `(9007199254740992, 0, 7)` and `(9007199254740993, 0, 5)`, which match
the pattern, the second is stored at the row `9007199254740992`, so `getElement` there
is `5` while the last data line of that coordinate has the value `7`. -/
theorem fromText_dataLines_counterexample :
    fromText "rows=99999999999999999999999\ncols=1".toList =
        Except.ok ⟨JSNum.int 99999999999999991611392, JSNum.int 1, []⟩ ∧
      JSNum.int 99999999999999991611392 ≠ JSNum.int 99999999999999999999999 ∧
      (matchTriple "(9007199254740992, 0, 7)".toList).isSome = true ∧
      (matchTriple "(9007199254740993, 0, 5)".toList).isSome = true ∧
      fromText "rows=1\ncols=1\n(9007199254740992, 0, 7)\n(9007199254740993, 0, 5)".toList =
        Except.ok ⟨JSNum.int 1, JSNum.int 1, [(keyOf 9007199254740992 0, 5)]⟩ ∧
      SparseMatrix.getElement ⟨JSNum.int 1, JSNum.int 1, [(keyOf 9007199254740992 0, 5)]⟩
        9007199254740992 0 = 5 ∧
      lastValue [(9007199254740992, 0, 7), (9007199254740993, 0, 5)] 9007199254740992 0 = 7 := by
  decide

/-! ## White space in a data line -/

theorem parseTriple_text_dbl (d : DataLine)
    (h1 : d.rowDigits ≠ [] ∧ ∀ ch ∈ d.rowDigits, isDigit ch = true)
    (h2 : d.colDigits ≠ [] ∧ ∀ ch ∈ d.colDigits, isDigit ch = true)
    (h3 : d.valueDigits ≠ [] ∧ ∀ ch ∈ d.valueDigits, isDigit ch = true)
    (hs1 : ∀ ch ∈ d.space1, isSpace ch = true) (hs2 : ∀ ch ∈ d.space2, isSpace ch = true) :
    parseTriple d.text = some (toDouble d.row, toDouble d.col, toDouble d.value) := by
  rw [parseTriple_dbl, DataLine.parseTriple_text d h1 h2 h3 hs1 hs2]
  rfl

theorem loadLine_text_dbl (M : SparseMatrix) (index : Nat) (hi : 2 ≤ index) (d : DataLine)
    (h1 : d.rowDigits ≠ [] ∧ ∀ ch ∈ d.rowDigits, isDigit ch = true)
    (h2 : d.colDigits ≠ [] ∧ ∀ ch ∈ d.colDigits, isDigit ch = true)
    (h3 : d.valueDigits ≠ [] ∧ ∀ ch ∈ d.valueDigits, isDigit ch = true)
    (hs1 : ∀ ch ∈ d.space1, isSpace ch = true) (hs2 : ∀ ch ∈ d.space2, isSpace ch = true) :
    loadLine M index d.text =
      Except.ok (M.setElement (toDouble d.row) (toDouble d.col) (toDouble d.value)) := by
  have hclean : Clean d.text := clean_of_matchTriple (by
    rw [DataLine.matchTriple_text d h1 h2 h3 hs1 hs2]; rfl)
  unfold loadLine
  rw [trim_of_clean hclean, if_neg (clean_ne_nil hclean)]
  simp only
  rw [if_neg (by omega), if_neg (by omega), parseTriple_text_dbl d h1 h2 h3 hs1 hs2]

theorem loadLine_bad_dbl {M : SparseMatrix} {index : Nat} {line : Str} (hi : 2 ≤ index)
    (hne : trim line ≠ []) (hm : matchTriple (trim line) = none) :
    loadLine M index line = Except.error Err.format := by
  unfold loadLine
  rw [if_neg hne]
  simp only
  rw [if_neg (by omega), if_neg (by omega), parseTriple_dbl,
    (parseTriple_eq_none_iff _).2 hm]
  rfl

theorem mem_of_mem_trim {ch : Char} {l : Str} (h : ch ∈ trim l) : ch ∈ l := by
  unfold trim at h
  rw [List.mem_reverse] at h
  have h2 := (List.dropWhile_sublist isSpace).subset h
  rw [List.mem_reverse] at h2
  exact (List.dropWhile_sublist isSpace).subset h2

/-- C16 as the code has it: after each comma of a data line any run of white space, the
empty one included, is accepted.  A line made of `(`, digits, a comma, white space,
digits, a comma, white space, an optional `-`, digits and `)` is read without error at an
index from `2` on; what it does to the matrix does not depend on the white space after
the commas; and when its three numbers are at most `2^53` in absolute value it sets the
element at its row and column to its value.  A non-blank line without line feed is read
without error only if, once trimmed, it has this shape: white space elsewhere inside the
line is a format error, as in `( 0, 0, 1)`, `(0 , 0, 1)` and `(0, 0, 1 )`. -/
theorem dataLine_spacing (M : SparseMatrix) (index : Nat) (hi : 2 ≤ index) (d : DataLine)
    (hv : d.Valid) :
    (∃ N, loadLine M index d.text = Except.ok N) ∧
      (∀ w1 w2 : Str, (∀ ch ∈ w1, isSpace ch = true) → (∀ ch ∈ w2, isSpace ch = true) →
        loadLine M index (DataLine.text { d with space1 := w1, space2 := w2 }) =
          loadLine M index d.text) ∧
      (Safe d.row → Safe d.col → Safe d.value →
        loadLine M index d.text = Except.ok (M.setElement d.row d.col d.value)) ∧
      (∀ l : Str, '\n' ∉ l → trim l ≠ [] → (∃ N, loadLine M index l = Except.ok N) →
        ∃ e : DataLine, e.Valid ∧ e.text = trim l) ∧
      loadLine M index "( 0, 0, 1)".toList = Except.error Err.format ∧
      loadLine M index "(0 , 0, 1)".toList = Except.error Err.format ∧
      loadLine M index "(0, 0, 1 )".toList = Except.error Err.format := by
  have hs1 : ∀ ch ∈ d.space1, isSpace ch = true := fun ch h => (hv.2.2.2.1 ch h).1
  have hs2 : ∀ ch ∈ d.space2, isSpace ch = true := fun ch h => (hv.2.2.2.2 ch h).1
  have hload := loadLine_text_dbl M index hi d hv.1 hv.2.1 hv.2.2.1 hs1 hs2
  refine ⟨⟨_, hload⟩, ?_, ?_, ?_, loadLine_bad_dbl hi (by decide) (by decide),
    loadLine_bad_dbl hi (by decide) (by decide), loadLine_bad_dbl hi (by decide) (by decide)⟩
  · intro w1 w2 hw1 hw2
    rw [hload]
    exact loadLine_text_dbl M index hi { d with space1 := w1, space2 := w2 }
      hv.1 hv.2.1 hv.2.2.1 hw1 hw2
  · intro hr hc hval
    rw [hload, toDouble_of_safe hr, toDouble_of_safe hc, toDouble_of_safe hval]
  · intro l hnl hne hok
    obtain ⟨N, hN⟩ := hok
    have hm : (matchTriple (trim l)).isSome = true := by
      cases hmt : matchTriple (trim l) with
      | none =>
        rw [loadLine_bad_dbl hi hne hmt] at hN
        exact absurd hN (by simp)
      | some g => rfl
    exact DataLine.exists_of_match hm (fun h => hnl (mem_of_mem_trim h))

theorem dataLine_spacing_witness :
    (2 : Nat) ≤ 2 ∧
      DataLine.Valid ⟨"0".toList, [], "0".toList, "  ".toList, false, "1".toList⟩ ∧
      loadLine SparseMatrix.empty 2 "(0,0,  1)".toList =
        Except.ok (SparseMatrix.empty.setElement 0 0 1) ∧
      loadLine SparseMatrix.empty 2 "(0, 0, 1)".toList =
        loadLine SparseMatrix.empty 2 "(0,0,  1)".toList :=
  ⟨by decide, by decide,
    (dataLine_spacing SparseMatrix.empty 2 (by decide)
      ⟨"0".toList, [], "0".toList, "  ".toList, false, "1".toList⟩ (by decide)).2.2.1
      (by decide) (by decide) (by decide),
    (dataLine_spacing SparseMatrix.empty 2 (by decide)
      ⟨"0".toList, [], "0".toList, "  ".toList, false, "1".toList⟩ (by decide)).2.1
      " ".toList " ".toList (by decide) (by decide)⟩

end Dbl

end SparseMatrixJS
